import Mathlib

/-!
Verification of the `tinybtree` B-tree (Go, `btree.go`).

The embedding mirrors the Go source.  A Go `node` stores up to `maxItems`
items and `maxItems+1` child pointers in fixed arrays together with a
`numItems` counter; we model the meaningful prefixes as lists (`items` of
length `numItems`, `children` of length `numItems+1` for internal nodes and
`[]` for leaves, whose child pointers are all nil).  The Go code drives every
recursion by the `height` counter stored in the tree handle, never by the
node shape, and we keep that: every operation recurses on `height : Nat`.
Go `interface{}` values are a type parameter `V`; the `nil` interface that
the API returns when nothing is found becomes `none : Option V`.
A nil-pointer dereference (possible in `getOrNearest`) is modelled by an
`Option`-valued result, `none` standing for the runtime panic.
-/

namespace Tinybtree

/-- `const maxItems = 31`. -/
def maxItems : Nat := 31

/-- `const minItems = maxItems * 40 / 100`. -/
def minItems : Nat := maxItems * 40 / 100

/-- `const freeKey = -int64(^uint64(0) >> 1)`: the minimum int64. -/
def freeKey : Int := -(2 ^ 63 - 1)

/-- `type item struct { key int64; value interface{} }`. -/
structure Item (V : Type) where
  key : Int
  value : V
  deriving Repr, DecidableEq

/-- The zero item `item{}`: zero key and zero value. -/
instance {V : Type} [Inhabited V] : Inhabited (Item V) := ⟨⟨0, default⟩⟩

/-- `type node struct { numItems int; items [maxItems]item; children [maxItems+1]*node }`.
`items` is the meaningful prefix (`numItems` entries); `children` is the
meaningful prefix of child pointers (empty at a leaf, where they are nil). -/
inductive Node (V : Type) where
  | mk (items : List (Item V)) (children : List (Node V))

/-- The items stored in the node itself. -/
def Node.items {V : Type} : Node V → List (Item V)
  | .mk its _ => its

/-- The children of the node. -/
def Node.children {V : Type} : Node V → List (Node V)
  | .mk _ cs => cs

/-- The keys of the items stored in the node itself. -/
def Node.keys {V : Type} (n : Node V) : List Int := n.items.map Item.key

/-- `type BTree struct { height int; root *node; length int }`. -/
structure BTree (V : Type) where
  height : Nat
  root : Option (Node V)
  length : Nat

/-- The zero `BTree` value: a valid empty tree. -/
def BTree.empty {V : Type} : BTree V := ⟨0, none, 0⟩

/-! ### The binary-search primitive `node.find` -/

/-- The loop of `node.find`:
`for i < j { h := i+(j-i)/2; if key >= items[h].key { i = h+1 } else { j = h } }`.
The loop is rendered with a fuel argument; each iteration shrinks `j - i`, so
fuel `keys.length` (an upper bound of the initial `j - i`) always suffices. -/
def findLoop (ks : List Int) (key : Int) : Nat → Nat → Nat → Nat
  | 0, i, _ => i
  | fuel + 1, i, j =>
    if i < j then
      let h := i + (j - i) / 2
      if ks.getD h 0 ≤ key then findLoop ks key fuel (h + 1) j
      else findLoop ks key fuel i h
    else i

/-- `func (n *node) find(key int64) (index int, found bool)`. -/
def Node.find {V : Type} (n : Node V) (key : Int) : Nat × Bool :=
  let ks := n.keys
  let i := findLoop ks key ks.length 0 ks.length
  if 0 < i ∧ key ≤ ks.getD (i - 1) 0 then (i - 1, true) else (i, false)

/-! ### `node.split` and `Set` -/

/-- `func (n *node) split(height int) (right *node, median item)`.
Only called on a node holding exactly `maxItems` items.  Returns the
shrunken left node (the Go code mutates `n` in place), the new right node
and the median item.  At `height = 0` the Go code leaves the (nil) child
arrays alone, matching the empty child lists here. -/
def Node.split {V : Type} [Inhabited V] (n : Node V) (height : Nat) :
    Node V × Node V × Item V :=
  let median := n.items.getD (maxItems / 2) default
  let right : Node V :=
    ⟨n.items.drop (maxItems / 2 + 1),
     if 0 < height then n.children.drop (maxItems / 2 + 1) else []⟩
  let left : Node V :=
    ⟨n.items.take (maxItems / 2),
     if 0 < height then n.children.take (maxItems / 2 + 1) else n.children⟩
  (left, right, median)

/-- `func (n *node) set(key int64, value interface{}, height int) (prev interface{}, replaced bool)`.
Returns the Go results together with the updated node (the Go code mutates
`n` through the receiver pointer). -/
def Node.set {V : Type} [Inhabited V] (key : Int) (value : V) :
    Nat → Node V → (Option V × Bool) × Node V
  | 0, n =>
    let (i, found) := n.find key
    if found then
      ((some (n.items.getD i default).value, true),
       ⟨n.items.set i ⟨(n.items.getD i default).key, value⟩, n.children⟩)
    else
      ((none, false), ⟨n.items.insertIdx i ⟨key, value⟩, n.children⟩)
  | h + 1, n =>
    let (i, found) := n.find key
    if found then
      ((some (n.items.getD i default).value, true),
       ⟨n.items.set i ⟨(n.items.getD i default).key, value⟩, n.children⟩)
    else
      let c := n.children.getD i ⟨[], []⟩
      let ((prev, replaced), c') := Node.set key value h c
      if replaced then ((prev, true), ⟨n.items, n.children.set i c'⟩)
      else if c'.items.length = maxItems then
        let (l, r, median) := c'.split h
        ((prev, false),
         ⟨n.items.insertIdx i median,
          (n.children.set i l).insertIdx (i + 1) r⟩)
      else ((prev, false), ⟨n.items, n.children.set i c'⟩)

/-- `func (tr *BTree) Set(key int64, value interface{}) (prev interface{}, replaced bool)`. -/
def BTree.set {V : Type} [Inhabited V] (tr : BTree V) (key : Int) (value : V) :
    (Option V × Bool) × BTree V :=
  match tr.root with
  | none => ((none, false), ⟨tr.height, some ⟨[⟨key, value⟩], []⟩, 1⟩)
  | some root =>
    let ((prev, replaced), root') := Node.set key value tr.height root
    if replaced then ((prev, true), ⟨tr.height, some root', tr.length⟩)
    else if root'.items.length = maxItems then
      let (l, r, median) := root'.split tr.height
      ((prev, false),
       ⟨tr.height + 1, some ⟨[median], [l, r]⟩, tr.length + 1⟩)
    else ((prev, false), ⟨tr.height, some root', tr.length + 1⟩)

/-! ### `Get` -/

/-- `func (n *node) get(key int64, height int) (value interface{}, gotten bool)`. -/
def Node.get {V : Type} (key : Int) : Nat → Node V → Option V × Bool
  | 0, n =>
    let (i, found) := n.find key
    if found then ((n.items.get? i).map Item.value, true) else (none, false)
  | h + 1, n =>
    let (i, found) := n.find key
    if found then ((n.items.get? i).map Item.value, true)
    else Node.get key h (n.children.getD i ⟨[], []⟩)

/-- `func (tr *BTree) Get(key int64) (value interface{}, gotten bool)`. -/
def BTree.get {V : Type} (tr : BTree V) (key : Int) : Option V × Bool :=
  match tr.root with
  | none => (none, false)
  | some root => Node.get key tr.height root

/-- `func (tr *BTree) Len() int`. -/
def BTree.len {V : Type} (tr : BTree V) : Nat := tr.length

/-! ### `Delete` -/

/-- The rebalancing tail of `func (n *node) delete` (lines 237–293): after a
successful deletion in child `i0`, if that child underflowed, merge it with
or borrow from a sibling.  `height` is the height of `n` itself, so
`1 < height` is Go's `height > 1` guard around grandchild copying. -/
def Node.rebalance {V : Type} [Inhabited V] (height : Nat) (i0 : Nat)
    (n : Node V) : Node V :=
  if (n.children.getD i0 ⟨[], []⟩).items.length < minItems then
    let i := if i0 = n.items.length then i0 - 1 else i0
    let l := n.children.getD i ⟨[], []⟩
    let r := n.children.getD (i + 1) ⟨[], []⟩
    if l.items.length + r.items.length + 1 < maxItems then
      -- merge left + item + right
      let l' : Node V :=
        ⟨l.items ++ n.items.getD i default :: r.items,
         if 1 < height then l.children ++ r.children else l.children⟩
      ⟨n.items.eraseIdx i, (n.children.set i l').eraseIdx (i + 1)⟩
    else if r.items.length < l.items.length then
      -- move left -> right
      let r' : Node V :=
        ⟨n.items.getD i default :: r.items,
         if 1 < height then
           l.children.getD l.items.length ⟨[], []⟩ :: r.children
         else r.children⟩
      let l' : Node V :=
        ⟨l.items.take (l.items.length - 1),
         if 1 < height then l.children.take l.items.length else l.children⟩
      ⟨n.items.set i (l.items.getD (l.items.length - 1) default),
       (n.children.set i l').set (i + 1) r'⟩
    else
      -- move right -> left
      let l' : Node V :=
        ⟨l.items ++ [n.items.getD i default],
         if 1 < height then l.children ++ [r.children.getD 0 ⟨[], []⟩]
         else l.children⟩
      let r' : Node V :=
        ⟨r.items.drop 1, if 1 < height then r.children.drop 1 else r.children⟩
      ⟨n.items.set i (r.items.getD 0 default),
       (n.children.set i l').set (i + 1) r'⟩
  else n

/-- `func (n *node) delete(max bool, key int64, height int) (prev item, deleted bool)`.
Returns the Go results together with the updated node.  In `max` mode the
key is ignored and the rightmost item of the subtree is extracted. -/
def Node.delete {V : Type} [Inhabited V] (max : Bool) (key : Int) :
    Nat → Node V → (Item V × Bool) × Node V
  | 0, n =>
    let (i, found) := if max then (n.items.length - 1, true) else n.find key
    if found then
      ((n.items.getD i default, true), ⟨n.items.eraseIdx i, n.children⟩)
    else ((default, false), n)
  | h + 1, n =>
    let (i0, found) := if max then (n.items.length - 1, true) else n.find key
    let step : (Item V × Bool) × Nat × Node V :=
      if found then
        if max then
          let i := i0 + 1
          let ((prev, deleted), c') :=
            Node.delete true freeKey h (n.children.getD i ⟨[], []⟩)
          ((prev, deleted), i, ⟨n.items, n.children.set i c'⟩)
        else
          let prev := n.items.getD i0 default
          let ((maxItem, _), c') :=
            Node.delete true freeKey h (n.children.getD i0 ⟨[], []⟩)
          ((prev, true), i0, ⟨n.items.set i0 maxItem, n.children.set i0 c'⟩)
      else
        let ((prev, deleted), c') :=
          Node.delete max key h (n.children.getD i0 ⟨[], []⟩)
        ((prev, deleted), i0, ⟨n.items, n.children.set i0 c'⟩)
    let ((prev, deleted), i, n₁) := step
    if deleted then ((prev, true), n₁.rebalance (h + 1) i) else ((prev, false), n₁)

/-- `func (tr *BTree) Delete(key int64) (prev interface{}, deleted bool)`. -/
def BTree.delete {V : Type} [Inhabited V] (tr : BTree V) (key : Int) :
    (Option V × Bool) × BTree V :=
  match tr.root with
  | none => ((none, false), tr)
  | some root =>
    let ((prevItem, deleted), root') := Node.delete false key tr.height root
    if deleted then
      let tr₁ : BTree V :=
        if root'.items.length = 0 then
          ⟨tr.height - 1, root'.children.head?, tr.length - 1⟩
        else ⟨tr.height, some root', tr.length - 1⟩
      let tr₂ : BTree V := if tr₁.length = 0 then ⟨0, none, 0⟩ else tr₁
      ((some prevItem.value, true), tr₂)
    else ((none, false), ⟨tr.height, some root', tr.length⟩)

/-! ### Traversals

A Go visitor `func(key int64, value interface{}) bool` is a closure that may
carry mutable state; we model it as `f : σ → Int → V → σ × Bool` and thread
the state `σ` explicitly.  Downward Go loops (`for i := numItems-1; i >= 0;
i--`) are rendered as forward recursion over the reversed list. -/

/-- The leaf loop of `node.scan` (and the item loops of `ascend`):
visit items in order, stopping as soon as the visitor returns false. -/
def visitItems {V σ : Type} (f : σ → Int → V → σ × Bool) :
    List (Item V) → σ → σ × Bool
  | [], s => (s, true)
  | it :: its, s =>
    match f s it.key it.value with
    | (s', true) => visitItems f its s'
    | (s', false) => (s', false)

/-- The internal-node loop of `node.scan`: child, item, child, item, …,
last child; `g` visits a child subtree. -/
def scanWalk {V σ : Type} (g : Node V → σ → σ × Bool)
    (f : σ → Int → V → σ × Bool) :
    List (Item V) → List (Node V) → σ → σ × Bool
  | [], [], s => (s, true)
  | [], c :: _, s => g c s
  | _ :: _, [], s => (s, true)
  | it :: its, c :: cs, s =>
    match g c s with
    | (s₁, false) => (s₁, false)
    | (s₁, true) =>
      match f s₁ it.key it.value with
      | (s₂, false) => (s₂, false)
      | (s₂, true) => scanWalk g f its cs s₂

/-- `func (n *node) scan(iter func(...) bool, height int) bool`. -/
def Node.scan {V σ : Type} (f : σ → Int → V → σ × Bool) :
    Nat → Node V → σ → σ × Bool
  | 0, n, s => visitItems f n.items s
  | h + 1, n, s =>
    scanWalk (fun c s' => Node.scan f h c s') f n.items n.children s

/-- `func (tr *BTree) Scan(iter func(...) bool)`: the result a caller
observes is the final state of the visitor closure. -/
def BTree.scan {V σ : Type} (tr : BTree V) (f : σ → Int → V → σ × Bool)
    (s : σ) : σ :=
  match tr.root with
  | none => s
  | some root => (Node.scan f tr.height root s).1

/-- The downward loop of `node.reverse` after the last child: item, child,
item, child, … — over the reversed item/child lists. -/
def revWalk {V σ : Type} (g : Node V → σ → σ × Bool)
    (f : σ → Int → V → σ × Bool) :
    List (Item V) → List (Node V) → σ → σ × Bool
  | [], _, s => (s, true)
  | it :: its, [], s =>
    -- unreachable for a well-formed internal node
    (visitItems f (it :: its) s)
  | it :: its, c :: cs, s =>
    match f s it.key it.value with
    | (s₁, false) => (s₁, false)
    | (s₁, true) =>
      match g c s₁ with
      | (s₂, false) => (s₂, false)
      | (s₂, true) => revWalk g f its cs s₂

/-- `func (n *node) reverse(iter func(...) bool, height int) bool`. -/
def Node.reverse {V σ : Type} (f : σ → Int → V → σ × Bool) :
    Nat → Node V → σ → σ × Bool
  | 0, n, s => visitItems f n.items.reverse s
  | h + 1, n, s =>
    match n.children.reverse with
    | [] => (s, true) -- unreachable for a well-formed internal node
    | c :: csR =>
      match Node.reverse f h c s with
      | (s₁, false) => (s₁, false)
      | (s₁, true) =>
        revWalk (fun c' s' => Node.reverse f h c' s') f n.items.reverse csR s₁

/-- `func (tr *BTree) Reverse(iter func(...) bool)`. -/
def BTree.reverse {V σ : Type} (tr : BTree V) (f : σ → Int → V → σ × Bool)
    (s : σ) : σ :=
  match tr.root with
  | none => s
  | some root => (Node.reverse f tr.height root s).1

/-- The loop of `node.ascend` from the pivot position on: item `i`, then a
full scan of child `i+1`, and so on. -/
def ascendWalk {V σ : Type} (g : Node V → σ → σ × Bool)
    (f : σ → Int → V → σ × Bool) :
    List (Item V) → List (Node V) → σ → σ × Bool
  | [], _, s => (s, true)
  | it :: its, [], s =>
    -- unreachable for a well-formed internal node
    (visitItems f (it :: its) s)
  | it :: its, c :: cs, s =>
    match f s it.key it.value with
    | (s₁, false) => (s₁, false)
    | (s₁, true) =>
      match g c s₁ with
      | (s₂, false) => (s₂, false)
      | (s₂, true) => ascendWalk g f its cs s₂

/-- `func (n *node) ascend(pivot int64, iter func(...) bool, height int) bool`. -/
def Node.ascend {V σ : Type} (pivot : Int) (f : σ → Int → V → σ × Bool) :
    Nat → Node V → σ → σ × Bool
  | 0, n, s =>
    let (i, _) := n.find pivot
    visitItems f (n.items.drop i) s
  | h + 1, n, s =>
    let (i, found) := n.find pivot
    let r₀ :=
      if found then (s, true)
      else Node.ascend pivot f h (n.children.getD i ⟨[], []⟩) s
    match r₀ with
    | (s₁, false) => (s₁, false)
    | (s₁, true) =>
      ascendWalk (fun c s' => Node.scan f h c s') f
        (n.items.drop i) (n.children.drop (i + 1)) s₁

/-- `func (tr *BTree) Ascend(pivot int64, iter func(...) bool)`. -/
def BTree.ascend {V σ : Type} (tr : BTree V) (pivot : Int)
    (f : σ → Int → V → σ × Bool) (s : σ) : σ :=
  match tr.root with
  | none => s
  | some root => (Node.ascend pivot f tr.height root s).1

/-- The loop of `node.descend` from the pivot position down: item `i`, then a
full reverse of child `i`, and so on — over the reversed prefix lists. -/
def descendWalk {V σ : Type} (g : Node V → σ → σ × Bool)
    (f : σ → Int → V → σ × Bool) :
    List (Item V) → List (Node V) → σ → σ × Bool
  | [], _, s => (s, true)
  | it :: its, [], s =>
    -- unreachable for a well-formed internal node
    (visitItems f (it :: its) s)
  | it :: its, c :: cs, s =>
    match f s it.key it.value with
    | (s₁, false) => (s₁, false)
    | (s₁, true) =>
      match g c s₁ with
      | (s₂, false) => (s₂, false)
      | (s₂, true) => descendWalk g f its cs s₂

/-- `func (n *node) descend(pivot int64, iter func(...) bool, height int) bool`. -/
def Node.descend {V σ : Type} (pivot : Int) (f : σ → Int → V → σ × Bool) :
    Nat → Node V → σ → σ × Bool
  | 0, n, s =>
    let (i, found) := n.find pivot
    let cnt := if found then i + 1 else i
    visitItems f (n.items.take cnt).reverse s
  | h + 1, n, s =>
    let (i, found) := n.find pivot
    let cnt := if found then i + 1 else i
    let r₀ :=
      if found then (s, true)
      else Node.descend pivot f h (n.children.getD i ⟨[], []⟩) s
    match r₀ with
    | (s₁, false) => (s₁, false)
    | (s₁, true) =>
      descendWalk (fun c s' => Node.reverse f h c s') f
        (n.items.take cnt).reverse (n.children.take cnt).reverse s₁

/-- `func (tr *BTree) Descend(pivot int64, iter func(...) bool)`. -/
def BTree.descend {V σ : Type} (tr : BTree V) (pivot : Int)
    (f : σ → Int → V → σ × Bool) (s : σ) : σ :=
  match tr.root with
  | none => s
  | some root => (Node.descend pivot f tr.height root s).1

/-- `func (tr *BTree) GreaterOrEqual(pivot int64, iter func(...) bool)` —
textually the same body as `Ascend`. -/
def BTree.greaterOrEqual {V σ : Type} (tr : BTree V) (pivot : Int)
    (f : σ → Int → V → σ × Bool) (s : σ) : σ :=
  match tr.root with
  | none => s
  | some root => (Node.ascend pivot f tr.height root s).1

/-- `func (tr *BTree) LessOrEqual(pivot int64, iter func(...) bool)` —
textually the same body as `Descend`. -/
def BTree.lessOrEqual {V σ : Type} (tr : BTree V) (pivot : Int)
    (f : σ → Int → V → σ × Bool) (s : σ) : σ :=
  match tr.root with
  | none => s
  | some root => (Node.descend pivot f tr.height root s).1

/-! ### `GetOrNearest`

`func (n *node) getOrNearest(key int64, height int) (nKey int64, nValue interface{})`.
The result is wrapped in an outer `Option`: `none` models a runtime panic
(nil-pointer dereference), which the Go code commits at a leaf root when no
item key is ≤ the query — it falls through both `height` branches and calls
`n.children[i].getOrNearest` on a nil child. -/
def Node.getOrNearest {V : Type} (key : Int) :
    Nat → Node V → Option (Int × Option V)
  | 0, n =>
    let (i, found) := n.find key
    if found then (n.items.get? i).map fun it => (it.key, some it.value)
    else if 0 < i then
      (n.items.get? (i - 1)).map fun it => (it.key, some it.value)
    else
      -- Go: `return n.children[i].getOrNearest(key, height-1)` on a nil child
      none
  | 1, n =>
    let (i, found) := n.find key
    if found then (n.items.get? i).map fun it => (it.key, some it.value)
    else
      match n.children.get? i with
      | none => none -- nil child dereference
      | some c =>
        let (ci, cfound) := c.find key
        if cfound then (c.items.get? ci).map fun it => (it.key, some it.value)
        else if 0 < ci then
          (c.items.get? (ci - 1)).map fun it => (it.key, some it.value)
        else if 0 < i then
          (n.items.get? (i - 1)).map fun it => (it.key, some it.value)
        else some (0, none) -- `return`: zero key and nil value
  | h + 2, n =>
    let (i, found) := n.find key
    if found then (n.items.get? i).map fun it => (it.key, some it.value)
    else
      match n.children.get? i with
      | none => none -- nil child dereference
      | some c => Node.getOrNearest key (h + 1) c

/-- `func (tr *BTree) GetOrNearest(key int64) (nKey int64, nValue interface{})`. -/
def BTree.getOrNearest {V : Type} (tr : BTree V) (key : Int) :
    Option (Int × Option V) :=
  match tr.root with
  | none => some (0, none)
  | some root => Node.getOrNearest key tr.height root

/-! ## Specification layer

The abstraction of a subtree is its in-order item list (`flatten`); tree
well-formedness (`wfi`) is the B-tree invariant with explicit occupancy
bounds for the top node, so that the transient states inside `Set`/`Delete`
can be described. -/

/-- One in-order layer: child, item, child, item, …, last child.
`f` flattens a child subtree. -/
def glue {V : Type} (f : Node V → List (Item V)) :
    List (Item V) → List (Node V) → List (Item V)
  | [], [] => []
  | [], c :: _ => f c
  | _ :: _, [] => []
  | it :: its, c :: cs => f c ++ it :: glue f its cs

/-- The in-order item list of a subtree of the given height. -/
def Node.flatten {V : Type} : Nat → Node V → List (Item V)
  | 0, n => n.items
  | h + 1, n => glue (fun c => Node.flatten h c) n.items n.children

/-- The in-order item list of a tree. -/
def BTree.flatten {V : Type} (tr : BTree V) : List (Item V) :=
  match tr.root with
  | none => []
  | some root => Node.flatten tr.height root

/-- The number of keys in `ks` that are ≤ `key`: for a sorted node this is
the index `node.find`'s binary search computes. -/
def rank (ks : List Int) (key : Int) : Nat :=
  ks.countP (fun k => decide (k ≤ key))

/-- `lo` is a strict lower bound of `k` (`none` = unbounded). -/
def lbLt (lo : Option Int) (k : Int) : Bool :=
  match lo with
  | none => true
  | some l => decide (l < k)

/-- `hi` is a strict upper bound of `k` (`none` = unbounded). -/
def ubGt (hi : Option Int) (k : Int) : Bool :=
  match hi with
  | none => true
  | some u => decide (k < u)

/-- `ks` is strictly increasing and every element lies strictly between
`lo` and `hi`. -/
def sortedIn : Option Int → Option Int → List Int → Bool
  | _, _, [] => true
  | lo, hi, k :: ks => lbLt lo k && ubGt hi k && sortedIn (some k) hi ks

/-- Check each child of a node against the key interval it must fill:
child `i` lies strictly between key `i-1` and key `i`. -/
def chainCheck {V : Type} (f : Option Int → Option Int → Node V → Bool) :
    Option Int → Option Int → List Int → List (Node V) → Bool
  | lo, hi, [], cs =>
    match cs with
    | [c] => f lo hi c
    | _ => false
  | lo, hi, k :: ks, cs =>
    match cs with
    | [] => false
    | c :: cs' => f lo (some k) c && chainCheck f (some k) hi ks cs'

/-- The B-tree invariant for a subtree of height `h` whose own item count
must lie in `[mn, mx]` and whose keys must lie strictly between `lo` and
`hi`; every deeper node must hold between `minItems` and `maxItems - 1`
items.  Leaves sit exactly at height 0 (uniform depth), internal nodes have
one more child than items. -/
def Node.wfi {V : Type} : Nat → Nat → Nat → Option Int → Option Int → Node V → Bool
  | 0, mn, mx, lo, hi, n =>
    n.children.isEmpty && decide (mn ≤ n.items.length) &&
      decide (n.items.length ≤ mx) && sortedIn lo hi n.keys
  | h + 1, mn, mx, lo, hi, n =>
    decide (n.children.length = n.items.length + 1) &&
      decide (mn ≤ n.items.length) && decide (n.items.length ≤ mx) &&
      sortedIn lo hi n.keys &&
      chainCheck (fun lo' hi' c => Node.wfi h minItems (maxItems - 1) lo' hi' c)
        lo hi n.keys n.children

/-- Well-formedness of a whole tree: an absent root is the empty tree; a
present root satisfies the node invariant (its item count may be as low
as 1) and the stored length equals the number of reachable items. -/
def BTree.wf {V : Type} (tr : BTree V) : Bool :=
  match tr.root with
  | none => decide (tr.height = 0) && decide (tr.length = 0)
  | some root =>
    Node.wfi tr.height 1 (maxItems - 1) none none root &&
      decide (tr.length = (Node.flatten tr.height root).length)

/-- Insert a new key into a sorted item list (the key is assumed absent). -/
def insortKV {V : Type} (key : Int) (value : V) :
    List (Item V) → List (Item V)
  | [] => [⟨key, value⟩]
  | it :: its =>
    if it.key < key then it :: insortKV key value its
    else ⟨key, value⟩ :: it :: its

/-- Replace the value stored at `key` (first occurrence). -/
def replaceV {V : Type} (key : Int) (value : V) :
    List (Item V) → List (Item V)
  | [] => []
  | it :: its =>
    if it.key = key then ⟨it.key, value⟩ :: its else it :: replaceV key value its

/-- Remove the item with the given key (first occurrence). -/
def eraseKey {V : Type} (key : Int) : List (Item V) → List (Item V)
  | [] => []
  | it :: its => if it.key = key then its else it :: eraseKey key its

/-- Look up a key in an item list. -/
def lookupKV {V : Type} (key : Int) : List (Item V) → Option V
  | [] => none
  | it :: its => if it.key = key then some it.value else lookupKV key its

/-- The states reachable from the empty tree by public `Set`/`Delete` calls. -/
inductive Reachable {V : Type} [Inhabited V] : BTree V → Prop
  | empty : Reachable BTree.empty
  | set {t : BTree V} (key : Int) (value : V) :
      Reachable t → Reachable (t.set key value).2
  | del {t : BTree V} (key : Int) :
      Reachable t → Reachable (t.delete key).2

/-- The in-order list of the first `|its|` children interleaved with `its`
(without a trailing child). -/
def gluePre {V : Type} (f : Node V → List (Item V)) :
    List (Item V) → List (Node V) → List (Item V)
  | it :: its, c :: cs => f c ++ it :: gluePre f its cs
  | _, _ => []

/-- The lower bound of the interval child `i` must fill. -/
def loAt (lo : Option Int) (ks : List Int) : Nat → Option Int
  | 0 => lo
  | i + 1 => some (ks.getD i 0)

/-- The upper bound of the interval child `i` must fill. -/
def hiAt (hi : Option Int) (ks : List Int) (i : Nat) : Option Int :=
  if i < ks.length then some (ks.getD i 0) else hi

/-- The key list of an item list. -/
def keysOf {V : Type} (l : List (Item V)) : List Int := l.map Item.key

/-- The part of a `glue` layer after its first child. -/
def glueRest {V : Type} (f : Node V → List (Item V)) :
    List (Item V) → List (Node V) → List (Item V)
  | [], _ => []
  | it :: its, cs => it :: glue f its cs

/-- The always-continue visitor that records every visited pair. -/
def collectV {V : Type} : List (Int × V) → Int → V → List (Int × V) × Bool :=
  fun s k v => (s ++ [(k, v)], true)

/-- A visitor that decides with `v` and logs every single invocation. -/
def logV {V : Type} (v : Int → V → Bool) :
    List (Int × V) → Int → V → List (Int × V) × Bool :=
  fun s k val => (s ++ [(k, val)], v k val)

/-- Every call recorded in the log, except possibly the final one, got a
`true` answer from the visitor: after a `false` the visitor is never
called again. -/
def goodLog {V : Type} (v : Int → V → Bool) (L : List (Int × V)) : Prop :=
  ∀ pre x suf, L = pre ++ x :: suf → suf ≠ [] → v x.1 x.2 = true

def allTrue {V : Type} (v : Int → V → Bool) (L : List (Int × V)) : Prop :=
  ∀ x ∈ L, v x.1 x.2 = true

/-- The structural invariants of the spec, stated over a subtree at a given
height: leaves carry no children (so every leaf sits at depth = height),
keys are strictly sorted inside every node, internal nodes have one child
more than items, each separator strictly splits the neighbouring subtrees,
and every non-root node holds at least `minItems` items. -/
def InvAt {V : Type} [Inhabited V] : Nat → Bool → Node V → Prop
  | 0, isRoot, n =>
      n.children = [] ∧ (keysOf n.items).Pairwise (· < ·) ∧
        (isRoot = true ∨ minItems ≤ n.items.length)
  | h + 1, isRoot, n =>
      n.children.length = n.items.length + 1 ∧
        (keysOf n.items).Pairwise (· < ·) ∧
        (isRoot = true ∨ minItems ≤ n.items.length) ∧
        (∀ i (hi : i < n.items.length),
          (∀ k ∈ keysOf (Node.flatten h (n.children.getD i ⟨[], []⟩)),
            k < (n.items.getD i default).key) ∧
          (∀ k ∈ keysOf (Node.flatten h (n.children.getD (i + 1) ⟨[], []⟩)),
            (n.items.getD i default).key < k)) ∧
        (∀ c ∈ n.children, InvAt h false c)

/-- A 520-key tree (all even keys 0, 2, …, 1038), tall enough for the root
to sit at height 2. -/
def t520 : BTree Unit :=
  (List.range 520).foldl (fun tr k => (tr.set (2 * (k : Int)) ()).2) BTree.empty

@[simp] lemma Node.items_mk {V : Type} {its : List (Item V)}
    {cs : List (Node V)} : (Node.mk its cs).items = its := rfl

@[simp] lemma Node.children_mk {V : Type} {its : List (Item V)}
    {cs : List (Node V)} : (Node.mk its cs).children = cs := rfl

/-! ## Lemmas about bounds and sortedness -/

@[simp] lemma lbLt_none (k : Int) : lbLt none k = true := rfl

@[simp] lemma lbLt_some {l k : Int} : lbLt (some l) k = true ↔ l < k := by
  simp [lbLt]

@[simp] lemma ubGt_none (k : Int) : ubGt none k = true := rfl

@[simp] lemma ubGt_some {u k : Int} : ubGt (some u) k = true ↔ k < u := by
  simp [ubGt]

lemma lbLt_trans {lo : Option Int} {a k : Int} (h : lbLt lo a = true)
    (hak : a ≤ k) : lbLt lo k = true := by
  cases lo with
  | none => rfl
  | some l => simp only [lbLt_some] at h ⊢; omega

lemma ubGt_trans {hi : Option Int} {a k : Int} (h : ubGt hi a = true)
    (hak : k ≤ a) : ubGt hi k = true := by
  cases hi with
  | none => rfl
  | some u => simp only [ubGt_some] at h ⊢; omega

@[simp] lemma sortedIn_nil (lo hi : Option Int) : sortedIn lo hi [] = true := rfl

lemma sortedIn_cons {lo hi : Option Int} {k : Int} {ks : List Int} :
    sortedIn lo hi (k :: ks) = true ↔
      lbLt lo k = true ∧ ubGt hi k = true ∧ sortedIn (some k) hi ks = true := by
  simp [sortedIn, Bool.and_eq_true, and_assoc]

lemma sortedIn_weaken : ∀ {ks : List Int} {lo lo' hi hi' : Option Int},
    sortedIn lo hi ks = true →
    (∀ k, lbLt lo k = true → lbLt lo' k = true) →
    (∀ k, ubGt hi k = true → ubGt hi' k = true) →
    sortedIn lo' hi' ks = true
  | [], _, _, _, _, _, _, _ => rfl
  | k :: ks, lo, lo', hi, hi', h, hl, hh => by
    rw [sortedIn_cons] at h ⊢
    exact ⟨hl k h.1, hh k h.2.1,
      sortedIn_weaken h.2.2 (fun _ hk => hk) (fun k hk => hh k hk)⟩

lemma sortedIn_weaken_lo {ks : List Int} {lo lo' hi : Option Int}
    (h : sortedIn lo hi ks = true)
    (hl : ∀ k, lbLt lo k = true → lbLt lo' k = true) :
    sortedIn lo' hi ks = true :=
  sortedIn_weaken h hl (fun _ hk => hk)

lemma sortedIn_mem_lb : ∀ {ks : List Int} {lo hi : Option Int} {k : Int},
    sortedIn lo hi ks = true → k ∈ ks → lbLt lo k = true
  | k' :: ks, lo, hi, k, h, hk => by
    rw [sortedIn_cons] at h
    rcases List.mem_cons.1 hk with rfl | hk
    · exact h.1
    · have := sortedIn_mem_lb h.2.2 hk
      rcases lo with _ | l
      · rfl
      · rcases h.1 with h1
        simp only [lbLt_some] at this h1 ⊢
        omega

lemma sortedIn_mem_ub : ∀ {ks : List Int} {lo hi : Option Int} {k : Int},
    sortedIn lo hi ks = true → k ∈ ks → ubGt hi k = true
  | k' :: ks, lo, hi, k, h, hk => by
    rw [sortedIn_cons] at h
    rcases List.mem_cons.1 hk with rfl | hk
    · exact h.2.1
    · exact sortedIn_mem_ub h.2.2 hk

lemma sortedIn_pairwise : ∀ {ks : List Int} {lo hi : Option Int},
    sortedIn lo hi ks = true → ks.Pairwise (· < ·)
  | [], _, _, _ => List.Pairwise.nil
  | k :: ks, lo, hi, h => by
    rw [sortedIn_cons] at h
    refine List.pairwise_cons.2 ⟨fun a ha => ?_, sortedIn_pairwise h.2.2⟩
    have := sortedIn_mem_lb h.2.2 ha
    simpa using this

lemma sortedIn_append : ∀ {ks₁ : List Int} {lo hi : Option Int} {k : Int}
    {ks₂ : List Int},
    sortedIn lo hi (ks₁ ++ k :: ks₂) = true ↔
      sortedIn lo (some k) ks₁ = true ∧ lbLt lo k = true ∧
        ubGt hi k = true ∧ sortedIn (some k) hi ks₂ = true
  | [], lo, hi, k, ks₂ => by
    simp [sortedIn_cons]
  | a :: ks₁, lo, hi, k, ks₂ => by
    rw [List.cons_append, sortedIn_cons, sortedIn_cons, sortedIn_append]
    constructor
    · rintro ⟨h1, h2, h3, h4, h5, h6⟩
      have hak : a < k := by simpa using sortedIn_mem_lb (sortedIn_append.2 ⟨h3, h4, h5, h6⟩) (by simp)
      exact ⟨⟨h1, by simpa using hak, h3⟩, lbLt_trans h1 (le_of_lt hak), h5, h6⟩
    · rintro ⟨⟨h1, h2, h3⟩, h4, h5, h6⟩
      have hak : a < k := by simpa using h2
      exact ⟨h1, ubGt_trans h5 (le_of_lt hak), h3, lbLt_some.2 hak, h5, h6⟩

lemma sortedIn_sublist {ks' ks : List Int} (hsub : List.Sublist ks' ks) :
    ∀ {lo hi : Option Int}, sortedIn lo hi ks = true → sortedIn lo hi ks' = true := by
  induction hsub with
  | slnil => intro lo hi h; exact h
  | cons a hsub ih =>
    intro lo hi h
    rw [sortedIn_cons] at h
    exact ih (sortedIn_weaken_lo h.2.2
      (fun k hk => lbLt_trans h.1 (le_of_lt (by simpa using hk))))
  | cons₂ a hsub ih =>
    intro lo hi h
    rw [sortedIn_cons] at h ⊢
    exact ⟨h.1, h.2.1, ih h.2.2⟩

/-! ## Correctness of the binary-search primitive -/

lemma rank_cons {k key : Int} {ks : List Int} :
    rank (k :: ks) key = rank ks key + (if k ≤ key then 1 else 0) := by
  simp [rank, List.countP_cons]

lemma rank_le_length {ks : List Int} {key : Int} : rank ks key ≤ ks.length :=
  List.countP_le_length _

lemma rank_spec_le {key : Int} : ∀ {ks : List Int}, ks.Pairwise (· ≤ ·) →
    ∀ {a : Nat} (ha : a < ks.length), a < rank ks key → ks[a] ≤ key := by
  intro ks
  induction ks with
  | nil => intro _ a ha; simp at ha
  | cons k ks ih =>
    intro hp a ha hr
    rw [List.pairwise_cons] at hp
    by_cases hk : k ≤ key
    · cases a with
      | zero => simpa using hk
      | succ a =>
        rw [rank_cons, if_pos hk] at hr
        have ha' : a < ks.length := by simpa using ha
        simpa using ih hp.2 ha' (by omega)
    · exfalso
      have h0 : rank (k :: ks) key = 0 := by
        rw [rank, List.countP_eq_zero]
        intro x hx
        rcases List.mem_cons.1 hx with rfl | hx
        · simpa using hk
        · have := hp.1 x hx
          simp only [decide_eq_true_eq]
          omega
      omega

lemma rank_spec_gt {key : Int} : ∀ {ks : List Int}, ks.Pairwise (· ≤ ·) →
    ∀ {b : Nat} (hb : b < ks.length), rank ks key ≤ b → key < ks[b] := by
  intro ks
  induction ks with
  | nil => intro _ b hb; simp at hb
  | cons k ks ih =>
    intro hp b hb hr
    rw [List.pairwise_cons] at hp
    by_cases hk : k ≤ key
    · rw [rank_cons, if_pos hk] at hr
      cases b with
      | zero => omega
      | succ b =>
        have hb' : b < ks.length := by simpa using hb
        simpa using ih hp.2 hb' (by omega)
    · cases b with
      | zero => simpa using by omega
      | succ b =>
        have hb' : b < ks.length := by simpa using hb
        have hmem := hp.1 ks[b] (List.getElem_mem hb')
        simp only [List.getElem_cons_succ]
        omega

lemma rank_eq_of {ks : List Int} {key : Int} {r : Nat}
    (hs : ks.Pairwise (· ≤ ·)) (hr : r ≤ ks.length)
    (h1 : ∀ a (ha : a < ks.length), a < r → ks[a] ≤ key)
    (h2 : ∀ b (hb : b < ks.length), r ≤ b → key < ks[b]) :
    r = rank ks key := by
  rcases Nat.lt_trichotomy r (rank ks key) with h | h | h
  · have hlen : r < ks.length := lt_of_lt_of_le h rank_le_length
    have := rank_spec_le hs hlen h
    have := h2 r hlen (le_refl r)
    omega
  · exact h
  · have hlen : rank ks key < ks.length := lt_of_lt_of_le h hr
    have := h1 (rank ks key) hlen h
    have := rank_spec_gt hs hlen (le_refl _)
    omega

lemma findLoop_correct {ks : List Int} {key : Int} (hs : ks.Pairwise (· ≤ ·)) :
    ∀ (fuel i j : Nat), i ≤ j → j ≤ ks.length → j - i ≤ fuel →
    (∀ a (ha : a < ks.length), a < i → ks[a] ≤ key) →
    (∀ b (hb : b < ks.length), j ≤ b → key < ks[b]) →
    findLoop ks key fuel i j = rank ks key := by
  intro fuel
  induction fuel with
  | zero =>
    intro i j hij hjlen hf h1 h2
    have hij' : i = j := by omega
    subst hij'
    rw [findLoop]
    exact rank_eq_of hs (by omega) h1 (fun b hb hbi => h2 b hb hbi)
  | succ fuel ih =>
    intro i j hij hjlen hf h1 h2
    rw [findLoop]
    by_cases hlt : i < j
    · rw [if_pos hlt]
      have hmlt : i + (j - i) / 2 < j := by omega
      have hmlen : i + (j - i) / 2 < ks.length := by omega
      have hge : i ≤ i + (j - i) / 2 := by omega
      by_cases hcmp : ks.getD (i + (j - i) / 2) 0 ≤ key
      · rw [if_pos hcmp]
        rw [List.getD_eq_getElem ks 0 hmlen] at hcmp
        refine ih (i + (j - i) / 2 + 1) j (by omega) hjlen (by omega) ?_ h2
        intro a ha halt
        rcases Nat.lt_or_ge a i with hai | hai
        · exact h1 a ha hai
        · have := List.pairwise_iff_getElem.1 hs
          rcases Nat.lt_or_ge a (i + (j - i) / 2) with haa | haa
          · exact le_trans (this a _ ha hmlen haa) hcmp
          · have : a = i + (j - i) / 2 := by omega
            subst this; exact hcmp
      · rw [if_neg hcmp]
        rw [List.getD_eq_getElem ks 0 hmlen] at hcmp
        refine ih i (i + (j - i) / 2) hge (by omega) (by omega) h1 ?_
        intro b hb hmb
        rcases Nat.lt_or_ge b j with hbj | hbj
        · have := List.pairwise_iff_getElem.1 hs
          rcases Nat.lt_or_ge (i + (j - i) / 2) b with hbb | hbb
          · exact lt_of_not_le fun hle =>
              hcmp (le_trans (this _ b hmlen hb hbb) hle)
          · have : b = i + (j - i) / 2 := by omega
            subst this; omega
        · exact h2 b hb hbj
    · rw [if_neg hlt]
      have hij' : i = j := by omega
      subst hij'
      exact rank_eq_of hs (by omega) h1 (fun b hb hbi => h2 b hb hbi)

/-- `node.find` on a node with (weakly) sorted keys: the computed index is the
number of keys ≤ the query, and `found` reports an exact hit at the
preceding position. -/
lemma find_eq {V : Type} (n : Node V) (key : Int)
    (hs : n.keys.Pairwise (· ≤ ·)) :
    n.find key =
      if 0 < rank n.keys key ∧ n.keys.getD (rank n.keys key - 1) 0 = key
      then (rank n.keys key - 1, true) else (rank n.keys key, false) := by
  rw [Node.find]
  have hloop : findLoop n.keys key n.keys.length 0 n.keys.length = rank n.keys key :=
    findLoop_correct hs _ 0 _ (by omega) (le_refl _) (by omega)
      (fun a ha h0 => by omega) (fun b hb hbl => by omega)
  simp only [hloop]
  by_cases hpos : 0 < rank n.keys key
  · have hlen : rank n.keys key - 1 < n.keys.length := by
      have := @rank_le_length n.keys key
      omega
    have hle : n.keys.getD (rank n.keys key - 1) 0 ≤ key := by
      rw [List.getD_eq_getElem _ 0 hlen]
      exact rank_spec_le hs hlen (by omega)
    by_cases heq : n.keys.getD (rank n.keys key - 1) 0 = key
    · rw [if_pos ⟨hpos, heq.ge⟩, if_pos ⟨hpos, heq⟩]
    · have hcond : ¬(0 < rank n.keys key ∧ key ≤ n.keys.getD (rank n.keys key - 1) 0) := by
        rintro ⟨-, hke⟩
        exact heq (le_antisymm hle hke)
      rw [if_neg hcond, if_neg (fun h => heq h.2)]
  · rw [if_neg (fun h => hpos h.1), if_neg (fun h => hpos h.1)]

/-- On strictly sorted keys, `find` reports `found` exactly for present keys,
at the position holding the key. -/
lemma find_found_iff {V : Type} (n : Node V) (key : Int)
    (hs : n.keys.Pairwise (· < ·)) :
    (n.find key).2 = true ↔ key ∈ n.keys := by
  have hs' : n.keys.Pairwise (· ≤ ·) := hs.imp le_of_lt
  rw [find_eq n key hs']
  constructor
  · intro h
    by_cases hc : 0 < rank n.keys key ∧ n.keys.getD (rank n.keys key - 1) 0 = key
    · have hlen : rank n.keys key - 1 < n.keys.length := by
        have := @rank_le_length n.keys key
        omega
      rw [← hc.2, List.getD_eq_getElem _ 0 hlen]
      exact List.getElem_mem hlen
    · rw [if_neg hc] at h
      simp at h
  · intro hmem
    rcases List.mem_iff_getElem.1 hmem with ⟨idx, hidx, hval⟩
    have hrank : idx + 1 = rank n.keys key := by
      refine rank_eq_of hs' (by omega) ?_ ?_
      · intro a ha haidx
        rcases Nat.lt_or_ge a idx with h | h
        · exact le_of_lt (hval ▸ List.pairwise_iff_getElem.1 hs a idx ha hidx h)
        · have : a = idx := by omega
          subst this; exact le_of_eq hval
      · intro b hb hbidx
        exact hval ▸ List.pairwise_iff_getElem.1 hs idx b hidx hb (by omega)
    rw [if_pos ⟨by omega, by
      rw [List.getD_eq_getElem _ 0 (by omega)]
      have : rank n.keys key - 1 = idx := by omega
      simp [this, hval]⟩]

/-! ## Decomposition lemmas for `glue` and `chainCheck` -/

lemma glue_append {V : Type} (f : Node V → List (Item V)) :
    ∀ {its₁ : List (Item V)} {cs₁ : List (Node V)}
      (its₂ : List (Item V)) (cs₂ : List (Node V)),
      cs₁.length = its₁.length →
      glue f (its₁ ++ its₂) (cs₁ ++ cs₂) = gluePre f its₁ cs₁ ++ glue f its₂ cs₂
  | [], [], its₂, cs₂, _ => by simp [gluePre]
  | it :: its₁, c :: cs₁, its₂, cs₂, h => by
    simp only [List.cons_append, glue, gluePre, List.append_eq, List.append_assoc,
      List.cons_append]
    rw [glue_append f its₂ cs₂ (by simpa using h)]

lemma glue_append_full {V : Type} (f : Node V → List (Item V)) :
    ∀ {its₁ : List (Item V)} {cs₁ : List (Node V)}
      (it : Item V) (its₂ : List (Item V)) (cs₂ : List (Node V)),
      cs₁.length = its₁.length + 1 →
      glue f (its₁ ++ it :: its₂) (cs₁ ++ cs₂) =
        glue f its₁ cs₁ ++ it :: glue f its₂ cs₂
  | [], [c], it, its₂, cs₂, _ => by simp [glue]
  | [], c :: c' :: cs₁, it, its₂, cs₂, h => by simp at h
  | it' :: its₁, c :: cs₁, it, its₂, cs₂, h => by
    simp only [List.cons_append, glue, List.append_eq, List.append_assoc, List.cons_append]
    rw [glue_append_full f it its₂ cs₂ (by simpa using h)]

@[simp] lemma loAt_zero {lo : Option Int} {ks : List Int} : loAt lo ks 0 = lo := rfl

@[simp] lemma loAt_cons {lo : Option Int} {k : Int} {ks : List Int} {i : Nat} :
    loAt lo (k :: ks) (i + 1) = loAt (some k) ks i := by
  cases i <;> simp [loAt]

@[simp] lemma hiAt_zero_cons {hi : Option Int} {k : Int} {ks : List Int} :
    hiAt hi (k :: ks) 0 = some k := by
  simp [hiAt]

@[simp] lemma hiAt_cons {hi : Option Int} {k : Int} {ks : List Int} {i : Nat} :
    hiAt hi (k :: ks) (i + 1) = hiAt hi ks i := by
  simp only [hiAt, List.length_cons, Nat.add_lt_add_iff_right, List.getD_cons_succ]

@[simp] lemma hiAt_nil {hi : Option Int} {i : Nat} : hiAt hi [] i = hi := by
  simp [hiAt]

lemma chainCheck_iff {V : Type} {f : Option Int → Option Int → Node V → Bool} :
    ∀ {ks : List Int} {cs : List (Node V)} {lo hi : Option Int},
      cs.length = ks.length + 1 →
      (chainCheck f lo hi ks cs = true ↔
        ∀ i (hilt : i < cs.length),
          f (loAt lo ks i) (hiAt hi ks i) cs[i] = true) := by
  intro ks
  induction ks with
  | nil =>
    intro cs lo hi hlen
    match cs, hlen with
    | [c], _ =>
      simp only [chainCheck]
      constructor
      · intro h i hilt
        have hi0 : i = 0 := by simpa using hilt
        subst hi0
        simpa using h
      · intro h
        simpa using h 0 (by simp)
  | cons k ks ih =>
    intro cs lo hi hlen
    match cs, hlen with
    | c :: cs', hlen =>
      simp only [chainCheck, Bool.and_eq_true]
      rw [ih (by simpa using hlen)]
      constructor
      · rintro ⟨h0, hrest⟩ i hilt
        cases i with
        | zero => simpa using h0
        | succ i =>
          rw [loAt_cons, hiAt_cons]
          exact hrest i (by simpa using hilt)
      · intro h
        refine ⟨by simpa using h 0 (by simp), fun i hilt => ?_⟩
        have := h (i + 1) (by simpa using hilt)
        rwa [loAt_cons, hiAt_cons] at this

lemma chainCheck_imp {V : Type} {f g : Option Int → Option Int → Node V → Bool}
    (himp : ∀ lo' hi' c, f lo' hi' c = true → g lo' hi' c = true) :
    ∀ {ks : List Int} {cs : List (Node V)} {lo hi : Option Int},
      chainCheck f lo hi ks cs = true → chainCheck g lo hi ks cs = true := by
  intro ks
  induction ks with
  | nil =>
    intro cs lo hi h
    match cs with
    | [] => simp [chainCheck] at h
    | [c] => exact himp _ _ _ h
    | c :: c' :: cs => simp [chainCheck] at h
  | cons k ks ih =>
    intro cs lo hi h
    match cs with
    | [] => simp [chainCheck] at h
    | c :: cs' =>
      simp only [chainCheck, Bool.and_eq_true] at h ⊢
      exact ⟨himp _ _ _ h.1, ih h.2⟩

/-- Splitting / merging a `chainCheck` around a separator key. -/
lemma chainCheck_append {V : Type} {f : Option Int → Option Int → Node V → Bool} :
    ∀ {ks₁ : List Int} {cs₁ : List (Node V)} {k : Int} {ks₂ : List Int}
      {cs₂ : List (Node V)} {lo hi : Option Int},
      cs₁.length = ks₁.length + 1 →
      (chainCheck f lo hi (ks₁ ++ k :: ks₂) (cs₁ ++ cs₂) = true ↔
        chainCheck f lo (some k) ks₁ cs₁ = true ∧
          chainCheck f (some k) hi ks₂ cs₂ = true) := by
  intro ks₁
  induction ks₁ with
  | nil =>
    intro cs₁ k ks₂ cs₂ lo hi hlen
    match cs₁, hlen with
    | [c], _ =>
      simp [chainCheck, Bool.and_eq_true]
  | cons k₁ ks₁ ih =>
    intro cs₁ k ks₂ cs₂ lo hi hlen
    match cs₁, hlen with
    | c :: cs₁', hlen =>
      simp only [List.cons_append, chainCheck, List.append_eq, Bool.and_eq_true]
      rw [ih (by simpa using hlen)]
      tauto

/-! ## Unfolding and monotonicity of the invariant -/

lemma wfi_zero {V : Type} {mn mx : Nat} {lo hi : Option Int} {n : Node V} :
    Node.wfi 0 mn mx lo hi n = true ↔
      n.children = [] ∧ mn ≤ n.items.length ∧ n.items.length ≤ mx ∧
        sortedIn lo hi n.keys = true := by
  simp [Node.wfi, Bool.and_eq_true, and_assoc, List.isEmpty_iff]

lemma wfi_succ {V : Type} {h mn mx : Nat} {lo hi : Option Int} {n : Node V} :
    Node.wfi (h + 1) mn mx lo hi n = true ↔
      n.children.length = n.items.length + 1 ∧ mn ≤ n.items.length ∧
        n.items.length ≤ mx ∧ sortedIn lo hi n.keys = true ∧
        chainCheck (fun lo' hi' c => Node.wfi h minItems (maxItems - 1) lo' hi' c)
          lo hi n.keys n.children = true := by
  simp [Node.wfi, Bool.and_eq_true, and_assoc]

lemma wfi_retop {V : Type} {h mn mx mn' mx' : Nat} {lo hi : Option Int}
    {n : Node V} (hw : Node.wfi h mn mx lo hi n = true)
    (h1 : mn' ≤ n.items.length) (h2 : n.items.length ≤ mx') :
    Node.wfi h mn' mx' lo hi n = true := by
  cases h with
  | zero => rw [wfi_zero] at hw ⊢; tauto
  | succ h => rw [wfi_succ] at hw ⊢; tauto

lemma chainCheck_weaken {V : Type} {f : Option Int → Option Int → Node V → Bool}
    (hfl : ∀ lo lo' hi c, (∀ k, lbLt lo k = true → lbLt lo' k = true) →
      f lo hi c = true → f lo' hi c = true)
    (hfh : ∀ lo hi hi' c, (∀ k, ubGt hi k = true → ubGt hi' k = true) →
      f lo hi c = true → f lo hi' c = true) :
    ∀ {ks : List Int} {cs : List (Node V)} {lo lo' hi hi' : Option Int},
      (∀ k, lbLt lo k = true → lbLt lo' k = true) →
      (∀ k, ubGt hi k = true → ubGt hi' k = true) →
      chainCheck f lo hi ks cs = true → chainCheck f lo' hi' ks cs = true := by
  intro ks
  induction ks with
  | nil =>
    intro cs lo lo' hi hi' hl hh hc
    match cs with
    | [] => simp [chainCheck] at hc
    | [c] => exact hfh _ _ _ _ hh (hfl _ _ _ _ hl hc)
    | c :: c' :: cs => simp [chainCheck] at hc
  | cons k ks ih =>
    intro cs lo lo' hi hi' hl hh hc
    match cs with
    | [] => simp [chainCheck] at hc
    | c :: cs' =>
      simp only [chainCheck, Bool.and_eq_true] at hc ⊢
      exact ⟨hfl _ _ _ _ hl hc.1, ih (fun _ hk => hk) hh hc.2⟩

lemma wfi_weaken {V : Type} : ∀ (h : Nat) {mn mx : Nat}
    {lo lo' hi hi' : Option Int} {n : Node V},
    Node.wfi h mn mx lo hi n = true →
    (∀ k, lbLt lo k = true → lbLt lo' k = true) →
    (∀ k, ubGt hi k = true → ubGt hi' k = true) →
    Node.wfi h mn mx lo' hi' n = true := by
  intro h
  induction h with
  | zero =>
    intro mn mx lo lo' hi hi' n hw hl hh
    rw [wfi_zero] at hw ⊢
    exact ⟨hw.1, hw.2.1, hw.2.2.1, sortedIn_weaken hw.2.2.2 hl hh⟩
  | succ h ih =>
    intro mn mx lo lo' hi hi' n hw hl hh
    rw [wfi_succ] at hw ⊢
    refine ⟨hw.1, hw.2.1, hw.2.2.1, sortedIn_weaken hw.2.2.2.1 hl hh, ?_⟩
    refine chainCheck_weaken ?_ ?_ hl hh hw.2.2.2.2
    · intro lo₁ lo₁' hi₁ c hcond hc
      exact ih hc hcond (fun _ hk => hk)
    · intro lo₁ hi₁ hi₁' c hcond hc
      exact ih hc (fun _ hk => hk) hcond

/-! ## Sortedness of the flattened item list -/

lemma glue_sortedIn {V : Type} {f : Node V → List (Item V)}
    {g : Option Int → Option Int → Node V → Bool}
    (hfg : ∀ lo' hi' c, g lo' hi' c = true →
      sortedIn lo' hi' ((f c).map Item.key) = true) :
    ∀ {its : List (Item V)} {cs : List (Node V)} {lo hi : Option Int},
      sortedIn lo hi (its.map Item.key) = true →
      chainCheck g lo hi (its.map Item.key) cs = true →
      sortedIn lo hi ((glue f its cs).map Item.key) = true := by
  intro its
  induction its with
  | nil =>
    intro cs lo hi hs hc
    match cs with
    | [] => simp [chainCheck] at hc
    | [c] => exact hfg _ _ _ hc
    | c :: c' :: cs => simp [chainCheck] at hc
  | cons it its ih =>
    intro cs lo hi hs hc
    match cs with
    | [] => simp [chainCheck, List.map_cons] at hc
    | c :: cs' =>
      simp only [List.map_cons, chainCheck, Bool.and_eq_true] at hc
      simp only [List.map_cons, sortedIn_cons] at hs
      simp only [glue, List.map_append, List.map_cons]
      rw [sortedIn_append]
      exact ⟨hfg _ _ _ hc.1, hs.1, hs.2.1, ih hs.2.2 hc.2⟩

lemma wfi_flatten_sortedIn {V : Type} : ∀ (h : Nat) {mn mx : Nat}
    {lo hi : Option Int} {n : Node V},
    Node.wfi h mn mx lo hi n = true →
    sortedIn lo hi ((Node.flatten h n).map Item.key) = true := by
  intro h
  induction h with
  | zero =>
    intro mn mx lo hi n hw
    rw [wfi_zero] at hw
    exact hw.2.2.2
  | succ h ih =>
    intro mn mx lo hi n hw
    rw [wfi_succ] at hw
    rw [Node.flatten]
    exact glue_sortedIn (fun lo' hi' c hc => ih hc) hw.2.2.2.1 hw.2.2.2.2

lemma wfi_flatten_pairwise {V : Type} {h : Nat} {mn mx : Nat}
    {lo hi : Option Int} {n : Node V}
    (hw : Node.wfi h mn mx lo hi n = true) :
    ((Node.flatten h n).map Item.key).Pairwise (· < ·) :=
  sortedIn_pairwise (wfi_flatten_sortedIn h hw)

lemma wfi_keys_sortedIn {V : Type} {h : Nat} {mn mx : Nat}
    {lo hi : Option Int} {n : Node V}
    (hw : Node.wfi h mn mx lo hi n = true) :
    sortedIn lo hi n.keys = true := by
  cases h with
  | zero => exact (wfi_zero.1 hw).2.2.2
  | succ h => exact (wfi_succ.1 hw).2.2.2.1

/-! ## List-level lemmas about the abstract map operations -/

@[simp] lemma keysOf_nil {V : Type} : keysOf ([] : List (Item V)) = [] := rfl

@[simp] lemma keysOf_cons {V : Type} {it : Item V} {l : List (Item V)} :
    keysOf (it :: l) = it.key :: keysOf l := rfl

@[simp] lemma keysOf_append {V : Type} {l₁ l₂ : List (Item V)} :
    keysOf (l₁ ++ l₂) = keysOf l₁ ++ keysOf l₂ := by
  simp [keysOf]

@[simp] lemma Node.keys_eq {V : Type} (n : Node V) : n.keys = keysOf n.items := rfl

@[simp] lemma lookupKV_nil {V : Type} {key : Int} :
    lookupKV key ([] : List (Item V)) = none := rfl

lemma lookupKV_cons {V : Type} {key : Int} {it : Item V} {l : List (Item V)} :
    lookupKV key (it :: l) =
      if it.key = key then some it.value else lookupKV key l := rfl

lemma lookupKV_append {V : Type} {key : Int} :
    ∀ {l₁ l₂ : List (Item V)},
      lookupKV key (l₁ ++ l₂) = (lookupKV key l₁).or (lookupKV key l₂)
  | [], _ => rfl
  | it :: l₁, l₂ => by
    rw [List.cons_append, lookupKV_cons, lookupKV_cons]
    by_cases h : it.key = key
    · simp [h]
    · simp only [if_neg h]
      exact lookupKV_append

lemma lookupKV_eq_none_iff {V : Type} {key : Int} :
    ∀ {l : List (Item V)}, lookupKV key l = none ↔ key ∉ keysOf l
  | [] => by simp
  | it :: l => by
    rw [lookupKV_cons, keysOf_cons]
    by_cases h : it.key = key
    · simp [h]
    · simp only [if_neg h, List.mem_cons]
      rw [lookupKV_eq_none_iff]
      constructor
      · rintro hn (rfl | hm)
        · exact h rfl
        · exact hn hm
      · intro hn hm
        exact hn (Or.inr hm)

lemma lookupKV_isSome_iff {V : Type} {key : Int} {l : List (Item V)} :
    (lookupKV key l).isSome = true ↔ key ∈ keysOf l := by
  rcases hcase : lookupKV key l with _ | v
  · simp [← lookupKV_eq_none_iff, hcase]
  · simp only [Option.isSome_some, true_iff]
    by_contra hmem
    rw [← lookupKV_eq_none_iff] at hmem
    rw [hcase] at hmem
    cases hmem

/-! `insortKV` -/

lemma length_insortKV {V : Type} {key : Int} {value : V} :
    ∀ {l : List (Item V)}, (insortKV key value l).length = l.length + 1
  | [] => rfl
  | it :: l => by
    rw [insortKV]
    by_cases h : it.key < key
    · simp only [if_pos h, List.length_cons, length_insortKV]
    · simp [if_neg h]

lemma lookupKV_insortKV_self {V : Type} {key : Int} {value : V} :
    ∀ {l : List (Item V)}, lookupKV key (insortKV key value l) = some value
  | [] => by simp [insortKV, lookupKV]
  | it :: l => by
    rw [insortKV]
    by_cases h : it.key < key
    · rw [if_pos h, lookupKV_cons, if_neg (by omega)]
      exact lookupKV_insortKV_self
    · rw [if_neg h, lookupKV_cons]
      simp

lemma lookupKV_insortKV_other {V : Type} {key k : Int} {value : V}
    (hne : k ≠ key) :
    ∀ {l : List (Item V)}, lookupKV k (insortKV key value l) = lookupKV k l
  | [] => by
    simp only [insortKV, lookupKV_cons, lookupKV_nil]
    rw [if_neg (fun h => hne h.symm)]
  | it :: l => by
    rw [insortKV]
    by_cases h : it.key < key
    · rw [if_pos h, lookupKV_cons, lookupKV_cons]
      by_cases h2 : it.key = k
      · simp [h2]
      · rw [if_neg h2, if_neg h2]
        exact lookupKV_insortKV_other hne
    · rw [if_neg h, lookupKV_cons, if_neg (fun hh => hne hh.symm), lookupKV_cons]

lemma insortKV_append_left {V : Type} {key : Int} {value : V} :
    ∀ {l₁ l₂ : List (Item V)}, (∀ x ∈ keysOf l₁, x < key) →
      insortKV key value (l₁ ++ l₂) = l₁ ++ insortKV key value l₂
  | [], _, _ => rfl
  | it :: l₁, l₂, h => by
    rw [List.cons_append, insortKV, if_pos (h it.key (by simp)), List.cons_append]
    rw [insortKV_append_left (fun x hx => h x (by simp [hx]))]

lemma insortKV_append_right {V : Type} {key : Int} {value : V} :
    ∀ {l₁ l₂ : List (Item V)}, (∀ x ∈ keysOf l₂, key < x) →
      insortKV key value (l₁ ++ l₂) = insortKV key value l₁ ++ l₂
  | [], [], _ => rfl
  | [], it :: l₂, h => by
    simp only [List.nil_append, insortKV]
    rw [if_neg (by have := h it.key (by simp); omega)]
    rfl
  | it :: l₁, l₂, h => by
    rw [List.cons_append, insortKV, insortKV]
    by_cases hk : it.key < key
    · rw [if_pos hk, if_pos hk, List.cons_append, insortKV_append_right h]
    · rw [if_neg hk, if_neg hk]
      simp

/-! `eraseKey` -/

@[simp] lemma eraseKey_nil {V : Type} {key : Int} :
    eraseKey key ([] : List (Item V)) = [] := rfl

lemma eraseKey_cons {V : Type} {key : Int} {it : Item V} {l : List (Item V)} :
    eraseKey key (it :: l) = if it.key = key then l else it :: eraseKey key l := rfl

lemma length_eraseKey_of_mem {V : Type} {key : Int} :
    ∀ {l : List (Item V)}, key ∈ keysOf l →
      (eraseKey key l).length + 1 = l.length
  | it :: l, hm => by
    rw [eraseKey_cons]
    by_cases h : it.key = key
    · simp [h]
    · rw [if_neg h]
      have hm' : key ∈ keysOf l := by
        rcases List.mem_cons.1 hm with heq | hm'
        · exact absurd heq.symm h
        · exact hm'
      simp only [List.length_cons]
      rw [← length_eraseKey_of_mem hm']

lemma eraseKey_of_notin {V : Type} {key : Int} :
    ∀ {l : List (Item V)}, key ∉ keysOf l → eraseKey key l = l
  | [], _ => rfl
  | it :: l, h => by
    rw [eraseKey_cons, if_neg (fun hh => h (by simp [hh])),
      eraseKey_of_notin (fun hh => h (by simp [hh]))]

lemma eraseKey_append_of_notin {V : Type} {key : Int} :
    ∀ {l₁ l₂ : List (Item V)}, key ∉ keysOf l₁ →
      eraseKey key (l₁ ++ l₂) = l₁ ++ eraseKey key l₂
  | [], _, _ => rfl
  | it :: l₁, l₂, h => by
    rw [List.cons_append, eraseKey_cons, if_neg (fun hh => h (by simp [hh])),
      List.cons_append, eraseKey_append_of_notin (fun hh => h (by simp [hh]))]

lemma lookupKV_eraseKey_other {V : Type} {key k : Int} (hne : k ≠ key) :
    ∀ {l : List (Item V)}, lookupKV k (eraseKey key l) = lookupKV k l
  | [] => rfl
  | it :: l => by
    rw [eraseKey_cons]
    by_cases h : it.key = key
    · have hnk : it.key ≠ k := by rw [h]; exact fun hh => hne hh.symm
      rw [if_pos h, lookupKV_cons, if_neg hnk]
    · rw [if_neg h, lookupKV_cons, lookupKV_cons]
      by_cases h2 : it.key = k
      · simp [h2]
      · rw [if_neg h2, if_neg h2]
        exact lookupKV_eraseKey_other hne

lemma lookupKV_eraseKey_self {V : Type} {key : Int} :
    ∀ {l : List (Item V)}, (keysOf l).Pairwise (· < ·) →
      lookupKV key (eraseKey key l) = none
  | [], _ => rfl
  | it :: l, hp => by
    rw [keysOf_cons, List.pairwise_cons] at hp
    rw [eraseKey_cons]
    by_cases h : it.key = key
    · rw [if_pos h, lookupKV_eq_none_iff]
      intro hmem
      have := hp.1 key hmem
      omega
    · rw [if_neg h, lookupKV_cons, if_neg h]
      exact lookupKV_eraseKey_self hp.2

/-! `replaceV` -/

@[simp] lemma keysOf_replaceV {V : Type} {key : Int} {value : V} :
    ∀ {l : List (Item V)}, keysOf (replaceV key value l) = keysOf l
  | [] => rfl
  | it :: l => by
    rw [replaceV]
    by_cases h : it.key = key
    · simp [h]
    · rw [if_neg h, keysOf_cons, keysOf_cons, keysOf_replaceV]

lemma length_replaceV {V : Type} {key : Int} {value : V} :
    ∀ {l : List (Item V)}, (replaceV key value l).length = l.length
  | [] => rfl
  | it :: l => by
    rw [replaceV]
    by_cases h : it.key = key
    · simp [h]
    · simp only [if_neg h, List.length_cons, length_replaceV]

lemma replaceV_of_notin {V : Type} {key : Int} {value : V} :
    ∀ {l : List (Item V)}, key ∉ keysOf l → replaceV key value l = l
  | [], _ => rfl
  | it :: l, h => by
    rw [replaceV, if_neg (fun hh => h (by simp [hh])),
      replaceV_of_notin (fun hh => h (by simp [hh]))]

lemma replaceV_append_of_notin {V : Type} {key : Int} {value : V} :
    ∀ {l₁ l₂ : List (Item V)}, key ∉ keysOf l₁ →
      replaceV key value (l₁ ++ l₂) = l₁ ++ replaceV key value l₂
  | [], _, _ => rfl
  | it :: l₁, l₂, h => by
    rw [List.cons_append, replaceV, if_neg (fun hh => h (by simp [hh])),
      List.cons_append, replaceV_append_of_notin (fun hh => h (by simp [hh]))]

lemma replaceV_append_of_mem {V : Type} {key : Int} {value : V} :
    ∀ {l₁ l₂ : List (Item V)}, key ∈ keysOf l₁ →
      replaceV key value (l₁ ++ l₂) = replaceV key value l₁ ++ l₂
  | it :: l₁, l₂, h => by
    rw [List.cons_append, replaceV, replaceV]
    by_cases hk : it.key = key
    · rw [if_pos hk, if_pos hk, List.cons_append]
    · rw [if_neg hk, if_neg hk, List.cons_append]
      have h' : key ∈ keysOf l₁ := by
        rcases List.mem_cons.1 h with heq | hm
        · exact absurd heq.symm hk
        · exact hm
      rw [replaceV_append_of_mem h']

lemma lookupKV_replaceV_self {V : Type} {key : Int} {value : V} :
    ∀ {l : List (Item V)}, key ∈ keysOf l →
      lookupKV key (replaceV key value l) = some value
  | it :: l, h => by
    rw [replaceV]
    by_cases hk : it.key = key
    · rw [if_pos hk, lookupKV_cons, if_pos hk]
    · rw [if_neg hk, lookupKV_cons, if_neg hk]
      have h' : key ∈ keysOf l := by
        rcases List.mem_cons.1 h with heq | hm
        · exact absurd heq.symm hk
        · exact hm
      exact lookupKV_replaceV_self h'

/-! ## Positional surgery lemmas -/

lemma glue_cons {V : Type} {f : Node V → List (Item V)} {its : List (Item V)}
    {c : Node V} {cs : List (Node V)} :
    glue f its (c :: cs) = f c ++ glueRest f its cs := by
  cases its <;> simp [glue, glueRest]

lemma insertIdx_eq_take_cons_drop {α : Type} (a : α) :
    ∀ (i : Nat) (l : List α), i ≤ l.length →
      l.insertIdx i a = l.take i ++ a :: l.drop i
  | 0, l, _ => by simp
  | i + 1, x :: l, h => by
    simp only [List.insertIdx_succ_cons, List.take_succ_cons, List.drop_succ_cons,
      List.cons_append]
    rw [insertIdx_eq_take_cons_drop a i l (by simpa using h)]
  | i + 1, [], h => by simp at h

lemma rank_bounds {ks : List Int} {key : Int} {lo hi : Option Int}
    (hs : sortedIn lo hi ks = true) (hlo : lbLt lo key = true)
    (hhi : ubGt hi key = true) (hni : key ∉ ks) :
    lbLt (loAt lo ks (rank ks key)) key = true ∧
      ubGt (hiAt hi ks (rank ks key)) key = true := by
  have hp : ks.Pairwise (· ≤ ·) := (sortedIn_pairwise hs).imp le_of_lt
  constructor
  · rcases hr : rank ks key with _ | r
    · exact hlo
    · have hrlen : r < ks.length := by
        have := @rank_le_length ks key; omega
      show lbLt (some (ks.getD r 0)) key = true
      rw [List.getD_eq_getElem _ _ hrlen]
      have hle : ks[r] ≤ key := rank_spec_le hp hrlen (by omega)
      have hne : ks[r] ≠ key := fun h => hni (h ▸ List.getElem_mem hrlen)
      rw [lbLt_some]
      omega
  · rw [hiAt]
    by_cases h : rank ks key < ks.length
    · rw [if_pos h, List.getD_eq_getElem _ _ h]
      rw [ubGt_some]
      exact rank_spec_gt hp h (le_refl _)
    · rw [if_neg h]; exact hhi

lemma find_eq_rank_of_notin {V : Type} {n : Node V} {key : Int}
    (hs : n.keys.Pairwise (· < ·)) (hni : key ∉ n.keys) :
    n.find key = (rank n.keys key, false) := by
  rw [find_eq n key (hs.imp le_of_lt), if_neg]
  rintro ⟨hpos, heq⟩
  have hlen : rank n.keys key - 1 < n.keys.length := by
    have := @rank_le_length n.keys key; omega
  rw [List.getD_eq_getElem _ _ hlen] at heq
  exact hni (heq ▸ List.getElem_mem hlen)

lemma find_eq_of_mem {V : Type} {n : Node V} {key : Int}
    (hs : n.keys.Pairwise (· < ·)) (hm : key ∈ n.keys) :
    n.find key = (rank n.keys key - 1, true) ∧ 0 < rank n.keys key ∧
      rank n.keys key - 1 < n.keys.length ∧
      n.keys.getD (rank n.keys key - 1) 0 = key := by
  rcases List.mem_iff_getElem.1 hm with ⟨idx, hidx, hval⟩
  have hp := hs.imp (le_of_lt (α := Int))
  have hrank : idx + 1 = rank n.keys key := by
    refine rank_eq_of hp (by omega) ?_ ?_
    · intro a ha haidx
      rcases Nat.lt_or_ge a idx with h | h
      · exact le_of_lt (hval ▸ List.pairwise_iff_getElem.1 hs a idx ha hidx h)
      · have : a = idx := by omega
        subst this; exact le_of_eq hval
    · intro b hb hbidx
      exact hval ▸ List.pairwise_iff_getElem.1 hs idx b hidx hb (by omega)
  have hgd : n.keys.getD (rank n.keys key - 1) 0 = key := by
    rw [List.getD_eq_getElem _ _ (by omega)]
    have he : rank n.keys key - 1 = idx := by omega
    simp only [he]
    exact hval
  refine ⟨?_, by omega, by omega, hgd⟩
  rw [find_eq n key hp, if_pos ⟨by omega, hgd⟩]

lemma lookupKV_of_sorted_getElem {V : Type} {key : Int} :
    ∀ {l : List (Item V)} {idx : Nat} (hidx : idx < l.length),
      (keysOf l).Pairwise (· < ·) → l[idx].key = key →
      lookupKV key l = some l[idx].value
  | it :: l, 0, _, _, hkey => by
    rw [lookupKV_cons, if_pos (by simpa using hkey)]
    simp
  | it :: l, idx + 1, hidx, hs, hkey => by
    rw [keysOf_cons, List.pairwise_cons] at hs
    have hidx' : idx < l.length := by simpa using hidx
    have hkey' : l[idx].key = key := by simpa using hkey
    have hlt : it.key < key := by
      have hmem : l[idx].key ∈ keysOf l := by
        simp only [keysOf]
        exact List.mem_map_of_mem _ (List.getElem_mem hidx')
      have := hs.1 _ hmem
      omega
    rw [lookupKV_cons, if_neg (by omega)]
    exact lookupKV_of_sorted_getElem hidx' hs.2 hkey' 

lemma chainCheck_set {V : Type} {f : Option Int → Option Int → Node V → Bool}
    {ks : List Int} {cs : List (Node V)} {lo hi : Option Int} {i : Nat}
    {c' : Node V} (hlen : cs.length = ks.length + 1) (hilt : i < cs.length)
    (hc : chainCheck f lo hi ks cs = true)
    (hnew : f (loAt lo ks i) (hiAt hi ks i) c' = true) :
    chainCheck f lo hi ks (cs.set i c') = true := by
  rw [chainCheck_iff (by simpa using hlen)] at hc ⊢
  intro j hj
  simp only [List.length_set] at hj
  rw [List.getElem_set]
  by_cases hij : i = j
  · rw [if_pos hij]
    subst hij
    exact hnew
  · rw [if_neg hij]
    exact hc j hj

lemma chainCheck_split_ins {V : Type} {f : Option Int → Option Int → Node V → Bool}
    {m : Int} {l r : Node V} :
    ∀ (i : Nat) {ks : List Int} {cs : List (Node V)} {lo hi : Option Int},
      i ≤ ks.length → cs.length = ks.length + 1 →
      chainCheck f lo hi ks cs = true →
      f (loAt lo ks i) (some m) l = true →
      f (some m) (hiAt hi ks i) r = true →
      chainCheck f lo hi (ks.insertIdx i m) ((cs.set i l).insertIdx (i + 1) r) = true
  | 0, [], cs, lo, hi, _, hlen, hc, hl, hr => by
    match cs, hlen with
    | [c], _ =>
      show chainCheck f lo hi [m] [l, r] = true
      simp only [chainCheck, Bool.and_eq_true]
      exact ⟨by simpa using hl, by simpa using hr⟩
  | 0, k :: ks, cs, lo, hi, _, hlen, hc, hl, hr => by
    match cs, hlen with
    | c :: cs', _ =>
      simp only [chainCheck, Bool.and_eq_true] at hc
      show chainCheck f lo hi (m :: k :: ks) (l :: r :: cs') = true
      simp only [chainCheck, Bool.and_eq_true]
      exact ⟨by simpa using hl, by simpa using hr, hc.2⟩
  | i + 1, k :: ks, cs, lo, hi, hile, hlen, hc, hl, hr => by
    match cs, hlen with
    | c :: cs', hlen =>
      simp only [chainCheck, Bool.and_eq_true] at hc
      show chainCheck f lo hi (k :: ks.insertIdx i m)
        (c :: (cs'.set i l).insertIdx (i + 1) r) = true
      simp only [chainCheck, Bool.and_eq_true]
      refine ⟨hc.1, ?_⟩
      refine chainCheck_split_ins i (by simpa using hile) (by simpa using hlen) hc.2 ?_ ?_
      · rwa [loAt_cons] at hl
      · rwa [hiAt_cons] at hr

lemma sortedIn_insertIdx {m : Int} :
    ∀ (i : Nat) {ks : List Int} {lo hi : Option Int},
      i ≤ ks.length → sortedIn lo hi ks = true →
      lbLt (loAt lo ks i) m = true → ubGt (hiAt hi ks i) m = true →
      sortedIn lo hi (ks.insertIdx i m) = true
  | 0, [], lo, hi, _, _, hl, hr => by
    simp only [List.insertIdx_zero, sortedIn_cons]
    exact ⟨hl, by simpa using hr, by simp⟩
  | 0, k :: ks, lo, hi, _, hs, hl, hr => by
    rw [sortedIn_cons] at hs
    simp only [List.insertIdx_zero, sortedIn_cons]
    have hmk : m < k := by simpa using hr
    exact ⟨hl, ubGt_trans hs.2.1 (le_of_lt hmk), by simpa using hmk, hs.2.1, hs.2.2⟩
  | i + 1, k :: ks, lo, hi, hile, hs, hl, hr => by
    rw [sortedIn_cons] at hs
    simp only [List.insertIdx_succ_cons, sortedIn_cons]
    refine ⟨hs.1, hs.2.1, ?_⟩
    refine sortedIn_insertIdx i (by simpa using hile) hs.2.2 ?_ ?_
    · rwa [loAt_cons] at hl
    · rwa [hiAt_cons] at hr

lemma loAt_ge {a : Int} : ∀ {ks : List Int} {hi : Option Int} (i : Nat),
    i ≤ ks.length → sortedIn (some a) hi ks = true →
    ∀ y, lbLt (loAt (some a) ks i) y = true → a < y := by
  intro ks hi i hile hs y hy
  cases i with
  | zero => simpa using hy
  | succ j =>
    have hjlen : j < ks.length := by omega
    have hmem : ks.getD j 0 ∈ ks := by
      rw [List.getD_eq_getElem _ _ hjlen]
      exact List.getElem_mem hjlen
    have := sortedIn_mem_lb hs hmem
    simp only [lbLt_some] at this
    show a < y
    have hy' : ks.getD j 0 < y := by simpa [loAt] using hy
    omega

lemma gluePre_below {V : Type} {f : Node V → List (Item V)}
    {g : Option Int → Option Int → Node V → Bool}
    (hfg : ∀ lo' hi' c, g lo' hi' c = true →
      sortedIn lo' hi' (keysOf (f c)) = true) :
    ∀ (i : Nat) {its : List (Item V)} {cs : List (Node V)} {lo hi : Option Int},
      i ≤ its.length →
      sortedIn lo hi (keysOf its) = true →
      chainCheck g lo hi (keysOf its) cs = true →
      ∀ x ∈ keysOf (gluePre f (its.take i) (cs.take i)), ∀ y,
        lbLt (loAt lo (keysOf its) i) y = true → x < y := by
  intro i
  induction i with
  | zero => intro its cs lo hi _ _ _ x hx; simp [gluePre] at hx
  | succ i ih =>
    intro its cs lo hi hile hs hc x hx y hy
    match its, cs, hile, hc with
    | it :: its', c :: cs', hile, hc =>
      simp only [keysOf_cons, chainCheck, Bool.and_eq_true] at hc
      simp only [keysOf_cons, sortedIn_cons] at hs
      simp only [List.take_succ_cons, gluePre, keysOf_append, keysOf_cons,
        List.mem_append, List.mem_cons] at hx
      have hky : it.key < y := by
        rcases i with _ | j
        · simp only [keysOf_cons, loAt_cons, loAt_zero] at hy
          simpa using hy
        · simp only [keysOf_cons, loAt_cons] at hy
          exact loAt_ge (j + 1)
            (by simp only [keysOf, List.length_map]; simpa using hile) hs.2.2 y hy
      rcases hx with hx | hx | hx
      · have := sortedIn_mem_ub (hfg _ _ _ hc.1) hx
        simp only [ubGt_some] at this
        omega
      · omega
      · simp only [keysOf_cons, loAt_cons] at hy
        exact ih (by simpa using hile) hs.2.2 hc.2 x hx y hy

lemma glueRest_above {V : Type} {f : Node V → List (Item V)}
    {g : Option Int → Option Int → Node V → Bool}
    (hfg : ∀ lo' hi' c, g lo' hi' c = true →
      sortedIn lo' hi' (keysOf (f c)) = true) :
    ∀ (i : Nat) {its : List (Item V)} {cs : List (Node V)} {lo hi : Option Int},
      sortedIn lo hi (keysOf its) = true →
      chainCheck g lo hi (keysOf its) cs = true →
      ∀ x ∈ keysOf (glueRest f (its.drop i) (cs.drop (i + 1))), ∀ y,
        ubGt (hiAt hi (keysOf its) i) y = true → y < x := by
  intro i
  induction i with
  | zero =>
    intro its cs lo hi hs hc x hx y hy
    match its, cs, hc with
    | [], cs, hc => simp [glueRest] at hx
    | it :: its', c :: cs', hc =>
      simp only [keysOf_cons, chainCheck, Bool.and_eq_true] at hc
      simp only [keysOf_cons, sortedIn_cons] at hs
      simp only [List.drop_zero, List.drop_succ_cons, List.drop_zero, glueRest,
        keysOf_cons, List.mem_cons] at hx
      simp only [keysOf_cons, hiAt_zero_cons, ubGt_some] at hy
      rcases hx with rfl | hx
      · exact hy
      · have hsg := glue_sortedIn hfg hs.2.2 hc.2
        have := sortedIn_mem_lb hsg hx
        simp only [lbLt_some] at this
        omega
  | succ i ih =>
    intro its cs lo hi hs hc x hx y hy
    match its, cs, hc with
    | [], cs, hc => simp [glueRest] at hx
    | it :: its', c :: cs', hc =>
      simp only [keysOf_cons, chainCheck, Bool.and_eq_true] at hc
      simp only [keysOf_cons, sortedIn_cons] at hs
      simp only [List.drop_succ_cons] at hx
      simp only [keysOf_cons, hiAt_cons] at hy
      exact ih hs.2.2 hc.2 x hx y hy

/-! ## More list helpers -/

lemma keysOf_insertIdx {V : Type} {it : Item V} :
    ∀ (i : Nat) {l : List (Item V)},
      keysOf (l.insertIdx i it) = (keysOf l).insertIdx i it.key
  | 0, l => by simp
  | i + 1, [] => by simp
  | i + 1, x :: l => by
    simp only [List.insertIdx_succ_cons, keysOf_cons, keysOf_insertIdx i]

lemma keysOf_set_same {V : Type} {key : Int} {value : V} :
    ∀ {l : List (Item V)} {idx : Nat}, idx < l.length →
      (∀ (h : idx < l.length), l[idx].key = key) →
      keysOf (l.set idx ⟨key, value⟩) = keysOf l
  | x :: l, 0, _, hk => by
    have hx : x.key = key := by simpa using hk (by simp)
    simp only [List.set_cons_zero, keysOf_cons, hx]
  | x :: l, idx + 1, hidx, hk => by
    simp only [List.set_cons_succ, keysOf_cons]
    rw [keysOf_set_same (by simpa using hidx) (fun h => by simpa using hk (by simpa using h))]

lemma replaceV_eq_set {V : Type} {key : Int} {value : V} :
    ∀ {l : List (Item V)} {idx : Nat} (hidx : idx < l.length),
      (keysOf l).Pairwise (· < ·) → l[idx].key = key →
      replaceV key value l = l.set idx ⟨key, value⟩
  | x :: l, 0, _, _, hk => by
    simp only [List.getElem_cons_zero] at hk
    rw [replaceV, if_pos hk, List.set_cons_zero, hk]
  | x :: l, idx + 1, hidx, hp, hk => by
    rw [keysOf_cons, List.pairwise_cons] at hp
    have hidx' : idx < l.length := by simpa using hidx
    have hk' : l[idx].key = key := by simpa using hk
    have hxlt : x.key < key := by
      have := hp.1 _ (List.mem_map_of_mem _ (List.getElem_mem hidx'))
      omega
    rw [replaceV, if_neg (by omega), List.set_cons_succ,
      replaceV_eq_set hidx' hp.2 hk']

lemma insortKV_eq_insertIdx {V : Type} {key : Int} {value : V} :
    ∀ {l : List (Item V)}, (keysOf l).Pairwise (· < ·) → key ∉ keysOf l →
      insortKV key value l = l.insertIdx (rank (keysOf l) key) ⟨key, value⟩
  | [], _, _ => rfl
  | it :: l, hp, hni => by
    rw [keysOf_cons, List.pairwise_cons] at hp
    rw [insortKV]
    by_cases h : it.key < key
    · rw [if_pos h, keysOf_cons, rank_cons, if_pos (le_of_lt h),
        List.insertIdx_succ_cons,
        insortKV_eq_insertIdx hp.2 (fun hm => hni (by simp [hm]))]
    · have hgt : key < it.key := by
        rcases lt_or_eq_of_le (not_lt.1 h) with hlt | heq
        · exact hlt
        · exact absurd (by simp [heq]) hni
      have h0 : rank (keysOf (it :: l)) key = 0 := by
        rw [rank, List.countP_eq_zero]
        intro x hx
        rcases List.mem_cons.1 hx with rfl | hx
        · simp only [decide_eq_true_eq]; omega
        · have := hp.1 x hx
          simp only [decide_eq_true_eq]
          omega
      rw [if_neg h, h0, List.insertIdx_zero]

lemma set_insertIdx_succ {α : Type} {l r : α} :
    ∀ (i : Nat) (cs : List α), i < cs.length →
      (cs.set i l).insertIdx (i + 1) r = cs.take i ++ l :: r :: cs.drop (i + 1)
  | 0, c :: cs, _ => by simp
  | i + 1, c :: cs, h => by
    simp only [List.set_cons_succ, List.insertIdx_succ_cons, List.take_succ_cons,
      List.drop_succ_cons, List.cons_append]
    rw [set_insertIdx_succ i cs (by simpa using h)]

/-! ## Correctness of `split` -/

theorem split_spec {V : Type} [Inhabited V] {h : Nat} {c : Node V} {mn : Nat}
    {lo hi : Option Int}
    (hw : Node.wfi h mn maxItems lo hi c = true)
    (hfull : c.items.length = maxItems) :
    Node.flatten h c =
      Node.flatten h (c.split h).1 ++ (c.split h).2.2 :: Node.flatten h (c.split h).2.1 ∧
    Node.wfi h minItems (maxItems - 1) lo (some (c.split h).2.2.key) (c.split h).1 = true ∧
    Node.wfi h minItems (maxItems - 1) (some (c.split h).2.2.key) hi (c.split h).2.1 = true ∧
    lbLt lo (c.split h).2.2.key = true ∧ ubGt hi (c.split h).2.2.key = true ∧
    (c.split h).1.items.length = maxItems / 2 ∧
    (c.split h).2.1.items.length = maxItems / 2 := by
  obtain ⟨its, cs⟩ := c
  simp only [Node.items] at hfull
  have hmidlt : maxItems / 2 < its.length := by rw [hfull]; decide
  have hmed : its.getD (maxItems / 2) default = its[maxItems / 2] :=
    List.getD_eq_getElem _ _ hmidlt
  have hitems : its = its.take (maxItems / 2) ++
      its[maxItems / 2] :: its.drop (maxItems / 2 + 1) := by
    conv_lhs => rw [← List.take_append_drop (maxItems / 2) its]
    rw [List.drop_eq_getElem_cons hmidlt]
  have hkeys : keysOf its = keysOf (its.take (maxItems / 2)) ++
      its[maxItems / 2].key :: keysOf (its.drop (maxItems / 2 + 1)) := by
    conv_lhs => rw [hitems]
    rw [keysOf_append, keysOf_cons]
  have hlen1 : (its.take (maxItems / 2)).length = maxItems / 2 := by
    rw [List.length_take]; omega
  have hlen2 : (its.drop (maxItems / 2 + 1)).length = maxItems / 2 := by
    rw [List.length_drop, hfull]; decide
  cases h with
  | zero =>
    rw [wfi_zero] at hw
    simp only [Node.items, Node.children, Node.keys_eq] at hw
    obtain ⟨hch, hmn, hmx, hsort⟩ := hw
    rw [hkeys, sortedIn_append] at hsort
    obtain ⟨hs1, hlb, hub, hs2⟩ := hsort
    simp only [Node.split, Node.flatten, Node.items, Node.children, hmed,
      Nat.lt_irrefl, if_false, Node.keys_eq]
    refine ⟨hitems, ?_, ?_, hlb, hub, hlen1, hlen2⟩
    · rw [wfi_zero]
      simp only [Node.items, Node.children, Node.keys_eq]
      exact ⟨hch, by rw [hlen1]; decide, by rw [hlen1]; decide, hs1⟩
    · rw [wfi_zero]
      simp only [Node.items, Node.children, Node.keys_eq]
      refine ⟨by simp, by rw [hlen2]; decide, by rw [hlen2]; decide, hs2⟩
  | succ h' =>
    rw [wfi_succ] at hw
    simp only [Node.items, Node.children, Node.keys_eq] at hw
    obtain ⟨hclen, hmn, hmx, hsort, hcheck⟩ := hw
    have hcsplit : cs = cs.take (maxItems / 2 + 1) ++
        cs.drop (maxItems / 2 + 1) := (List.take_append_drop _ _).symm
    have hctlen : (cs.take (maxItems / 2 + 1)).length = maxItems / 2 + 1 := by
      rw [List.length_take]; rw [hclen, hfull]; decide
    have hdlen : (cs.drop (maxItems / 2 + 1)).length = maxItems / 2 + 1 := by
      rw [List.length_drop, hclen, hfull]; decide
    rw [hkeys, sortedIn_append] at hsort
    obtain ⟨hs1, hlb, hub, hs2⟩ := hsort
    rw [hkeys] at hcheck
    rw [hcsplit] at hcheck
    rw [chainCheck_append
      (by rw [hctlen]; simp only [keysOf, List.length_map]; rw [hlen1])] at hcheck
    simp only [Node.split, Node.flatten, Node.items, Node.children, hmed,
      Nat.zero_lt_succ, if_true, Node.keys_eq]
    refine ⟨?_, ?_, ?_, hlb, hub, hlen1, hlen2⟩
    · conv_lhs => rw [hitems, hcsplit]
      rw [glue_append_full _ _ _ _
        (by rw [hctlen]; rw [hlen1])]
    · rw [wfi_succ]
      simp only [Node.items, Node.children, Node.keys_eq]
      exact ⟨by rw [hctlen, hlen1], by rw [hlen1]; decide, by rw [hlen1]; decide,
        hs1, hcheck.1⟩
    · rw [wfi_succ]
      simp only [Node.items, Node.children, Node.keys_eq]
      exact ⟨by rw [hdlen, hlen2], by rw [hlen2]; decide, by rw [hlen2]; decide,
        hs2, hcheck.2⟩

/-! ## Three-part decompositions of a `glue` layer -/

lemma glue_decomp {V : Type} (f : Node V → List (Item V))
    {its : List (Item V)} {cs : List (Node V)} {i : Nat}
    (hlen : cs.length = its.length + 1) (hile : i ≤ its.length) :
    glue f its cs = gluePre f (its.take i) (cs.take i) ++
      (f (cs.getD i ⟨[], []⟩) ++ glueRest f (its.drop i) (cs.drop (i + 1))) := by
  have hicslt : i < cs.length := by omega
  rw [List.getD_eq_getElem _ _ hicslt]
  conv_lhs => rw [← List.take_append_drop i its, ← List.take_append_drop i cs]
  rw [glue_append f _ _ (by rw [List.length_take, List.length_take]; omega)]
  rw [List.drop_eq_getElem_cons hicslt, glue_cons]

lemma glue_decomp_set {V : Type} (f : Node V → List (Item V))
    {its : List (Item V)} {cs : List (Node V)} {i : Nat} {c' : Node V}
    (hlen : cs.length = its.length + 1) (hile : i ≤ its.length) :
    glue f its (cs.set i c') = gluePre f (its.take i) (cs.take i) ++
      (f c' ++ glueRest f (its.drop i) (cs.drop (i + 1))) := by
  have hicslt : i < cs.length := by omega
  rw [List.set_eq_take_cons_drop _ hicslt]
  conv_lhs => rw [← List.take_append_drop i its]
  rw [glue_append f _ _ (by rw [List.length_take, List.length_take]; omega)]
  rw [glue_cons]

lemma glue_decomp_splitins {V : Type} (f : Node V → List (Item V))
    {its : List (Item V)} {cs : List (Node V)} {i : Nat} {m : Item V}
    {l r : Node V} (hlen : cs.length = its.length + 1) (hile : i ≤ its.length) :
    glue f (its.insertIdx i m) ((cs.set i l).insertIdx (i + 1) r) =
      gluePre f (its.take i) (cs.take i) ++
        ((f l ++ m :: f r) ++ glueRest f (its.drop i) (cs.drop (i + 1))) := by
  have hicslt : i < cs.length := by omega
  rw [set_insertIdx_succ i cs hicslt, insertIdx_eq_take_cons_drop m i its hile]
  rw [glue_append f _ _ (by rw [List.length_take, List.length_take]; omega)]
  congr 1
  rw [glue_cons]
  simp only [glueRest, glue_cons, List.append_assoc, List.cons_append]

/-! ## Correctness of `set` -/

theorem set_spec {V : Type} [Inhabited V] (key : Int) (value : V) :
    ∀ (h : Nat) (n : Node V) (mn mx : Nat) (lo hi : Option Int),
      Node.wfi h mn mx lo hi n = true →
      mx ≤ maxItems - 1 →
      lbLt lo key = true → ubGt hi key = true →
      ((Node.set key value h n).1.2 = true ↔
        key ∈ keysOf (Node.flatten h n)) ∧
      (Node.set key value h n).1.1 = lookupKV key (Node.flatten h n) ∧
      ((Node.set key value h n).1.2 = true →
        Node.wfi h mn mx lo hi (Node.set key value h n).2 = true ∧
        (Node.set key value h n).2.items.length = n.items.length ∧
        Node.flatten h (Node.set key value h n).2 =
          replaceV key value (Node.flatten h n)) ∧
      ((Node.set key value h n).1.2 = false →
        Node.wfi h mn (mx + 1) lo hi (Node.set key value h n).2 = true ∧
        n.items.length ≤ (Node.set key value h n).2.items.length ∧
        (Node.set key value h n).2.items.length ≤ n.items.length + 1 ∧
        Node.flatten h (Node.set key value h n).2 =
          insortKV key value (Node.flatten h n)) := by
  intro h
  induction h with
  | zero =>
    intro n mn mx lo hi hw hmx hlo hhi
    obtain ⟨its, cs⟩ := n
    rw [wfi_zero] at hw
    simp only [Node.items_mk, Node.children_mk, Node.keys_eq] at hw
    obtain ⟨hch, hmn', hmx', hsort⟩ := hw
    have hp : (keysOf its).Pairwise (· < ·) := sortedIn_pairwise hsort
    have hkslen : (keysOf its).length = its.length := by
      simp [keysOf]
    by_cases hmem : key ∈ keysOf its
    · -- replace in the leaf
      obtain ⟨hfind, hrpos, hrlen, hgd⟩ :=
        find_eq_of_mem (n := Node.mk its cs) (by simpa using hp) (by simpa using hmem)
      rw [Node.keys_eq] at hfind hrlen hgd
      simp only [Node.items_mk] at hfind hrlen hgd ⊢
      have hIlen : rank (keysOf its) key - 1 < its.length := by omega
      have hitskey : its[rank (keysOf its) key - 1].key = key := by
        rw [List.getD_eq_getElem _ _ hrlen] at hgd
        simpa [keysOf] using hgd
      have hgditem : its.getD (rank (keysOf its) key - 1) default =
          its[rank (keysOf its) key - 1] := List.getD_eq_getElem _ _ hIlen
      simp only [Node.set, hfind, hgditem, hitskey, Node.items_mk, Node.children_mk,
        Node.flatten, if_true]
      refine ⟨by simpa [Node.flatten, Node.items_mk, keysOf] using hmem, ?_, ?_, ?_⟩
      · exact (lookupKV_of_sorted_getElem hIlen hp hitskey).symm
      · intro _
        refine ⟨?_, by simp, ?_⟩
        · rw [wfi_zero]
          simp only [Node.items_mk, Node.children_mk, Node.keys_eq]
          rw [keysOf_set_same hIlen (fun _ => hitskey)]
          exact ⟨hch, by simpa using hmn', by simpa using hmx', hsort⟩
        · exact (replaceV_eq_set hIlen hp hitskey).symm
      · intro hcontra
        cases hcontra
    · -- insert into the leaf
      have hfind : Node.find (Node.mk its cs) key = (rank (keysOf its) key, false) :=
        find_eq_rank_of_notin (by simpa using hp) (by simpa using hmem)
      have hIle : rank (keysOf its) key ≤ its.length := by
        have := @rank_le_length (keysOf its) key; omega
      have hb := rank_bounds hsort hlo hhi hmem
      simp only [Node.set, hfind, Node.items_mk, Node.children_mk, Node.flatten,
        if_false, Bool.false_eq_true]
      refine ⟨by simpa [keysOf] using hmem, ?_, ?_, ?_⟩
      · exact (lookupKV_eq_none_iff.2 hmem).symm
      · intro hcontra
        cases hcontra
      · intro _
        refine ⟨?_, ?_, ?_, ?_⟩
        · rw [wfi_zero]
          simp only [Node.items_mk, Node.children_mk, Node.keys_eq]
          rw [List.length_insertIdx _ _ hIle]
          refine ⟨hch, by omega, by omega, ?_⟩
          rw [keysOf_insertIdx]
          exact sortedIn_insertIdx _ (by omega) hsort hb.1 hb.2
        · rw [List.length_insertIdx _ _ hIle]; omega
        · rw [List.length_insertIdx _ _ hIle]
        · exact (insortKV_eq_insertIdx hp hmem).symm
  | succ h ih =>
    intro n mn mx lo hi hw hmx hlo hhi
    obtain ⟨its, cs⟩ := n
    rw [wfi_succ] at hw
    simp only [Node.items_mk, Node.children_mk, Node.keys_eq] at hw
    obtain ⟨hclen, hmn', hmx', hsort, hcheck⟩ := hw
    have hp : (keysOf its).Pairwise (· < ·) := sortedIn_pairwise hsort
    have hkslen : (keysOf its).length = its.length := by simp [keysOf]
    have hfg : ∀ (lo' hi' : Option Int) (c : Node V),
        Node.wfi h minItems (maxItems - 1) lo' hi' c = true →
        sortedIn lo' hi' (keysOf ((fun c => Node.flatten h c) c)) = true :=
      fun lo' hi' c hc => wfi_flatten_sortedIn h hc
    by_cases hmem : key ∈ keysOf its
    · -- exact hit at this node: replace the item value in place
      obtain ⟨hfind, hrpos, hrlen, hgd⟩ :=
        find_eq_of_mem (n := Node.mk its cs) (by simpa using hp) (by simpa using hmem)
      rw [Node.keys_eq] at hfind hrlen hgd
      simp only [Node.items_mk] at hfind hrlen hgd ⊢
      have hIlen : rank (keysOf its) key - 1 < its.length := by omega
      have hitskey : its[rank (keysOf its) key - 1].key = key := by
        rw [List.getD_eq_getElem _ _ hrlen] at hgd
        simpa [keysOf] using hgd
      have hgditem : its.getD (rank (keysOf its) key - 1) default =
          its[rank (keysOf its) key - 1] := List.getD_eq_getElem _ _ hIlen
      -- decompose around item (rank - 1)
      set I := rank (keysOf its) key - 1 with hIdef
      have hitsdec : its = its.take I ++ its[I] :: its.drop (I + 1) := by
        conv_lhs => rw [← List.take_append_drop I its]
        rw [List.drop_eq_getElem_cons hIlen]
      have hksdec : keysOf its = keysOf (its.take I) ++
          key :: keysOf (its.drop (I + 1)) := by
        conv_lhs => rw [hitsdec]
        rw [keysOf_append, keysOf_cons, hitskey]
      have hcsdec : cs = cs.take (I + 1) ++ cs.drop (I + 1) :=
        (List.take_append_drop _ _).symm
      have hctlen : (cs.take (I + 1)).length = I + 1 := by
        rw [List.length_take]; omega
      have hchk2 := hcheck
      rw [hksdec, hcsdec, chainCheck_append
        (by rw [hctlen]; simp only [keysOf, List.length_map, List.length_take]; omega)] at hchk2
      have hsort2 := hsort
      rw [hksdec, sortedIn_append] at hsort2
      have hA : sortedIn lo (some key)
          (keysOf (glue (fun c => Node.flatten h c) (its.take I) (cs.take (I + 1)))) =
            true := glue_sortedIn hfg hsort2.1 hchk2.1
      have hB : sortedIn (some key) hi
          (keysOf (glue (fun c => Node.flatten h c) (its.drop (I + 1)) (cs.drop (I + 1)))) =
            true := glue_sortedIn hfg hsort2.2.2.2 hchk2.2
      have hflatdec : Node.flatten (h + 1) (Node.mk its cs) =
          glue (fun c => Node.flatten h c) (its.take I) (cs.take (I + 1)) ++
            its[I] :: glue (fun c => Node.flatten h c) (its.drop (I + 1))
              (cs.drop (I + 1)) := by
        show glue _ its cs = _
        conv_lhs => rw [hitsdec, hcsdec]
        rw [glue_append_full _ _ _ _ (by rw [hctlen]; rw [List.length_take]; omega)]
      have hAnotin : key ∉ keysOf (glue (fun c => Node.flatten h c)
          (its.take I) (cs.take (I + 1))) := by
        intro hk
        have := sortedIn_mem_ub hA hk
        simp at this
      simp only [Node.set, hfind, hgditem, hitskey, Node.items_mk, Node.children_mk,
        if_true]
      refine ⟨?_, ?_, ?_, ?_⟩
      · simp only [true_iff]
        rw [hflatdec, keysOf_append, keysOf_cons, hitskey]
        simp
      · rw [hflatdec, lookupKV_append, lookupKV_eq_none_iff.2 hAnotin,
          Option.none_or, lookupKV_cons, if_pos hitskey]
      · intro _
        refine ⟨?_, by simp, ?_⟩
        · rw [wfi_succ]
          simp only [Node.items_mk, Node.children_mk, Node.keys_eq]
          rw [keysOf_set_same hIlen (fun _ => hitskey), List.length_set]
          exact ⟨hclen, hmn', hmx', hsort, hcheck⟩
        · show glue _ (its.set I _) cs = _
          conv_lhs => rw [List.set_eq_take_cons_drop _ hIlen, hcsdec]
          rw [glue_append_full _ _ _ _ (by rw [hctlen]; rw [List.length_take]; omega)]
          rw [hflatdec, replaceV_append_of_notin hAnotin, replaceV, if_pos hitskey,
            hitskey]
      · intro hcontra
        cases hcontra
    · -- descend into child `rank`
      have hfind : Node.find (Node.mk its cs) key = (rank (keysOf its) key, false) :=
        find_eq_rank_of_notin (by simpa using hp) (by simpa using hmem)
      set I := rank (keysOf its) key with hIdef
      have hIle : I ≤ its.length := by
        have := @rank_le_length (keysOf its) key; omega
      have hicslt : I < cs.length := by omega
      have hgetD : cs.getD I ⟨[], []⟩ = cs[I] := List.getD_eq_getElem _ _ hicslt
      have hcw : Node.wfi h minItems (maxItems - 1)
          (loAt lo (keysOf its) I) (hiAt hi (keysOf its) I) cs[I] = true := by
        have := (chainCheck_iff (by rw [hclen]; rw [hkslen])).1 hcheck I hicslt
        exact this
      have hb := rank_bounds hsort hlo hhi hmem
      have ihc := ih cs[I] minItems (maxItems - 1)
        (loAt lo (keysOf its) I) (hiAt hi (keysOf its) I) hcw (le_refl _) hb.1 hb.2
      rcases hset : Node.set key value h cs[I] with ⟨⟨prevC, repC⟩, c'⟩
      rw [hset] at ihc
      simp only at ihc
      have hPlt : ∀ x ∈ keysOf (gluePre (fun c => Node.flatten h c)
          (its.take I) (cs.take I)), x < key :=
        fun x hx => gluePre_below hfg I hIle hsort hcheck x hx key hb.1
      have hRgt : ∀ x ∈ keysOf (glueRest (fun c => Node.flatten h c)
          (its.drop I) (cs.drop (I + 1))), key < x :=
        fun x hx => glueRest_above hfg I hsort hcheck x hx key hb.2
      have hPnotin : key ∉ keysOf (gluePre (fun c => Node.flatten h c)
          (its.take I) (cs.take I)) := fun hk => absurd (hPlt key hk) (by omega)
      have hRnotin : key ∉ keysOf (glueRest (fun c => Node.flatten h c)
          (its.drop I) (cs.drop (I + 1))) := fun hk => absurd (hRgt key hk) (by omega)
      have hflatdec : Node.flatten (h + 1) (Node.mk its cs) =
          gluePre (fun c => Node.flatten h c) (its.take I) (cs.take I) ++
            (Node.flatten h cs[I] ++ glueRest (fun c => Node.flatten h c)
              (its.drop I) (cs.drop (I + 1))) := by
        show glue _ its cs = _
        rw [glue_decomp _ hclen hIle, hgetD]
      have hmemflat : key ∈ keysOf (Node.flatten (h + 1) (Node.mk its cs)) ↔
          key ∈ keysOf (Node.flatten h cs[I]) := by
        rw [hflatdec, keysOf_append, keysOf_append]
        simp only [List.mem_append]
        constructor
        · rintro (hk | hk | hk)
          · exact absurd hk hPnotin
          · exact hk
          · exact absurd hk hRnotin
        · intro hk; exact Or.inr (Or.inl hk)
      have hlookflat : lookupKV key (Node.flatten (h + 1) (Node.mk its cs)) =
          lookupKV key (Node.flatten h cs[I]) := by
        rw [hflatdec, lookupKV_append, lookupKV_eq_none_iff.2 hPnotin,
          Option.none_or, lookupKV_append, lookupKV_eq_none_iff.2 hRnotin,
          Option.or_none]
      cases repC with
      | true =>
        obtain ⟨hcw', hclen', hcflat⟩ := ihc.2.2.1 rfl
        simp only [Node.set, hfind, Node.items_mk, Node.children_mk, hgetD, hset,
          if_false, Bool.false_eq_true, if_true]
        refine ⟨?_, ?_, ?_, ?_⟩
        · simp only [true_iff]
          exact hmemflat.2 (ihc.1.1 rfl)
        · rw [hlookflat]; exact ihc.2.1
        · intro _
          refine ⟨?_, by simp, ?_⟩
          · rw [wfi_succ]
            simp only [Node.items_mk, Node.children_mk, Node.keys_eq, List.length_set]
            refine ⟨hclen, hmn', hmx', hsort, ?_⟩
            exact chainCheck_set (by rw [hclen, hkslen]) hicslt hcheck hcw'
          · show glue _ its (cs.set I c') = _
            rw [glue_decomp_set _ hclen hIle, hflatdec, hcflat,
              replaceV_append_of_notin hPnotin,
              replaceV_append_of_mem (ihc.1.1 rfl)]
        · intro hcontra
          cases hcontra
      | false =>
        obtain ⟨hcw', hclow', hchigh', hcflat⟩ := ihc.2.2.2 rfl
        have hknotc : key ∉ keysOf (Node.flatten h cs[I]) := by
          intro hk
          have := ihc.1.2 hk
          cases this
        have hknotflat : key ∉ keysOf (Node.flatten (h + 1) (Node.mk its cs)) :=
          fun hk => hknotc (hmemflat.1 hk)
        have hflatins : insortKV key value (Node.flatten (h + 1) (Node.mk its cs)) =
            gluePre (fun c => Node.flatten h c) (its.take I) (cs.take I) ++
              (insortKV key value (Node.flatten h cs[I]) ++
                glueRest (fun c => Node.flatten h c) (its.drop I)
                  (cs.drop (I + 1))) := by
          rw [hflatdec, insortKV_append_left hPlt,
            insortKV_append_right hRgt]
        by_cases hfull : c'.items.length = maxItems
        · -- the child splits
          have hcwfull : Node.wfi h minItems maxItems (loAt lo (keysOf its) I)
              (hiAt hi (keysOf its) I) c' = true := by
            have : maxItems - 1 + 1 = maxItems := by decide
            rwa [this] at hcw'
          obtain ⟨hspflat, hspl, hspr, hsplb, hspub, hsplen, hsprlen⟩ :=
            split_spec hcwfull hfull
          rcases hsp : c'.split h with ⟨l, r, med⟩
          rw [hsp] at hspflat hspl hspr hsplb hspub hsplen hsprlen
          simp only at hspflat hspl hspr hsplb hspub hsplen hsprlen
          simp only [Node.set, hfind, Node.items_mk, Node.children_mk, hgetD, hset,
            if_false, Bool.false_eq_true, if_pos hfull, hsp]
          refine ⟨?_, ?_, ?_, ?_⟩
          · simp only [Bool.false_eq_true, false_iff]
            exact hknotflat
          · rw [hlookflat]; exact ihc.2.1
          · intro hcontra
            cases hcontra
          · intro _
            have hillen : (its.insertIdx I med).length = its.length + 1 :=
              List.length_insertIdx _ _ hIle
            refine ⟨?_, by rw [hillen]; omega, by rw [hillen], ?_⟩
            · rw [wfi_succ]
              simp only [Node.items_mk, Node.children_mk, Node.keys_eq]
              refine ⟨?_, by rw [hillen]; omega, by rw [hillen]; omega, ?_, ?_⟩
              · rw [List.length_insertIdx _ _ (by rw [List.length_set]; omega),
                  List.length_set, hillen, hclen]
              · rw [keysOf_insertIdx]
                exact sortedIn_insertIdx _ (by rw [hkslen]; omega) hsort hsplb hspub
              · rw [keysOf_insertIdx]
                refine chainCheck_split_ins I (by rw [hkslen]; omega)
                  (by rw [hclen, hkslen]) hcheck ?_ ?_
                · exact hspl
                · exact hspr
            · show glue _ (its.insertIdx I med) ((cs.set I l).insertIdx (I + 1) r) = _
              rw [glue_decomp_splitins _ hclen hIle, hflatins, ← hspflat, hcflat]
        · -- no split
          have hmax31 : maxItems = 31 := rfl
          have hc'top : Node.wfi h minItems (maxItems - 1) (loAt lo (keysOf its) I)
              (hiAt hi (keysOf its) I) c' = true := by
            refine wfi_retop hcw' ?_ ?_
            · cases h with
              | zero =>
                rw [wfi_zero] at hcw'
                exact hcw'.2.1
              | succ h'' =>
                rw [wfi_succ] at hcw'
                exact hcw'.2.1
            · cases h with
              | zero =>
                rw [wfi_zero] at hcw'
                have := hcw'.2.2.1
                omega
              | succ h'' =>
                rw [wfi_succ] at hcw'
                have := hcw'.2.2.1
                omega
          simp only [Node.set, hfind, Node.items_mk, Node.children_mk, hgetD, hset,
            if_false, Bool.false_eq_true, if_neg hfull]
          refine ⟨?_, ?_, ?_, ?_⟩
          · simp only [Bool.false_eq_true, false_iff]
            exact hknotflat
          · rw [hlookflat]; exact ihc.2.1
          · intro hcontra
            cases hcontra
          · intro _
            refine ⟨?_, by simp, by simp, ?_⟩
            · rw [wfi_succ]
              simp only [Node.items_mk, Node.children_mk, Node.keys_eq, List.length_set]
              refine ⟨hclen, hmn', by omega, hsort, ?_⟩
              exact chainCheck_set (by rw [hclen, hkslen]) hicslt hcheck hc'top
            · show glue _ its (cs.set I c') = _
              rw [glue_decomp_set _ hclen hIle, hflatins, hcflat]

/-! ## Facts about descending into the child at the search position -/

theorem descend_facts {V : Type} {key : Int} {h : Nat} {its : List (Item V)}
    {cs : List (Node V)} {mn mx : Nat} {lo hi : Option Int}
    (hw : Node.wfi (h + 1) mn mx lo hi (Node.mk its cs) = true)
    (hlo : lbLt lo key = true) (hhi : ubGt hi key = true)
    (hmem : key ∉ keysOf its) :
    rank (keysOf its) key ≤ its.length ∧
    rank (keysOf its) key < cs.length ∧
    Node.wfi h minItems (maxItems - 1)
      (loAt lo (keysOf its) (rank (keysOf its) key))
      (hiAt hi (keysOf its) (rank (keysOf its) key))
      (cs.getD (rank (keysOf its) key) ⟨[], []⟩) = true ∧
    lbLt (loAt lo (keysOf its) (rank (keysOf its) key)) key = true ∧
    ubGt (hiAt hi (keysOf its) (rank (keysOf its) key)) key = true ∧
    Node.find (Node.mk its cs) key = (rank (keysOf its) key, false) ∧
    Node.flatten (h + 1) (Node.mk its cs) =
      gluePre (fun c => Node.flatten h c) (its.take (rank (keysOf its) key))
          (cs.take (rank (keysOf its) key)) ++
        (Node.flatten h (cs.getD (rank (keysOf its) key) ⟨[], []⟩) ++
          glueRest (fun c => Node.flatten h c) (its.drop (rank (keysOf its) key))
            (cs.drop (rank (keysOf its) key + 1))) ∧
    (∀ x ∈ keysOf (gluePre (fun c => Node.flatten h c)
        (its.take (rank (keysOf its) key)) (cs.take (rank (keysOf its) key))),
      x < key) ∧
    (∀ x ∈ keysOf (glueRest (fun c => Node.flatten h c)
        (its.drop (rank (keysOf its) key)) (cs.drop (rank (keysOf its) key + 1))),
      key < x) := by
  rw [wfi_succ] at hw
  simp only [Node.items_mk, Node.children_mk, Node.keys_eq] at hw
  obtain ⟨hclen, hmn', hmx', hsort, hcheck⟩ := hw
  have hp : (keysOf its).Pairwise (· < ·) := sortedIn_pairwise hsort
  have hkslen : (keysOf its).length = its.length := by simp [keysOf]
  have hfg : ∀ (lo' hi' : Option Int) (c : Node V),
      Node.wfi h minItems (maxItems - 1) lo' hi' c = true →
      sortedIn lo' hi' (keysOf ((fun c => Node.flatten h c) c)) = true :=
    fun lo' hi' c hc => wfi_flatten_sortedIn h hc
  have hIle : rank (keysOf its) key ≤ its.length := by
    have := @rank_le_length (keysOf its) key; omega
  have hicslt : rank (keysOf its) key < cs.length := by omega
  have hgetD : cs.getD (rank (keysOf its) key) ⟨[], []⟩ =
      cs[rank (keysOf its) key] := List.getD_eq_getElem _ _ hicslt
  have hb := rank_bounds hsort hlo hhi hmem
  refine ⟨hIle, hicslt, ?_, hb.1, hb.2, ?_, ?_, ?_, ?_⟩
  · rw [hgetD]
    exact (chainCheck_iff (by rw [hclen, hkslen])).1 hcheck _ hicslt
  · exact find_eq_rank_of_notin (by simpa using hp) (by simpa using hmem)
  · show glue _ its cs = _
    rw [glue_decomp _ hclen hIle]
  · exact fun x hx => gluePre_below hfg _ hIle hsort hcheck x hx key hb.1
  · exact fun x hx => glueRest_above hfg _ hsort hcheck x hx key hb.2

/-! ## Correctness of `get` -/

theorem get_spec {V : Type} (key : Int) :
    ∀ (h : Nat) (n : Node V) (mn mx : Nat) (lo hi : Option Int),
      Node.wfi h mn mx lo hi n = true →
      lbLt lo key = true → ubGt hi key = true →
      (Node.get key h n).1 = lookupKV key (Node.flatten h n) ∧
      ((Node.get key h n).2 = true ↔ key ∈ keysOf (Node.flatten h n)) := by
  intro h
  induction h with
  | zero =>
    intro n mn mx lo hi hw hlo hhi
    obtain ⟨its, cs⟩ := n
    rw [wfi_zero] at hw
    simp only [Node.items_mk, Node.children_mk, Node.keys_eq] at hw
    obtain ⟨hch, hmn', hmx', hsort⟩ := hw
    have hp : (keysOf its).Pairwise (· < ·) := sortedIn_pairwise hsort
    by_cases hmem : key ∈ keysOf its
    · obtain ⟨hfind, hrpos, hrlen, hgd⟩ :=
        find_eq_of_mem (n := Node.mk its cs) (by simpa using hp) (by simpa using hmem)
      rw [Node.keys_eq] at hfind hrpos hrlen hgd
      simp only [Node.items_mk] at hfind hrpos hrlen hgd
      have hkslen : (keysOf its).length = its.length := by simp [keysOf]
      have hIlen : rank (keysOf its) key - 1 < its.length := by omega
      have hitskey : its[rank (keysOf its) key - 1].key = key := by
        rw [List.getD_eq_getElem _ _ hrlen] at hgd
        simpa [keysOf] using hgd
      simp only [Node.get, hfind, Node.items_mk, Node.flatten, if_true]
      rw [List.get?_eq_getElem?, List.getElem?_eq_getElem hIlen]
      refine ⟨?_, by simpa [Node.items_mk, keysOf] using hmem⟩
      exact (lookupKV_of_sorted_getElem hIlen hp hitskey).symm
    · have hfind : Node.find (Node.mk its cs) key = (rank (keysOf its) key, false) :=
        find_eq_rank_of_notin (by simpa using hp) (by simpa using hmem)
      simp only [Node.get, hfind, Node.items_mk, Node.flatten, if_false,
        Bool.false_eq_true]
      refine ⟨(lookupKV_eq_none_iff.2 hmem).symm, by simpa [keysOf] using hmem⟩
  | succ h ih =>
    intro n mn mx lo hi hw hlo hhi
    obtain ⟨its, cs⟩ := n
    by_cases hmem : key ∈ keysOf its
    · rw [wfi_succ] at hw
      simp only [Node.items_mk, Node.children_mk, Node.keys_eq] at hw
      obtain ⟨hclen, hmn', hmx', hsort, hcheck⟩ := hw
      have hp : (keysOf its).Pairwise (· < ·) := sortedIn_pairwise hsort
      have hkslen : (keysOf its).length = its.length := by simp [keysOf]
      have hfg : ∀ (lo' hi' : Option Int) (c : Node V),
          Node.wfi h minItems (maxItems - 1) lo' hi' c = true →
          sortedIn lo' hi' (keysOf ((fun c => Node.flatten h c) c)) = true :=
        fun lo' hi' c hc => wfi_flatten_sortedIn h hc
      obtain ⟨hfind, hrpos, hrlen, hgd⟩ :=
        find_eq_of_mem (n := Node.mk its cs) (by simpa using hp) (by simpa using hmem)
      rw [Node.keys_eq] at hfind hrpos hrlen hgd
      simp only [Node.items_mk] at hfind hrpos hrlen hgd
      have hIlen : rank (keysOf its) key - 1 < its.length := by omega
      have hitskey : its[rank (keysOf its) key - 1].key = key := by
        rw [List.getD_eq_getElem _ _ hrlen] at hgd
        simpa [keysOf] using hgd
      set I := rank (keysOf its) key - 1 with hIdef
      have hitsdec : its = its.take I ++ its[I] :: its.drop (I + 1) := by
        conv_lhs => rw [← List.take_append_drop I its]
        rw [List.drop_eq_getElem_cons hIlen]
      have hksdec : keysOf its = keysOf (its.take I) ++
          key :: keysOf (its.drop (I + 1)) := by
        conv_lhs => rw [hitsdec]
        rw [keysOf_append, keysOf_cons, hitskey]
      have hcsdec : cs = cs.take (I + 1) ++ cs.drop (I + 1) :=
        (List.take_append_drop _ _).symm
      have hctlen : (cs.take (I + 1)).length = I + 1 := by
        rw [List.length_take]; omega
      have hchk2 := hcheck
      rw [hksdec, hcsdec, chainCheck_append
        (by rw [hctlen]; simp only [keysOf, List.length_map, List.length_take]; omega)]
        at hchk2
      have hsort2 := hsort
      rw [hksdec, sortedIn_append] at hsort2
      have hA : sortedIn lo (some key)
          (keysOf (glue (fun c => Node.flatten h c) (its.take I) (cs.take (I + 1)))) =
            true := glue_sortedIn hfg hsort2.1 hchk2.1
      have hflatdec : Node.flatten (h + 1) (Node.mk its cs) =
          glue (fun c => Node.flatten h c) (its.take I) (cs.take (I + 1)) ++
            its[I] :: glue (fun c => Node.flatten h c) (its.drop (I + 1))
              (cs.drop (I + 1)) := by
        show glue _ its cs = _
        conv_lhs => rw [hitsdec, hcsdec]
        rw [glue_append_full _ _ _ _ (by rw [hctlen]; rw [List.length_take]; omega)]
      have hAnotin : key ∉ keysOf (glue (fun c => Node.flatten h c)
          (its.take I) (cs.take (I + 1))) := by
        intro hk
        have := sortedIn_mem_ub hA hk
        simp at this
      simp only [Node.get, hfind, Node.items_mk, if_true]
      rw [List.get?_eq_getElem?, List.getElem?_eq_getElem hIlen]
      constructor
      · rw [hflatdec, lookupKV_append, lookupKV_eq_none_iff.2 hAnotin,
          Option.none_or, lookupKV_cons, if_pos hitskey]
        rfl
      · simp only [true_iff]
        rw [hflatdec, keysOf_append, keysOf_cons, hitskey]
        simp
    · obtain ⟨hIle, hicslt, hcw, hblo, hbhi, hfind, hflatdec, hPlt, hRgt⟩ :=
        descend_facts hw hlo hhi hmem
      have hPnotin : key ∉ keysOf (gluePre (fun c => Node.flatten h c)
          (its.take (rank (keysOf its) key)) (cs.take (rank (keysOf its) key))) :=
        fun hk => absurd (hPlt key hk) (by omega)
      have hRnotin : key ∉ keysOf (glueRest (fun c => Node.flatten h c)
          (its.drop (rank (keysOf its) key))
          (cs.drop (rank (keysOf its) key + 1))) :=
        fun hk => absurd (hRgt key hk) (by omega)
      have ihc := ih (cs.getD (rank (keysOf its) key) ⟨[], []⟩)
        minItems (maxItems - 1) _ _ hcw hblo hbhi
      simp only [Node.get, hfind, Node.children_mk]
      rw [hflatdec]
      constructor
      · rw [lookupKV_append, lookupKV_eq_none_iff.2 hPnotin, Option.none_or,
          lookupKV_append, lookupKV_eq_none_iff.2 hRnotin, Option.or_none]
        exact ihc.1
      · rw [keysOf_append, keysOf_append]
        simp only [List.mem_append]
        constructor
        · intro hg
          exact Or.inr (Or.inl (ihc.2.1 hg))
        · rintro (hk | hk | hk)
          · exact absurd hk hPnotin
          · exact ihc.2.2 hk
          · exact absurd hk hRnotin

/-! ## Helpers for `delete` -/

lemma wfi_count_bounds {V : Type} {h mn mx : Nat} {lo hi : Option Int}
    {n : Node V} (hw : Node.wfi h mn mx lo hi n = true) :
    mn ≤ n.items.length ∧ n.items.length ≤ mx := by
  cases h with
  | zero => rw [wfi_zero] at hw; exact ⟨hw.2.1, hw.2.2.1⟩
  | succ h => rw [wfi_succ] at hw; exact ⟨hw.2.1, hw.2.2.1⟩

lemma wfi_mn_le {V : Type} {h mn mn' mx : Nat} {lo hi : Option Int}
    {n : Node V} (hw : Node.wfi h mn mx lo hi n = true) (hle : mn' ≤ mn) :
    Node.wfi h mn' mx lo hi n = true := by
  have hb := wfi_count_bounds hw
  exact wfi_retop hw (by omega) hb.2

@[simp] lemma loAt_succ {lo : Option Int} {ks : List Int} {j : Nat} :
    loAt lo ks (j + 1) = some (ks.getD j 0) := rfl

lemma hiAt_of_lt {hi : Option Int} {ks : List Int} {i : Nat}
    (h : i < ks.length) : hiAt hi ks i = some (ks.getD i 0) := by
  rw [hiAt, if_pos h]

lemma hiAt_of_ge {hi : Option Int} {ks : List Int} {i : Nat}
    (h : ks.length ≤ i) : hiAt hi ks i = hi := by
  rw [hiAt, if_neg (by omega)]

lemma getD_set {ks : List Int} {i j : Nat} {a : Int} (hj : j < ks.length) :
    (ks.set i a).getD j 0 = if i = j then a else ks.getD j 0 := by
  rw [List.getD_eq_getElem _ _ (by rw [List.length_set]; exact hj),
    List.getElem_set]
  by_cases hij : i = j
  · rw [if_pos hij, if_pos hij]
  · rw [if_neg hij, if_neg hij, List.getD_eq_getElem _ _ hj]

lemma getD_eraseIdx_lt {ks : List Int} {i j : Nat} (hji : j < i)
    (hj : j < ks.length - 1) :
    (ks.eraseIdx i).getD j 0 = ks.getD j 0 := by
  have h1 : j < (ks.eraseIdx i).length := by
    rw [List.length_eraseIdx]
    split <;> omega
  rw [List.getD_eq_getElem _ _ h1, List.getElem_eraseIdx_of_lt _ _ _ _ hji,
    List.getD_eq_getElem]

lemma getD_eraseIdx_ge {ks : List Int} {i j : Nat} (hji : i ≤ j)
    (hj : j < ks.length - 1) :
    (ks.eraseIdx i).getD j 0 = ks.getD (j + 1) 0 := by
  have h1 : j < (ks.eraseIdx i).length := by
    rw [List.length_eraseIdx]
    split <;> omega
  rw [List.getD_eq_getElem _ _ h1, List.getElem_eraseIdx_of_ge _ _ _ _ hji,
    List.getD_eq_getElem _ _ (by omega)]

lemma keysOf_eraseIdx {V : Type} :
    ∀ (i : Nat) {l : List (Item V)},
      keysOf (l.eraseIdx i) = (keysOf l).eraseIdx i
  | _, [] => by simp
  | 0, it :: l => by simp [keysOf]
  | i + 1, it :: l => by
    simp only [List.eraseIdx_cons_succ, keysOf_cons, keysOf_eraseIdx i]

lemma keysOf_set {V : Type} {it : Item V} :
    ∀ (i : Nat) {l : List (Item V)},
      keysOf (l.set i it) = (keysOf l).set i it.key
  | _, [] => by simp
  | 0, x :: l => by simp [keysOf]
  | i + 1, x :: l => by
    simp only [List.set_cons_succ, keysOf_cons, keysOf_set i]

lemma keysOf_take {V : Type} {i : Nat} {l : List (Item V)} :
    keysOf (l.take i) = (keysOf l).take i := by
  simp [keysOf, List.map_take]

lemma keysOf_drop {V : Type} {i : Nat} {l : List (Item V)} :
    keysOf (l.drop i) = (keysOf l).drop i := by
  simp [keysOf, List.map_drop]

lemma keysOf_length {V : Type} {l : List (Item V)} :
    (keysOf l).length = l.length := by simp [keysOf]

lemma set_set_succ {α : Type} {l' r' : α} :
    ∀ (i : Nat) (cs : List α), i + 1 < cs.length →
      (cs.set i l').set (i + 1) r' = cs.take i ++ l' :: r' :: cs.drop (i + 2)
  | 0, c :: c₂ :: cs, _ => by simp
  | i + 1, c :: cs, h => by
    simp only [List.set_cons_succ, List.take_succ_cons, List.drop_succ_cons,
      List.cons_append]
    rw [set_set_succ i cs (by simpa using h)]

lemma set_eraseIdx_succ {α : Type} {m : α} :
    ∀ (i : Nat) (cs : List α), i + 1 < cs.length →
      (cs.set i m).eraseIdx (i + 1) = cs.take i ++ m :: cs.drop (i + 2)
  | 0, c :: c₂ :: cs, _ => by simp
  | i + 1, c :: cs, h => by
    simp only [List.set_cons_succ, List.eraseIdx_cons_succ, List.take_succ_cons,
      List.drop_succ_cons, List.cons_append]
    rw [set_eraseIdx_succ i cs (by simpa using h)]

lemma sortedIn_getElem_bounds {ks : List Int} {lo hi : Option Int} {i : Nat}
    (hs : sortedIn lo hi ks = true) (h : i < ks.length) :
    lbLt (loAt lo ks i) (ks.getD i 0) = true ∧
      ubGt (hiAt hi ks (i + 1)) (ks.getD i 0) = true := by
  have hp := sortedIn_pairwise hs
  have hmem : ks.getD i 0 ∈ ks := by
    rw [List.getD_eq_getElem _ _ h]; exact List.getElem_mem h
  constructor
  · cases i with
    | zero => exact sortedIn_mem_lb hs hmem
    | succ j =>
      rw [loAt_succ]
      rw [List.getD_eq_getElem _ _ h, List.getD_eq_getElem _ _ (by omega)]
      rw [lbLt_some]
      exact List.pairwise_iff_getElem.1 hp j (j + 1) (by omega) h (by omega)
  · by_cases h1 : i + 1 < ks.length
    · rw [hiAt_of_lt h1]
      rw [List.getD_eq_getElem _ _ h, List.getD_eq_getElem _ _ h1]
      rw [ubGt_some]
      exact List.pairwise_iff_getElem.1 hp i (i + 1) h h1 (by omega)
    · rw [hiAt_of_ge (by omega)]
      exact sortedIn_mem_ub hs hmem

lemma sortedIn_set_key {a : Int} :
    ∀ (i : Nat) {ks : List Int} {lo hi : Option Int},
      i < ks.length → sortedIn lo hi ks = true →
      lbLt (loAt lo ks i) a = true → ubGt (hiAt hi ks (i + 1)) a = true →
      sortedIn lo hi (ks.set i a) = true
  | 0, k :: ks, lo, hi, _, hs, hl, hr => by
    rw [sortedIn_cons] at hs
    rw [List.set_cons_zero, sortedIn_cons]
    rcases ks with _ | ⟨k₂, ks'⟩
    · rw [hiAt_of_ge (by simp)] at hr
      exact ⟨hl, hr, by simp⟩
    · rw [hiAt_cons, hiAt_of_lt (by simp)] at hr
      simp only [List.getD_cons_zero, ubGt_some] at hr
      rw [sortedIn_cons] at hs
      refine ⟨hl, ubGt_trans hs.2.2.2.1 (by omega), ?_⟩
      rw [sortedIn_cons]
      exact ⟨by simpa using hr, hs.2.2.2.1, hs.2.2.2.2⟩
  | i + 1, k :: ks, lo, hi, hlt, hs, hl, hr => by
    rw [sortedIn_cons] at hs
    rw [List.set_cons_succ, sortedIn_cons]
    refine ⟨hs.1, hs.2.1, ?_⟩
    refine sortedIn_set_key i (by simpa using hlt) hs.2.2 ?_ ?_
    · rwa [loAt_cons] at hl
    · rwa [hiAt_cons] at hr

/-- Rebuild a `chainCheck` after replacing children `i` and `i+1` and the
separator between them (the two borrow rotations). -/
lemma chainCheck_borrow {V : Type} {f : Option Int → Option Int → Node V → Bool}
    {ks : List Int} {cs : List (Node V)} {lo hi : Option Int} {i : Nat}
    {a : Int} {l' r' : Node V}
    (hclen : cs.length = ks.length + 1) (hi1 : i + 1 < cs.length)
    (hold : ∀ j (hj : j < cs.length), j ≠ i → j ≠ i + 1 →
      f (loAt lo ks j) (hiAt hi ks j) cs[j] = true)
    (hl : f (loAt lo ks i) (some a) l' = true)
    (hr : f (some a) (hiAt hi ks (i + 1)) r' = true) :
    chainCheck f lo hi (ks.set i a) ((cs.set i l').set (i + 1) r') = true := by
  have hiks : i < ks.length := by omega
  rw [chainCheck_iff (by simp only [List.length_set]; exact hclen)]
  intro j hj
  simp only [List.length_set] at hj
  have hloAt : ∀ m : Nat, m ≠ i + 1 → m ≤ ks.length →
      loAt lo (ks.set i a) m = loAt lo ks m := by
    intro m hm hmle
    cases m with
    | zero => rfl
    | succ m' =>
      rw [loAt_succ, loAt_succ, getD_set (by omega), if_neg (by omega)]
  have hhiAt : ∀ m : Nat, m ≠ i → hiAt hi (ks.set i a) m = hiAt hi ks m := by
    intro m hm
    by_cases hmlt : m < ks.length
    · rw [hiAt_of_lt (by rw [List.length_set]; exact hmlt), hiAt_of_lt hmlt,
        getD_set hmlt, if_neg (by omega)]
    · rw [hiAt_of_ge (by rw [List.length_set]; omega), hiAt_of_ge (by omega)]
  rcases Nat.lt_trichotomy j i with hji | hji | hji
  · rw [List.getElem_set, if_neg (by omega), List.getElem_set, if_neg (by omega)]
    rw [hloAt j (by omega) (by omega), hhiAt j (by omega)]
    exact hold j hj (by omega) (by omega)
  · subst hji
    rw [List.getElem_set, if_neg (by omega), List.getElem_set, if_pos rfl]
    rw [hloAt j (by omega) (by omega), hiAt_of_lt (by rw [List.length_set]; omega),
      getD_set (by omega), if_pos rfl]
    exact hl
  · rcases Nat.eq_or_lt_of_le hji with hji' | hji'
    · subst hji'
      rw [List.getElem_set, if_pos rfl]
      rw [hhiAt (i + 1) (by omega)]
      have : loAt lo (ks.set i a) (i + 1) = some a := by
        rw [loAt_succ, getD_set (by omega), if_pos rfl]
      rw [this]
      exact hr
    · rw [List.getElem_set, if_neg (by omega), List.getElem_set, if_neg (by omega)]
      rw [hloAt j (by omega) (by omega), hhiAt j (by omega)]
      exact hold j hj (by omega) (by omega)

/-- Rebuild a `chainCheck` after merging children `i` and `i+1` and removing
the separator between them. -/
lemma chainCheck_merge {V : Type} {f : Option Int → Option Int → Node V → Bool}
    {ks : List Int} {cs : List (Node V)} {lo hi : Option Int} {i : Nat}
    {merged : Node V}
    (hclen : cs.length = ks.length + 1) (hi1 : i + 1 < cs.length)
    (hold : ∀ j (hj : j < cs.length), j ≠ i → j ≠ i + 1 →
      f (loAt lo ks j) (hiAt hi ks j) cs[j] = true)
    (hm : f (loAt lo ks i) (hiAt hi ks (i + 1)) merged = true) :
    chainCheck f lo hi (ks.eraseIdx i) ((cs.set i merged).eraseIdx (i + 1)) = true := by
  have hiks : i < ks.length := by omega
  have hklen : (ks.eraseIdx i).length = ks.length - 1 :=
    List.length_eraseIdx_of_lt hiks
  have hclen2 : ((cs.set i merged).eraseIdx (i + 1)).length = cs.length - 1 := by
    rw [List.length_eraseIdx_of_lt (by rw [List.length_set]; omega), List.length_set]
  rw [chainCheck_iff (by omega)]
  intro j hj
  rw [hclen2] at hj
  rcases Nat.lt_trichotomy j i with hji | hji | hji
  · have hb1 : j < ((cs.set i merged).eraseIdx (i + 1)).length := by omega
    have hb2 : j < cs.length := by omega
    have hc : ((cs.set i merged).eraseIdx (i + 1))[j] = cs[j] := by
      rw [List.getElem_eraseIdx_of_lt _ _ _ _ (by omega), List.getElem_set,
        if_neg (by omega)]
    rw [hc]
    have hlo' : loAt lo (ks.eraseIdx i) j = loAt lo ks j := by
      cases j with
      | zero => rfl
      | succ j' => rw [loAt_succ, loAt_succ, getD_eraseIdx_lt (by omega) (by omega)]
    have hhi' : hiAt hi (ks.eraseIdx i) j = hiAt hi ks j := by
      rw [hiAt_of_lt (by omega), hiAt_of_lt (by omega),
        getD_eraseIdx_lt (by omega) (by omega)]
    rw [hlo', hhi']
    exact hold j (by omega) (by omega) (by omega)
  · have hb1 : j < ((cs.set i merged).eraseIdx (i + 1)).length := by omega
    have hc : ((cs.set i merged).eraseIdx (i + 1))[j] = merged := by
      subst hji
      rw [List.getElem_eraseIdx_of_lt _ _ _ _ (by omega), List.getElem_set,
        if_pos rfl]
    rw [hc]
    subst hji
    have hlo' : loAt lo (ks.eraseIdx j) j = loAt lo ks j := by
      cases j with
      | zero => rfl
      | succ j' => rw [loAt_succ, loAt_succ, getD_eraseIdx_lt (by omega) (by omega)]
    have hhi' : hiAt hi (ks.eraseIdx j) j = hiAt hi ks (j + 1) := by
      by_cases hlt : j < ks.length - 1
      · rw [hiAt_of_lt (by omega), hiAt_of_lt (by omega),
          getD_eraseIdx_ge (by omega) (by omega)]
      · rw [hiAt_of_ge (by omega), hiAt_of_ge (by omega)]
    rw [hlo', hhi']
    exact hm
  · have hb1 : j < ((cs.set i merged).eraseIdx (i + 1)).length := by omega
    have hb2 : j + 1 < cs.length := by omega
    have hc : ((cs.set i merged).eraseIdx (i + 1))[j] = cs[j + 1] := by
      rw [List.getElem_eraseIdx_of_ge _ _ _ _ (by omega), List.getElem_set,
        if_neg (by omega)]
    rw [hc]
    have hlo' : loAt lo (ks.eraseIdx i) j = loAt lo ks (j + 1) := by
      cases j with
      | zero => omega
      | succ j' =>
        rw [loAt_succ, loAt_succ, getD_eraseIdx_ge (by omega) (by omega)]
    have hhi' : hiAt hi (ks.eraseIdx i) j = hiAt hi ks (j + 1) := by
      by_cases hlt : j < ks.length - 1
      · rw [hiAt_of_lt (by omega), hiAt_of_lt (by omega),
          getD_eraseIdx_ge (by omega) (by omega)]
      · rw [hiAt_of_ge (by omega), hiAt_of_ge (by omega)]
    rw [hlo', hhi']
    exact hold (j + 1) (by omega) (by omega) (by omega)

/-! ## Node-level merge and borrow operations -/

theorem merged_node_spec {V : Type} {h : Nat} {l r : Node V} {sep : Item V}
    {lo hi : Option Int} {mnl mnr mxl mxr : Nat}
    (hwl : Node.wfi h mnl mxl lo (some sep.key) l = true)
    (hwr : Node.wfi h mnr mxr (some sep.key) hi r = true)
    (hlb : lbLt lo sep.key = true) (hub : ubGt hi sep.key = true) :
    (∀ mn' mx', mn' ≤ l.items.length + r.items.length + 1 →
      l.items.length + r.items.length + 1 ≤ mx' →
      Node.wfi h mn' mx' lo hi
        (Node.mk (l.items ++ sep :: r.items)
          (if 1 < h + 1 then l.children ++ r.children else l.children)) = true) ∧
    Node.flatten h (Node.mk (l.items ++ sep :: r.items)
        (if 1 < h + 1 then l.children ++ r.children else l.children)) =
      Node.flatten h l ++ sep :: Node.flatten h r := by
  cases h with
  | zero =>
    rw [wfi_zero] at hwl hwr
    rw [if_neg (by omega)]
    constructor
    · intro mn' mx' h1 h2
      rw [wfi_zero]
      simp only [Node.items_mk, Node.children_mk, Node.keys_eq, keysOf_append,
        keysOf_cons]
      refine ⟨hwl.1, by simp; omega, by simp; omega, ?_⟩
      rw [sortedIn_append]
      exact ⟨hwl.2.2.2, hlb, hub, hwr.2.2.2⟩
    · show l.items ++ sep :: r.items = Node.flatten 0 l ++ sep :: Node.flatten 0 r
      rfl
  | succ h' =>
    rw [wfi_succ] at hwl hwr
    rw [if_pos (by omega)]
    constructor
    · intro mn' mx' h1 h2
      rw [wfi_succ]
      simp only [Node.items_mk, Node.children_mk, Node.keys_eq, keysOf_append,
        keysOf_cons]
      refine ⟨by simp only [List.length_append, List.length_cons]; omega,
        by simp only [List.length_append, List.length_cons]; omega,
        by simp only [List.length_append, List.length_cons]; omega, ?_, ?_⟩
      · rw [sortedIn_append]
        exact ⟨hwl.2.2.2.1, hlb, hub, hwr.2.2.2.1⟩
      · rw [chainCheck_append (by rw [hwl.1]; rw [keysOf_length])]
        exact ⟨hwl.2.2.2.2, hwr.2.2.2.2⟩
    · show glue _ (l.items ++ sep :: r.items) (l.children ++ r.children) = _
      rw [glue_append_full _ _ _ _ (by rw [hwl.1])]
      rfl

theorem borrowL_spec {V : Type} [Inhabited V] {h : Nat} {l r : Node V}
    {sep : Item V} {lo hi : Option Int} {mnl mnr mxl mxr : Nat}
    (hwl : Node.wfi h mnl mxl lo (some sep.key) l = true)
    (hwr : Node.wfi h mnr mxr (some sep.key) hi r = true)
    (hlb : lbLt lo sep.key = true) (hub : ubGt hi sep.key = true)
    (hL1 : 1 ≤ l.items.length) :
    (∀ mn' mx', mn' ≤ l.items.length - 1 → l.items.length - 1 ≤ mx' →
      Node.wfi h mn' mx' lo
        (some (l.items.getD (l.items.length - 1) default).key)
        (Node.mk (l.items.take (l.items.length - 1))
          (if 1 < h + 1 then l.children.take l.items.length else l.children)) =
        true) ∧
    (∀ mn' mx', mn' ≤ r.items.length + 1 → r.items.length + 1 ≤ mx' →
      Node.wfi h mn' mx'
        (some (l.items.getD (l.items.length - 1) default).key) hi
        (Node.mk (sep :: r.items)
          (if 1 < h + 1 then
            l.children.getD l.items.length ⟨[], []⟩ :: r.children
          else r.children)) = true) ∧
    lbLt lo (l.items.getD (l.items.length - 1) default).key = true ∧
    ubGt hi (l.items.getD (l.items.length - 1) default).key = true ∧
    Node.flatten h (Node.mk (l.items.take (l.items.length - 1))
        (if 1 < h + 1 then l.children.take l.items.length else l.children)) ++
      l.items.getD (l.items.length - 1) default ::
        Node.flatten h (Node.mk (sep :: r.items)
          (if 1 < h + 1 then
            l.children.getD l.items.length ⟨[], []⟩ :: r.children
          else r.children)) =
      Node.flatten h l ++ sep :: Node.flatten h r := by
  have hL : l.items.length - 1 < l.items.length := by omega
  have hgd : l.items.getD (l.items.length - 1) default =
      l.items[l.items.length - 1] := List.getD_eq_getElem _ _ hL
  have hdec : l.items = l.items.take (l.items.length - 1) ++
      [l.items[l.items.length - 1]] := by
    conv_lhs => rw [← List.take_append_drop (l.items.length - 1) l.items]
    rw [List.drop_eq_getElem_cons hL, List.drop_eq_nil_of_le (by omega)]
  have hkdec : keysOf l.items = keysOf (l.items.take (l.items.length - 1)) ++
      l.items[l.items.length - 1].key :: [] := by
    conv_lhs => rw [hdec]
    rw [keysOf_append, keysOf_cons, keysOf_nil]
  cases h with
  | zero =>
    rw [wfi_zero] at hwl hwr
    have hsl := hwl.2.2.2
    rw [Node.keys_eq, hkdec, sortedIn_append] at hsl
    obtain ⟨hs1, hlb', hub', -⟩ := hsl
    have hnlt : l.items[l.items.length - 1].key < sep.key := by simpa using hub'
    have hif : ¬ (1 < 0 + 1) := by omega
    simp only [if_neg hif]
    refine ⟨?_, ?_, by rwa [hgd], by rw [hgd]; exact ubGt_trans hub (by omega), ?_⟩
    · intro mn' mx' h1 h2
      rw [wfi_zero, hgd]
      simp only [Node.items_mk, Node.children_mk, Node.keys_eq]
      rw [keysOf_take]
      refine ⟨hwl.1, ?_, ?_, ?_⟩
      · rw [List.length_take]; omega
      · rw [List.length_take]; omega
      · rw [← keysOf_take]
        exact hs1
    · intro mn' mx' h1 h2
      rw [wfi_zero, hgd]
      simp only [Node.items_mk, Node.children_mk, Node.keys_eq, keysOf_cons]
      refine ⟨hwr.1, by simp; omega, by simp; omega, ?_⟩
      rw [sortedIn_cons]
      exact ⟨by simpa using hnlt, hub, hwr.2.2.2⟩
    · rw [hgd]
      show l.items.take (l.items.length - 1) ++ _ :: sep :: r.items =
        l.items ++ sep :: r.items
      conv_rhs => rw [hdec]
      simp only [List.append_assoc, List.singleton_append]
  | succ h' =>
    rw [wfi_succ] at hwl hwr
    have hlc : l.children.length = l.items.length + 1 := hwl.1
    have hsl := hwl.2.2.2.1
    rw [Node.keys_eq, hkdec, sortedIn_append] at hsl
    obtain ⟨hs1, hlb', hub', -⟩ := hsl
    have hnlt : l.items[l.items.length - 1].key < sep.key := by simpa using hub'
    have hccdec : l.children = l.children.take l.items.length ++
        [l.children[l.items.length]] := by
      conv_lhs => rw [← List.take_append_drop l.items.length l.children]
      rw [List.drop_eq_getElem_cons (by omega), List.drop_eq_nil_of_le (by omega)]
    have hctake : (l.children.take l.items.length).length = l.items.length := by
      rw [List.length_take]; omega
    have hchl := hwl.2.2.2.2
    rw [Node.keys_eq, hkdec, hccdec, chainCheck_append (by
      rw [hctake, keysOf_take, List.length_take]
      rw [keysOf_length]; omega)] at hchl
    obtain ⟨hcc1, hcc2⟩ := hchl
    have hcc2' : Node.wfi h' minItems (maxItems - 1)
        (some l.items[l.items.length - 1].key) (some sep.key)
        l.children[l.items.length] = true := by
      simpa [chainCheck] using hcc2
    have hgdc : l.children.getD l.items.length ⟨[], []⟩ =
        l.children[l.items.length] := List.getD_eq_getElem _ _ (by omega)
    have hif : 1 < h' + 1 + 1 := by omega
    simp only [if_pos hif]
    refine ⟨?_, ?_, by rwa [hgd], by rw [hgd]; exact ubGt_trans hub (by omega), ?_⟩
    · intro mn' mx' h1 h2
      rw [wfi_succ, hgd]
      simp only [Node.items_mk, Node.children_mk, Node.keys_eq]
      refine ⟨by rw [hctake, List.length_take]; omega,
        by rw [List.length_take]; omega, by rw [List.length_take]; omega, ?_, ?_⟩
      · rw [keysOf_take, ← keysOf_take]
        exact hs1
      · rw [keysOf_take, ← keysOf_take]
        exact hcc1
    · intro mn' mx' h1 h2
      rw [wfi_succ, hgd, hgdc]
      simp only [Node.items_mk, Node.children_mk, Node.keys_eq, keysOf_cons]
      refine ⟨by simp [hwr.1], by simp; omega, by simp; omega, ?_, ?_⟩
      · rw [sortedIn_cons]
        exact ⟨by simpa using hnlt, hub, hwr.2.2.2.1⟩
      · simp only [chainCheck, Bool.and_eq_true]
        exact ⟨hcc2', hwr.2.2.2.2⟩
    · rw [hgd, hgdc]
      show glue _ _ _ ++ _ :: glue _ _ _ = glue _ l.items l.children ++ _
      conv_rhs => rw [hdec, hccdec]
      rw [glue_append_full _ _ _ _ (by rw [hctake, List.length_take]; omega)]
      simp only [glue, List.append_assoc, List.cons_append, List.nil_append,
        Node.items_mk, Node.children_mk, Node.flatten]

theorem borrowR_spec {V : Type} [Inhabited V] {h : Nat} {l r : Node V}
    {sep : Item V} {lo hi : Option Int} {mnl mnr mxl mxr : Nat}
    (hwl : Node.wfi h mnl mxl lo (some sep.key) l = true)
    (hwr : Node.wfi h mnr mxr (some sep.key) hi r = true)
    (hlb : lbLt lo sep.key = true)
    (hR1 : 1 ≤ r.items.length) :
    (∀ mn' mx', mn' ≤ l.items.length + 1 → l.items.length + 1 ≤ mx' →
      Node.wfi h mn' mx' lo (some (r.items.getD 0 default).key)
        (Node.mk (l.items ++ [sep])
          (if 1 < h + 1 then l.children ++ [r.children.getD 0 ⟨[], []⟩]
           else l.children)) = true) ∧
    (∀ mn' mx', mn' ≤ r.items.length - 1 → r.items.length - 1 ≤ mx' →
      Node.wfi h mn' mx' (some (r.items.getD 0 default).key) hi
        (Node.mk (r.items.drop 1)
          (if 1 < h + 1 then r.children.drop 1 else r.children)) = true) ∧
    lbLt lo (r.items.getD 0 default).key = true ∧
    ubGt hi (r.items.getD 0 default).key = true ∧
    Node.flatten h (Node.mk (l.items ++ [sep])
        (if 1 < h + 1 then l.children ++ [r.children.getD 0 ⟨[], []⟩]
         else l.children)) ++
      r.items.getD 0 default ::
        Node.flatten h (Node.mk (r.items.drop 1)
          (if 1 < h + 1 then r.children.drop 1 else r.children)) =
      Node.flatten h l ++ sep :: Node.flatten h r := by
  have hR : 0 < r.items.length := by omega
  have hgd : r.items.getD 0 default = r.items[0] := List.getD_eq_getElem _ _ hR
  have hdec : r.items = r.items[0] :: r.items.drop 1 := by
    conv_lhs => rw [← List.take_append_drop 0 r.items]
    rw [List.drop_eq_getElem_cons hR]
    simp
  have hkdec : keysOf r.items = r.items[0].key :: keysOf (r.items.drop 1) := by
    conv_lhs => rw [hdec]
    rw [keysOf_cons]
  cases h with
  | zero =>
    rw [wfi_zero] at hwl hwr
    have hsr := hwr.2.2.2
    rw [Node.keys_eq, hkdec, sortedIn_cons] at hsr
    obtain ⟨hlb', hub', hs1⟩ := hsr
    have hslt : sep.key < r.items[0].key := by simpa using hlb'
    have hif : ¬ (1 < 0 + 1) := by omega
    simp only [if_neg hif]
    refine ⟨?_, ?_, by rw [hgd]; exact lbLt_trans hlb (by omega), by rwa [hgd], ?_⟩
    · intro mn' mx' h1 h2
      rw [wfi_zero, hgd]
      simp only [Node.items_mk, Node.children_mk, Node.keys_eq, keysOf_append,
        keysOf_cons, keysOf_nil]
      refine ⟨hwl.1, by simp; omega, by simp; omega, ?_⟩
      rw [sortedIn_append]
      exact ⟨hwl.2.2.2, hlb, by simpa using hslt, sortedIn_nil _ _⟩
    · intro mn' mx' h1 h2
      rw [wfi_zero, hgd]
      simp only [Node.items_mk, Node.children_mk, Node.keys_eq]
      rw [keysOf_drop]
      refine ⟨hwr.1, ?_, ?_, ?_⟩
      · rw [List.length_drop]; omega
      · rw [List.length_drop]; omega
      · rw [← keysOf_drop]
        exact hs1
    · rw [hgd]
      show (l.items ++ [sep]) ++ r.items[0] :: r.items.drop 1 =
        l.items ++ sep :: r.items
      conv_rhs => rw [hdec]
      simp only [List.append_assoc, List.singleton_append]
  | succ h' =>
    rw [wfi_succ] at hwl hwr
    have hlc : l.children.length = l.items.length + 1 := hwl.1
    have hrc : r.children.length = r.items.length + 1 := hwr.1
    have hsr := hwr.2.2.2.1
    rw [Node.keys_eq, hkdec, sortedIn_cons] at hsr
    obtain ⟨hlb', hub', hs1⟩ := hsr
    have hslt : sep.key < r.items[0].key := by simpa using hlb'
    have hcdec : r.children = r.children[0] :: r.children.drop 1 := by
      conv_lhs => rw [← List.take_append_drop 0 r.children]
      rw [List.drop_eq_getElem_cons (by omega)]
      simp
    have hgdc : r.children.getD 0 ⟨[], []⟩ = r.children[0] :=
      List.getD_eq_getElem _ _ (by omega)
    have hchr := hwr.2.2.2.2
    rw [Node.keys_eq, hkdec, hcdec] at hchr
    simp only [chainCheck, Bool.and_eq_true] at hchr
    obtain ⟨hcc0, hccr⟩ := hchr
    have hif : 1 < h' + 1 + 1 := by omega
    simp only [if_pos hif]
    refine ⟨?_, ?_, by rw [hgd]; exact lbLt_trans hlb (by omega), by rwa [hgd], ?_⟩
    · intro mn' mx' h1 h2
      rw [wfi_succ, hgd, hgdc]
      simp only [Node.items_mk, Node.children_mk, Node.keys_eq, keysOf_append,
        keysOf_cons, keysOf_nil]
      refine ⟨by simp [hlc], by simp; omega, by simp; omega, ?_, ?_⟩
      · rw [sortedIn_append]
        exact ⟨hwl.2.2.2.1, hlb, by simpa using hslt, sortedIn_nil _ _⟩
      · rw [chainCheck_append (by rw [hlc, keysOf_length])]
        refine ⟨hwl.2.2.2.2, ?_⟩
        simpa [chainCheck] using hcc0
    · intro mn' mx' h1 h2
      rw [wfi_succ, hgd]
      simp only [Node.items_mk, Node.children_mk, Node.keys_eq]
      rw [keysOf_drop]
      refine ⟨?_, ?_, ?_, ?_, ?_⟩
      · rw [List.length_drop, List.length_drop]; omega
      · rw [List.length_drop]; omega
      · rw [List.length_drop]; omega
      · rw [← keysOf_drop]
        exact hs1
      · rw [← keysOf_drop]
        exact hccr
    · rw [hgd, hgdc]
      show glue _ _ _ ++ _ :: glue _ _ _ =
        glue _ l.items l.children ++ sep :: glue _ r.items r.children
      simp only [Node.items_mk, Node.children_mk]
      conv_rhs => rw [hdec, hcdec]
      rw [glue_append_full _ _ _ _ (by rw [hlc])]
      simp only [glue, List.append_assoc, List.cons_append, List.nil_append]

/-! ## Glue decompositions around two adjacent children -/

lemma glue_decomp2 {V : Type} (f : Node V → List (Item V))
    {its : List (Item V)} {cs : List (Node V)} {i : Nat}
    (hlen : cs.length = its.length + 1) (hilt : i < its.length) :
    glue f its cs = gluePre f (its.take i) (cs.take i) ++
      (f (cs.get ⟨i, by omega⟩) ++ its.get ⟨i, hilt⟩ ::
        (f (cs.get ⟨i + 1, by omega⟩) ++
          glueRest f (its.drop (i + 1)) (cs.drop (i + 2)))) := by
  have hic : i < cs.length := by omega
  have hi1c : i + 1 < cs.length := by omega
  conv_lhs => rw [← List.take_append_drop i its, ← List.take_append_drop i cs]
  rw [glue_append f _ _ (by rw [List.length_take, List.length_take]; omega)]
  rw [List.drop_eq_getElem_cons hic, List.drop_eq_getElem_cons hilt,
    List.drop_eq_getElem_cons hi1c]
  have h2 : i + 1 + 1 = i + 2 := rfl
  rw [h2]
  simp only [glue, glue_cons, List.get_eq_getElem]

lemma glue_set2 {V : Type} (f : Node V → List (Item V))
    {its : List (Item V)} {cs : List (Node V)} {i : Nat} {l' r' : Node V}
    {a : Item V}
    (hlen : cs.length = its.length + 1) (hilt : i < its.length) :
    glue f (its.set i a) ((cs.set i l').set (i + 1) r') =
      gluePre f (its.take i) (cs.take i) ++
        (f l' ++ a :: (f r' ++ glueRest f (its.drop (i + 1)) (cs.drop (i + 2)))) := by
  rw [set_set_succ i cs (by omega), List.set_eq_take_cons_drop _ hilt]
  rw [glue_append f _ _ (by rw [List.length_take, List.length_take]; omega)]
  simp only [glue, glue_cons]

lemma glue_merge2 {V : Type} (f : Node V → List (Item V))
    {its : List (Item V)} {cs : List (Node V)} {i : Nat} {merged : Node V}
    (hlen : cs.length = its.length + 1) (hilt : i < its.length) :
    glue f (its.eraseIdx i) ((cs.set i merged).eraseIdx (i + 1)) =
      gluePre f (its.take i) (cs.take i) ++
        (f merged ++ glueRest f (its.drop (i + 1)) (cs.drop (i + 2))) := by
  rw [set_eraseIdx_succ i cs (by omega), List.eraseIdx_eq_take_drop_succ]
  rw [glue_append f _ _ (by rw [List.length_take, List.length_take]; omega)]
  rw [glue_cons]

lemma append_cons_append {α : Type} {A B C D : List α} {a b : α}
    (heq : A ++ a :: B = C ++ b :: D) (G : List α) :
    A ++ a :: (B ++ G) = C ++ b :: (D ++ G) := by
  have h2 := congrArg (fun t => t ++ G) heq
  simpa [List.append_assoc] using h2

/-- `rebalance` restores the invariant at a parent whose child `i0` may have
dipped one below the minimum occupancy, and preserves the flattened
contents. -/
theorem rebalance_spec {V : Type} [Inhabited V] {h : Nat} {its : List (Item V)}
    {cs : List (Node V)} {lo hi : Option Int} {i0 : Nat}
    (hclen : cs.length = its.length + 1)
    (hits : 0 < its.length)
    (hsort : sortedIn lo hi (keysOf its) = true)
    (hch : ∀ j (hj : j < cs.length),
      Node.wfi h (if j = i0 then minItems - 1 else minItems) (maxItems - 1)
        (loAt lo (keysOf its) j) (hiAt hi (keysOf its) j) cs[j] = true)
    (hi0 : i0 < cs.length) :
    Node.wfi (h + 1) (its.length - 1) its.length lo hi
        (Node.rebalance (h + 1) i0 (Node.mk its cs)) = true ∧
      Node.flatten (h + 1) (Node.rebalance (h + 1) i0 (Node.mk its cs)) =
        Node.flatten (h + 1) (Node.mk its cs) := by
  have hmax : maxItems = 31 := rfl
  have hmin : minItems = 12 := rfl
  have hkl : (keysOf its).length = its.length := keysOf_length
  have hi0getD : cs.getD i0 ⟨[], []⟩ = cs[i0] := List.getD_eq_getElem _ _ hi0
  by_cases hdefD : (cs.getD i0 (⟨[], []⟩ : Node V)).items.length < minItems
  case neg =>
    have hreb : Node.rebalance (h + 1) i0 (Node.mk its cs) = Node.mk its cs := by
      simp only [Node.rebalance, Node.items_mk, Node.children_mk]
      rw [if_neg hdefD]
    rw [hreb]
    refine ⟨?_, rfl⟩
    rw [wfi_succ]
    simp only [Node.items_mk, Node.children_mk, Node.keys_eq]
    refine ⟨hclen, by omega, by omega, hsort, ?_⟩
    rw [chainCheck_iff (by rw [hkl]; omega)]
    intro j hj
    have hcj := hch j hj
    by_cases hji0 : j = i0
    · rw [if_pos hji0] at hcj
      subst hji0
      rw [hi0getD] at hdefD
      have hb := wfi_count_bounds hcj
      exact wfi_retop hcj (by omega) (by omega)
    · rw [if_neg hji0] at hcj
      exact hcj
  case pos =>
    have hdefc := wfi_count_bounds (by
      have hx := hch i0 hi0
      rwa [if_pos rfl] at hx)
    rw [hi0getD] at hdefD
    simp only [Node.rebalance, Node.items_mk, Node.children_mk]
    rw [if_pos (by rwa [hi0getD])]
    generalize hiv : (if i0 = its.length then i0 - 1 else i0) = iv
    have hivlt : iv < its.length := by
      by_cases hi0L : i0 = its.length
      · rw [if_pos hi0L] at hiv; omega
      · rw [if_neg hi0L] at hiv; omega
    have hivc : iv < cs.length := by omega
    have hiv1c : iv + 1 < cs.length := by omega
    have hi0iv : i0 = iv ∨ i0 = iv + 1 := by
      by_cases hi0L : i0 = its.length
      · rw [if_pos hi0L] at hiv; omega
      · rw [if_neg hi0L] at hiv; omega
    have hgdiv : cs.getD iv ⟨[], []⟩ = cs[iv] := List.getD_eq_getElem _ _ hivc
    have hgdiv1 : cs.getD (iv + 1) ⟨[], []⟩ = cs[iv + 1] :=
      List.getD_eq_getElem _ _ hiv1c
    have hgdit : its.getD iv default = its[iv] := List.getD_eq_getElem _ _ hivlt
    rw [hgdiv, hgdiv1, hgdit]
    have hwl0 := hch iv hivc
    have hwr0 := hch (iv + 1) hiv1c
    have hkeyiv : (keysOf its).getD iv 0 = its[iv].key := by
      rw [List.getD_eq_getElem _ _ (by rw [hkl]; exact hivlt)]
      simp [keysOf]
    have hhiiv : hiAt hi (keysOf its) iv = some its[iv].key := by
      rw [hiAt_of_lt (by rw [hkl]; exact hivlt), hkeyiv]
    have hloiv1 : loAt lo (keysOf its) (iv + 1) = some its[iv].key := by
      rw [loAt_succ, hkeyiv]
    rw [hhiiv] at hwl0
    rw [hloiv1] at hwr0
    have hbnd := sortedIn_getElem_bounds hsort
      (show iv < (keysOf its).length by rw [hkl]; exact hivlt)
    rw [hkeyiv] at hbnd
    have hbl := wfi_count_bounds hwl0
    have hbr := wfi_count_bounds hwr0
    have hbl1 : minItems - 1 ≤ cs[iv].items.length := by
      refine le_trans ?_ hbl.1
      split <;> omega
    have hbr1 : minItems - 1 ≤ cs[iv + 1].items.length := by
      refine le_trans ?_ hbr.1
      split <;> omega
    have hdefor : cs[iv].items.length = minItems - 1 ∨
        cs[iv + 1].items.length = minItems - 1 := by
      rcases hi0iv with he | he
      · left
        have h2 := hch iv hivc
        rw [if_pos (by omega)] at h2
        have h3 := wfi_count_bounds h2
        have h4 : cs.getD iv ⟨[], []⟩ = cs.getD i0 ⟨[], []⟩ := by rw [he]
        rw [hgdiv, hi0getD] at h4
        have h5 : cs[iv].items.length = cs[i0].items.length := by rw [h4]
        omega
      · right
        have h2 := hch (iv + 1) hiv1c
        rw [if_pos (by omega)] at h2
        have h3 := wfi_count_bounds h2
        have h4 : cs.getD (iv + 1) ⟨[], []⟩ = cs.getD i0 ⟨[], []⟩ := by rw [he]
        rw [hgdiv1, hi0getD] at h4
        have h5 : cs[iv + 1].items.length = cs[i0].items.length := by rw [h4]
        omega
    by_cases hm : cs[iv].items.length + cs[iv + 1].items.length + 1 < maxItems
    · -- merge the two children around the separator
      rw [if_pos hm]
      have hsp := merged_node_spec hwl0 hwr0 hbnd.1 hbnd.2
      constructor
      · rw [wfi_succ]
        simp only [Node.items_mk, Node.children_mk, Node.keys_eq]
        refine ⟨?_, ?_, ?_, ?_, ?_⟩
        · rw [List.length_eraseIdx_of_lt (by rw [List.length_set]; omega),
            List.length_set, List.length_eraseIdx_of_lt hivlt]
          omega
        · have hle : (its.eraseIdx iv).length = its.length - 1 :=
            List.length_eraseIdx_of_lt hivlt
          omega
        · have hle : (its.eraseIdx iv).length = its.length - 1 :=
            List.length_eraseIdx_of_lt hivlt
          omega
        · rw [keysOf_eraseIdx]
          exact sortedIn_sublist (List.eraseIdx_sublist _ _) hsort
        · rw [keysOf_eraseIdx]
          refine chainCheck_merge (by rw [hkl]; omega) (by omega) ?_ ?_
          · intro j hj hji hji1
            have hcj := hch j hj
            rw [if_neg (by omega)] at hcj
            exact hcj
          · exact hsp.1 minItems (maxItems - 1) (by omega) (by omega)
      · simp only [Node.flatten, Node.items_mk, Node.children_mk]
        rw [glue_merge2 _ hclen hivlt, glue_decomp2 _ hclen hivlt]
        rw [hsp.2]
        simp only [List.get_eq_getElem, List.append_assoc, List.cons_append]
    · rw [if_neg hm]
      by_cases hlr : cs[iv + 1].items.length < cs[iv].items.length
      · -- move the last item of the left child up, the separator down right
        rw [if_pos hlr]
        have hsp := borrowL_spec hwl0 hwr0 hbnd.1 hbnd.2 (by omega)
        obtain ⟨hl', hr', hlbnew, hubnew, hflat⟩ := hsp
        constructor
        · rw [wfi_succ]
          simp only [Node.items_mk, Node.children_mk, Node.keys_eq]
          refine ⟨?_, ?_, ?_, ?_, ?_⟩
          · simp only [List.length_set]; omega
          · simp only [List.length_set]; omega
          · simp only [List.length_set]; omega
          · rw [keysOf_set]
            exact sortedIn_set_key iv (by rw [hkl]; exact hivlt) hsort hlbnew hubnew
          · rw [keysOf_set]
            refine chainCheck_borrow (by rw [hkl]; omega) (by omega) ?_ ?_ ?_
            · intro j hj hji hji1
              have hcj := hch j hj
              rw [if_neg (by omega)] at hcj
              exact hcj
            · exact hl' minItems (maxItems - 1) (by omega) (by omega)
            · exact hr' minItems (maxItems - 1) (by omega) (by omega)
        · simp only [Node.flatten, Node.items_mk, Node.children_mk]
          rw [glue_set2 _ hclen hivlt, glue_decomp2 _ hclen hivlt]
          simp only [List.get_eq_getElem]
          rw [append_cons_append hflat]
      · -- move the first item of the right child up, the separator down left
        rw [if_neg hlr]
        have hsp := borrowR_spec hwl0 hwr0 hbnd.1 (by omega)
        obtain ⟨hl', hr', hlbnew, hubnew, hflat⟩ := hsp
        constructor
        · rw [wfi_succ]
          simp only [Node.items_mk, Node.children_mk, Node.keys_eq]
          refine ⟨?_, ?_, ?_, ?_, ?_⟩
          · simp only [List.length_set]; omega
          · simp only [List.length_set]; omega
          · simp only [List.length_set]; omega
          · rw [keysOf_set]
            exact sortedIn_set_key iv (by rw [hkl]; exact hivlt) hsort hlbnew hubnew
          · rw [keysOf_set]
            refine chainCheck_borrow (by rw [hkl]; omega) (by omega) ?_ ?_ ?_
            · intro j hj hji hji1
              have hcj := hch j hj
              rw [if_neg (by omega)] at hcj
              exact hcj
            · exact hl' minItems (maxItems - 1) (by omega) (by omega)
            · exact hr' minItems (maxItems - 1) (by omega) (by omega)
        · simp only [Node.flatten, Node.items_mk, Node.children_mk]
          rw [glue_set2 _ hclen hivlt, glue_decomp2 _ hclen hivlt]
          simp only [List.get_eq_getElem]
          rw [append_cons_append hflat]

/-! ## Small list facts for deletion -/

lemma set_self {α : Type} {l : List α} {i : Nat} (h : i < l.length) :
    l.set i l[i] = l := by
  apply List.ext_getElem (by simp)
  intro j h1 h2
  rw [List.getElem_set]
  by_cases hij : i = j
  · rw [if_pos hij]
    subst hij
    rfl
  · rw [if_neg hij]

lemma getD_append_last {α : Type} [Inhabited α] {P F : List α} (hF : F ≠ []) :
    (P ++ F).getD ((P ++ F).length - 1) default = F.getD (F.length - 1) default := by
  have hFlen : 0 < F.length := List.length_pos.2 hF
  have h1 : (P ++ F).length - 1 < (P ++ F).length := by simp; omega
  rw [List.getD_eq_getElem _ _ h1, List.getD_eq_getElem _ _ (by omega)]
  have h2 : (P ++ F).length - 1 = P.length + (F.length - 1) := by simp; omega
  have h3 := @List.getElem_append_right _ P F ((P ++ F).length - 1)
    (show P.length ≤ (P ++ F).length - 1 by simp; omega) h1
  rw [h3]
  congr 1
  simp
  omega

lemma dropLast_append_ne {α : Type} {P F : List α} (hF : F ≠ []) :
    (P ++ F).dropLast = P ++ F.dropLast := by
  have hFlen : 0 < F.length := List.length_pos.2 hF
  rw [List.dropLast_eq_take, List.dropLast_eq_take, List.length_append,
    List.take_append_eq_append_take]
  congr 1
  · rw [List.take_of_length_le (by omega)]
  · congr 1
    omega

lemma dropLast_append_last_cons {α : Type} [Inhabited α] {l : List α}
    (h : l ≠ []) (D : List α) :
    l.dropLast ++ l.getD (l.length - 1) default :: D = l ++ D := by
  have hlen : 0 < l.length := List.length_pos.2 h
  conv_rhs => rw [← List.dropLast_append_getLast h]
  rw [List.getD_eq_getElem _ _ (by omega), List.getLast_eq_getElem]
  simp [List.append_assoc]

lemma getD_last_mem {α : Type} [Inhabited α] {l : List α} (h : l ≠ []) :
    l.getD (l.length - 1) default ∈ l := by
  have hlen : 0 < l.length := List.length_pos.2 h
  rw [List.getD_eq_getElem _ _ (by omega)]
  exact List.getElem_mem _

lemma eraseIdx_last_eq_dropLast {α : Type} {l : List α} :
    l.eraseIdx (l.length - 1) = l.dropLast := by
  rcases l with _ | ⟨a, l⟩
  · rfl
  · rw [List.eraseIdx_eq_take_drop_succ, List.dropLast_eq_take]
    have h2 : (a :: l).length - 1 + 1 = (a :: l).length := by simp
    rw [h2, List.drop_length, List.append_nil]

lemma eraseKey_eq_eraseIdx {V : Type} {key : Int} :
    ∀ {l : List (Item V)} {idx : Nat} (hidx : idx < l.length),
      (keysOf l).Pairwise (· < ·) → l[idx].key = key →
      eraseKey key l = l.eraseIdx idx
  | it :: l, 0, _, _, hkey => by
    rw [eraseKey_cons, if_pos (by simpa using hkey)]
    rfl
  | it :: l, idx + 1, hidx, hs, hkey => by
    rw [keysOf_cons, List.pairwise_cons] at hs
    have hidx' : idx < l.length := by simpa using hidx
    have hkey' : l[idx].key = key := by simpa using hkey
    have hlt : it.key < key := by
      have hmem : l[idx].key ∈ keysOf l := by
        simp only [keysOf]
        exact List.mem_map_of_mem _ (List.getElem_mem hidx')
      have := hs.1 _ hmem
      omega
    rw [eraseKey_cons, if_neg (by omega), List.eraseIdx_cons_succ,
      eraseKey_eq_eraseIdx hidx' hs.2 hkey']

lemma eraseKey_append_of_mem {V : Type} {key : Int} :
    ∀ {l₁ l₂ : List (Item V)}, key ∈ keysOf l₁ →
      eraseKey key (l₁ ++ l₂) = eraseKey key l₁ ++ l₂
  | [], _, h => by simp at h
  | it :: l₁, l₂, h => by
    rw [List.cons_append, eraseKey_cons, eraseKey_cons]
    by_cases hk : it.key = key
    · rw [if_pos hk, if_pos hk]
    · rw [if_neg hk, if_neg hk, List.cons_append,
        eraseKey_append_of_mem (by
          rcases (by simpa using h : key = it.key ∨ key ∈ keysOf l₁) with h1 | h1
          · exact absurd h1.symm hk
          · exact h1)]

lemma sortedIn_tighten_last {a : Int} :
    ∀ {ks : List Int} {lo hi : Option Int},
      sortedIn lo hi ks = true →
      (∀ j (hj : j < ks.length), ks[j] < a) →
      sortedIn lo (some a) ks = true
  | [], _, _, _, _ => rfl
  | k :: ks, lo, hi, hs, hall => by
    rw [sortedIn_cons] at hs
    rw [sortedIn_cons]
    refine ⟨hs.1, by simpa using hall 0 (by simp), ?_⟩
    exact sortedIn_tighten_last hs.2.2 (fun j hj => by simpa using hall (j + 1) (by simpa using hj))

lemma loAt_set_ne {lo : Option Int} {ks : List Int} {i : Nat} {a : Int} :
    ∀ m : Nat, m ≠ i + 1 → m ≤ ks.length → loAt lo (ks.set i a) m = loAt lo ks m := by
  intro m hm hmle
  cases m with
  | zero => rfl
  | succ m' => rw [loAt_succ, loAt_succ, getD_set (by omega), if_neg (by omega)]

lemma hiAt_set_ne {hi : Option Int} {ks : List Int} {i : Nat} {a : Int} :
    ∀ m : Nat, m ≠ i → hiAt hi (ks.set i a) m = hiAt hi ks m := by
  intro m hm
  by_cases hmlt : m < ks.length
  · rw [hiAt_of_lt (by rw [List.length_set]; exact hmlt), hiAt_of_lt hmlt,
      getD_set hmlt, if_neg (by omega)]
  · rw [hiAt_of_ge (by rw [List.length_set]; omega), hiAt_of_ge (by omega)]

lemma loAt_set_eq {lo : Option Int} {ks : List Int} {i : Nat} {a : Int}
    (h : i < ks.length) : loAt lo (ks.set i a) (i + 1) = some a := by
  rw [loAt_succ, getD_set h, if_pos rfl]

lemma hiAt_set_eq {hi : Option Int} {ks : List Int} {i : Nat} {a : Int}
    (h : i < ks.length) : hiAt hi (ks.set i a) i = some a := by
  rw [hiAt_of_lt (by rw [List.length_set]; exact h), getD_set h, if_pos rfl]

lemma glue_set_both {V : Type} (f : Node V → List (Item V))
    {its : List (Item V)} {cs : List (Node V)} {i : Nat} {c' : Node V}
    {a : Item V} (hlen : cs.length = its.length + 1) (hilt : i < its.length) :
    glue f (its.set i a) (cs.set i c') =
      gluePre f (its.take i) (cs.take i) ++
        (f c' ++ a :: glue f (its.drop (i + 1)) (cs.drop (i + 1))) := by
  rw [List.set_eq_take_cons_drop _ hilt,
    List.set_eq_take_cons_drop _ (show i < cs.length by omega)]
  rw [glue_append f _ _ (by rw [List.length_take, List.length_take]; omega)]
  simp only [glue, glue_cons, glueRest]

lemma flatten_ne_nil {V : Type} : ∀ {h mn mx : Nat} {lo hi : Option Int}
    {n : Node V}, Node.wfi h mn mx lo hi n = true → 1 ≤ mn →
    Node.flatten h n ≠ [] := by
  intro h mn mx lo hi n hw hmn
  cases h with
  | zero =>
    rw [wfi_zero] at hw
    show n.items ≠ []
    intro hc
    rw [hc] at hw
    simp at hw
    omega
  | succ h =>
    rw [wfi_succ] at hw
    show glue _ n.items n.children ≠ []
    have h1 : 1 ≤ n.items.length := by omega
    rcases hits : n.items with _ | ⟨it, its⟩
    · rw [hits] at h1; simp at h1
    · rcases hcs : n.children with _ | ⟨c, cs⟩
      · rw [hcs] at hw; simp at hw
      · simp [glue]

/-- Max-mode delete (`delete(true, …)`): always deletes, returns the last
item of the subtree in order, and leaves the dropLast of the flattening,
with all remaining keys below the extracted key. -/
theorem delete_max_spec {V : Type} [Inhabited V] :
    ∀ (h : Nat) (n : Node V) (mn mx : Nat) (lo hi : Option Int),
      Node.wfi h mn mx lo hi n = true → 1 ≤ mn →
      (Node.delete true freeKey h n).1.2 = true ∧
      (Node.delete true freeKey h n).1.1 =
        (Node.flatten h n).getD ((Node.flatten h n).length - 1) default ∧
      Node.flatten h (Node.delete true freeKey h n).2 =
        (Node.flatten h n).dropLast ∧
      Node.wfi h (mn - 1) mx lo
        (some (((Node.flatten h n).getD ((Node.flatten h n).length - 1)
          default).key))
        (Node.delete true freeKey h n).2 = true := by
  intro h
  induction h with
  | zero =>
    intro n mn mx lo hi hw hmn
    obtain ⟨its, cs⟩ := n
    rw [wfi_zero] at hw
    simp only [Node.items_mk, Node.children_mk, Node.keys_eq] at hw
    obtain ⟨hcs0, hmn', hmx', hsort⟩ := hw
    have hne : its ≠ [] := by
      intro hc
      rw [hc] at hmn'
      simp at hmn'
      omega
    have hlen : 0 < its.length := List.length_pos.2 hne
    have hdecomp : its = its.dropLast ++ its.getD (its.length - 1) default :: [] := by
      rw [dropLast_append_last_cons hne, List.append_nil]
    have hkdecomp : keysOf its = keysOf its.dropLast ++
        (its.getD (its.length - 1) default).key :: [] := by
      conv_lhs => rw [hdecomp]
      rw [keysOf_append, keysOf_cons, keysOf_nil]
    have hsd := hsort
    rw [hkdecomp, sortedIn_append] at hsd
    simp only [Node.delete, Node.items_mk, Node.children_mk, eq_self_iff_true,
      if_true]
    refine ⟨trivial, rfl, ?_, ?_⟩
    · show its.eraseIdx (its.length - 1) = its.dropLast
      exact eraseIdx_last_eq_dropLast
    · rw [wfi_zero]
      simp only [Node.items_mk, Node.children_mk, Node.keys_eq]
      refine ⟨hcs0, ?_, ?_, ?_⟩
      · rw [eraseIdx_last_eq_dropLast, List.length_dropLast]; omega
      · rw [eraseIdx_last_eq_dropLast, List.length_dropLast]; omega
      · rw [eraseIdx_last_eq_dropLast]
        show sortedIn lo (some ((its.getD (its.length - 1) default).key))
          (keysOf its.dropLast) = true
        exact hsd.1
  | succ h ih =>
    intro n mn mx lo hi hw hmn
    obtain ⟨its, cs⟩ := n
    rw [wfi_succ] at hw
    simp only [Node.items_mk, Node.children_mk, Node.keys_eq] at hw
    obtain ⟨hclen, hmn', hmx', hsort, hcheck⟩ := hw
    have hmin : minItems = 12 := rfl
    have hmax : maxItems = 31 := rfl
    have hkl : (keysOf its).length = its.length := keysOf_length
    have hL1 : its.length - 1 + 1 = its.length := by omega
    have hLc : its.length < cs.length := by omega
    have hgdL : cs.getD its.length ⟨[], []⟩ = cs[its.length] :=
      List.getD_eq_getElem _ _ hLc
    have hcw := (chainCheck_iff (by rw [hclen, hkl])).1 hcheck its.length hLc
    have hhiL : hiAt hi (keysOf its) its.length = hi := hiAt_of_ge (by rw [hkl])
    rw [hhiL] at hcw
    have ihc := ih cs[its.length] minItems (maxItems - 1)
      (loAt lo (keysOf its) its.length) hi hcw (by omega)
    rcases hrec : Node.delete true freeKey h cs[its.length] with ⟨⟨prevC, delC⟩, c'⟩
    rw [hrec] at ihc
    simp only at ihc
    obtain ⟨hdelC, hprevC, hflatC, hwfC⟩ := ihc
    rw [← hprevC] at hwfC
    have hFne : Node.flatten h cs[its.length] ≠ [] :=
      flatten_ne_nil hcw (by omega)
    have hflatdec : Node.flatten (h + 1) (Node.mk its cs) =
        gluePre (fun c => Node.flatten h c) its (cs.take its.length) ++
          Node.flatten h cs[its.length] := by
      show glue _ its cs = _
      rw [glue_decomp _ hclen (le_refl _), hgdL, List.drop_length]
      simp [glueRest]
    have hflatset : Node.flatten (h + 1) (Node.mk its (cs.set its.length c')) =
        gluePre (fun c => Node.flatten h c) its (cs.take its.length) ++
          Node.flatten h c' := by
      show glue _ its (cs.set its.length c') = _
      rw [glue_decomp_set _ hclen (le_refl _), List.drop_length]
      simp [glueRest]
    have hFs : sortedIn (loAt lo (keysOf its) its.length) hi
        (keysOf (Node.flatten h cs[its.length])) = true :=
      wfi_flatten_sortedIn h hcw
    have hprevmem : prevC.key ∈ keysOf (Node.flatten h cs[its.length]) := by
      rw [hprevC]
      simp only [keysOf]
      exact List.mem_map_of_mem _ (getD_last_mem hFne)
    have hlbprev : lbLt (loAt lo (keysOf its) its.length) prevC.key = true :=
      sortedIn_mem_lb hFs hprevmem
    have hloL : loAt lo (keysOf its) its.length =
        some ((keysOf its).getD (its.length - 1) 0) := by
      conv_lhs => rw [show its.length = its.length - 1 + 1 from hL1.symm]
      rw [loAt_succ]
    have hall : ∀ j (hj : j < (keysOf its).length), (keysOf its)[j] < prevC.key := by
      intro j hj
      have hp := sortedIn_pairwise hsort
      have hlast : (keysOf its).getD (its.length - 1) 0 < prevC.key := by
        rw [hloL] at hlbprev
        simpa using hlbprev
      have hgdl : (keysOf its).getD (its.length - 1) 0 =
          (keysOf its)[its.length - 1] :=
        List.getD_eq_getElem _ _ (by omega)
      rcases Nat.lt_or_ge j (its.length - 1) with hlt | hge
      · have h1 := List.pairwise_iff_getElem.1 hp j (its.length - 1)
          (by omega) (by omega) hlt
        exact lt_trans h1 (hgdl ▸ hlast)
      · have hj_eq : j = its.length - 1 := by omega
        subst hj_eq
        exact hgdl ▸ hlast
    have hsort2 := sortedIn_tighten_last hsort hall
    have hch2 : ∀ j (hj : j < (cs.set its.length c').length),
        Node.wfi h (if j = its.length then minItems - 1 else minItems)
          (maxItems - 1) (loAt lo (keysOf its) j)
          (hiAt (some prevC.key) (keysOf its) j)
          (cs.set its.length c')[j] = true := by
      intro j hj
      rw [List.getElem_set]
      by_cases hjL : its.length = j
      · rw [if_pos hjL, if_pos hjL.symm]
        subst hjL
        rw [hiAt_of_ge (by rw [hkl])]
        exact hwfC
      · rw [if_neg hjL, if_neg (fun hc => hjL hc.symm)]
        have hjlt : j < cs.length := by simpa using hj
        have hcj := (chainCheck_iff (by rw [hclen, hkl])).1 hcheck j hjlt
        have hjks : j < (keysOf its).length := by rw [hkl]; omega
        rw [hiAt_of_lt hjks] at hcj
        rw [hiAt_of_lt hjks]
        exact hcj
    have hrb := rebalance_spec (by rw [List.length_set]; exact hclen)
      (by omega) hsort2 hch2 (by rw [List.length_set]; omega)
    have hprev_spec : (Node.flatten (h + 1) (Node.mk its cs)).getD
        ((Node.flatten (h + 1) (Node.mk its cs)).length - 1) default = prevC := by
      rw [hflatdec, getD_append_last hFne]
      exact hprevC.symm
    simp only [Node.delete, Node.items_mk, Node.children_mk, hL1, hgdL, hrec,
      hdelC, eq_self_iff_true, if_true]
    refine ⟨trivial, hprev_spec.symm, ?_, ?_⟩
    · rw [hrb.2, hflatset, hflatC, hflatdec, dropLast_append_ne hFne]
    · rw [hprev_spec]
      have hcb := wfi_count_bounds hrb.1
      exact wfi_retop hrb.1 (by omega) (by omega)

/-- Key-mode delete: the deleted flag reports presence; an absent key
leaves the node untouched and returns the zero item; a present key is
erased from the flattening, keeping the invariant with the minimum
occupancy relaxed by one. -/
theorem delete_spec {V : Type} [Inhabited V] (key : Int) :
    ∀ (h : Nat) (n : Node V) (mn mx : Nat) (lo hi : Option Int),
      Node.wfi h mn mx lo hi n = true → 1 ≤ mn →
      lbLt lo key = true → ubGt hi key = true →
      ((Node.delete false key h n).1.2 = true ↔
        key ∈ keysOf (Node.flatten h n)) ∧
      ((Node.delete false key h n).1.2 = false →
        Node.delete false key h n = ((default, false), n)) ∧
      ((Node.delete false key h n).1.2 = true →
        Node.flatten h (Node.delete false key h n).2 =
          eraseKey key (Node.flatten h n) ∧
        Node.wfi h (mn - 1) mx lo hi (Node.delete false key h n).2 = true) := by
  intro h
  induction h with
  | zero =>
    intro n mn mx lo hi hw hmn hlo hhi
    obtain ⟨its, cs⟩ := n
    rw [wfi_zero] at hw
    simp only [Node.items_mk, Node.children_mk, Node.keys_eq] at hw
    obtain ⟨hcs0, hmn', hmx', hsort⟩ := hw
    have hp : (keysOf its).Pairwise (· < ·) := sortedIn_pairwise hsort
    have hkl : (keysOf its).length = its.length := keysOf_length
    by_cases hmem : key ∈ keysOf its
    · obtain ⟨hfind, hrpos, hrlen, hgd⟩ :=
        find_eq_of_mem (n := Node.mk its cs) (by simpa using hp) (by simpa using hmem)
      rw [Node.keys_eq] at hfind hrlen hgd
      simp only [Node.items_mk] at hfind hrlen hgd
      have hIlen : rank (keysOf its) key - 1 < its.length := by omega
      have hitskey : its[rank (keysOf its) key - 1].key = key := by
        rw [List.getD_eq_getElem _ _ hrlen] at hgd
        simpa [keysOf] using hgd
      simp only [Node.delete, hfind, Node.items_mk, Node.children_mk,
        Bool.false_eq_true, if_false, eq_self_iff_true, if_true]
      refine ⟨by simpa [Node.flatten, Node.items_mk, keysOf] using hmem, ?_, ?_⟩
      · intro hcontra
        cases hcontra
      · intro _
        constructor
        · show its.eraseIdx _ = eraseKey key its
          exact (eraseKey_eq_eraseIdx hIlen hp hitskey).symm
        · rw [wfi_zero]
          simp only [Node.items_mk, Node.children_mk, Node.keys_eq]
          have hle : (its.eraseIdx (rank (keysOf its) key - 1)).length =
              its.length - 1 := List.length_eraseIdx_of_lt hIlen
          refine ⟨hcs0, by omega, by omega, ?_⟩
          rw [keysOf_eraseIdx]
          exact sortedIn_sublist (List.eraseIdx_sublist _ _) hsort
    · have hfind : Node.find (Node.mk its cs) key = (rank (keysOf its) key, false) :=
        find_eq_rank_of_notin (by simpa using hp) (by simpa using hmem)
      simp only [Node.delete, hfind, Node.items_mk, Node.children_mk,
        Bool.false_eq_true, if_false]
      refine ⟨by simpa [Node.flatten, Node.items_mk, keysOf] using hmem, ?_, ?_⟩
      · intro _
        trivial
      · intro hcontra
        cases hcontra
  | succ h ih =>
    intro n mn mx lo hi hw hmn hlo hhi
    obtain ⟨its, cs⟩ := n
    rw [wfi_succ] at hw
    simp only [Node.items_mk, Node.children_mk, Node.keys_eq] at hw
    obtain ⟨hclen, hmn', hmx', hsort, hcheck⟩ := hw
    have hmin : minItems = 12 := rfl
    have hmax : maxItems = 31 := rfl
    have hp : (keysOf its).Pairwise (· < ·) := sortedIn_pairwise hsort
    have hkl : (keysOf its).length = its.length := keysOf_length
    have hfg : ∀ (lo' hi' : Option Int) (c : Node V),
        Node.wfi h minItems (maxItems - 1) lo' hi' c = true →
        sortedIn lo' hi' (keysOf ((fun c => Node.flatten h c) c)) = true :=
      fun lo' hi' c hc => wfi_flatten_sortedIn h hc
    by_cases hmem : key ∈ keysOf its
    · -- the key sits in this node: swap in the predecessor and rebalance
      obtain ⟨hfind, hrpos, hrlen, hgd⟩ :=
        find_eq_of_mem (n := Node.mk its cs) (by simpa using hp) (by simpa using hmem)
      rw [Node.keys_eq] at hfind hrlen hgd
      simp only [Node.items_mk] at hfind hrlen hgd
      set I := rank (keysOf its) key - 1 with hIdef
      have hIlen : I < its.length := by omega
      have hIc : I < cs.length := by omega
      have hgdI : cs.getD I ⟨[], []⟩ = cs[I] := List.getD_eq_getElem _ _ hIc
      have hitskey : its[I].key = key := by
        rw [List.getD_eq_getElem _ _ hrlen] at hgd
        simpa [keysOf] using hgd
      have hcw := (chainCheck_iff (by rw [hclen, hkl])).1 hcheck I hIc
      have hhiI : hiAt hi (keysOf its) I = some key := by
        rw [hiAt_of_lt (by omega), hgd]
      rw [hhiI] at hcw
      have maxspec := delete_max_spec h cs[I] minItems (maxItems - 1)
        (loAt lo (keysOf its) I) (some key) hcw (by omega)
      rcases hrec : Node.delete true freeKey h cs[I] with ⟨⟨maxItem, delM⟩, c'⟩
      rw [hrec] at maxspec
      simp only at maxspec
      obtain ⟨-, hmaxItem, hflatC, hwfC⟩ := maxspec
      rw [← hmaxItem] at hwfC
      have hFne : Node.flatten h cs[I] ≠ [] := flatten_ne_nil hcw (by omega)
      have hFs : sortedIn (loAt lo (keysOf its) I) (some key)
          (keysOf (Node.flatten h cs[I])) = true := wfi_flatten_sortedIn h hcw
      have hmkmem : maxItem.key ∈ keysOf (Node.flatten h cs[I]) := by
        rw [hmaxItem]
        simp only [keysOf]
        exact List.mem_map_of_mem _ (getD_last_mem hFne)
      have hmklt : maxItem.key < key := by
        have := sortedIn_mem_ub hFs hmkmem
        simpa using this
      have hmklb : lbLt (loAt lo (keysOf its) I) maxItem.key = true :=
        sortedIn_mem_lb hFs hmkmem
      have hbndI := sortedIn_getElem_bounds hsort (show I < (keysOf its).length by omega)
      have hub2 : ubGt (hiAt hi (keysOf its) (I + 1)) key = true := by
        have := hbndI.2
        rwa [hgd] at this
      have hsort2 : sortedIn lo hi ((keysOf its).set I maxItem.key) = true :=
        sortedIn_set_key I (by omega) hsort hmklb
          (ubGt_trans hub2 (le_of_lt hmklt))
      have hch2 : ∀ j (hj : j < (cs.set I c').length),
          Node.wfi h (if j = I then minItems - 1 else minItems) (maxItems - 1)
            (loAt lo (keysOf (its.set I maxItem)) j)
            (hiAt hi (keysOf (its.set I maxItem)) j)
            (cs.set I c')[j] = true := by
        intro j hj
        rw [List.getElem_set, keysOf_set]
        by_cases hjI : I = j
        · rw [if_pos hjI, if_pos hjI.symm]
          subst hjI
          rw [loAt_set_ne I (by omega) (by omega), hiAt_set_eq (by omega)]
          exact hwfC
        · rw [if_neg hjI, if_neg (fun hc => hjI hc.symm)]
          have hjlt : j < cs.length := by simpa using hj
          have hcj := (chainCheck_iff (by rw [hclen, hkl])).1 hcheck j hjlt
          rw [hiAt_set_ne j (fun hc => hjI hc.symm)]
          by_cases hjI1 : j = I + 1
          · subst hjI1
            rw [loAt_set_eq (by omega)]
            rw [loAt_succ, hgd] at hcj
            refine wfi_weaken h hcj ?_ (fun k hk => hk)
            intro k hk
            rw [lbLt_some] at hk ⊢
            omega
          · rw [loAt_set_ne j hjI1 (by omega)]
            exact hcj
      have hrb := rebalance_spec (by rw [List.length_set, List.length_set]; exact hclen)
        (by rw [List.length_set]; omega)
        (by rw [keysOf_set]; exact hsort2) hch2
        (by rw [List.length_set]; omega)
      -- decompositions of the flattened lists
      have hIle : I ≤ its.length := by omega
      have hflatdec : Node.flatten (h + 1) (Node.mk its cs) =
          gluePre (fun c => Node.flatten h c) (its.take I) (cs.take I) ++
            (Node.flatten h cs[I] ++ its[I] ::
              glue (fun c => Node.flatten h c) (its.drop (I + 1)) (cs.drop (I + 1))) := by
        show glue _ its cs = _
        conv_lhs => rw [show its = its.set I its[I] from (set_self hIlen).symm,
          show cs = cs.set I cs[I] from (set_self hIc).symm]
        rw [glue_set_both _ hclen hIlen]
      have hflatset : Node.flatten (h + 1)
          (Node.mk (its.set I maxItem) (cs.set I c')) =
          gluePre (fun c => Node.flatten h c) (its.take I) (cs.take I) ++
            (Node.flatten h c' ++ maxItem ::
              glue (fun c => Node.flatten h c) (its.drop (I + 1)) (cs.drop (I + 1))) := by
        show glue _ _ _ = _
        simp only [Node.items_mk, Node.children_mk]
        rw [glue_set_both _ hclen hIlen]
      have hlbI : lbLt (loAt lo (keysOf its) I) key = true := by
        have := hbndI.1
        rwa [hgd] at this
      have hPnotin : key ∉ keysOf (gluePre (fun c => Node.flatten h c)
          (its.take I) (cs.take I)) := by
        intro hk
        have := gluePre_below hfg I hIle hsort hcheck key hk key hlbI
        omega
      have hFnotin : key ∉ keysOf (Node.flatten h cs[I]) := by
        intro hk
        have := sortedIn_mem_ub hFs hk
        simp at this
      have hflaterase : eraseKey key (Node.flatten (h + 1) (Node.mk its cs)) =
          gluePre (fun c => Node.flatten h c) (its.take I) (cs.take I) ++
            (Node.flatten h cs[I] ++
              glue (fun c => Node.flatten h c) (its.drop (I + 1)) (cs.drop (I + 1))) := by
        rw [hflatdec, eraseKey_append_of_notin hPnotin,
          eraseKey_append_of_notin hFnotin, eraseKey_cons, if_pos hitskey]
      have hmemkey : key ∈ keysOf (Node.flatten (h + 1) (Node.mk its cs)) := by
        rw [hflatdec, keysOf_append, keysOf_append, keysOf_cons]
        simp [hitskey]
      simp only [Node.delete, hfind, Node.items_mk, Node.children_mk,
        Bool.false_eq_true, if_false, hgdI, hrec, eq_self_iff_true, if_true]
      refine ⟨by simpa using hmemkey, ?_, ?_⟩
      · intro hcontra
        cases hcontra
      · intro _
        constructor
        · rw [hrb.2, hflatset, hflatC, hmaxItem, hflaterase]
          rw [dropLast_append_last_cons hFne]
        · have hcb := wfi_count_bounds hrb.1
          rw [List.length_set] at hcb
          exact wfi_retop hrb.1 (by omega) (by omega)
    · -- descend into child `rank`
      have hfind : Node.find (Node.mk its cs) key = (rank (keysOf its) key, false) :=
        find_eq_rank_of_notin (by simpa using hp) (by simpa using hmem)
      set I := rank (keysOf its) key with hIdef
      have hIle : I ≤ its.length := by
        have := @rank_le_length (keysOf its) key; omega
      have hIc : I < cs.length := by omega
      have hgdI : cs.getD I ⟨[], []⟩ = cs[I] := List.getD_eq_getElem _ _ hIc
      have hcw := (chainCheck_iff (by rw [hclen, hkl])).1 hcheck I hIc
      have hb := rank_bounds hsort hlo hhi hmem
      have ihc := ih cs[I] minItems (maxItems - 1)
        (loAt lo (keysOf its) I) (hiAt hi (keysOf its) I) hcw (by omega) hb.1 hb.2
      rcases hrec : Node.delete false key h cs[I] with ⟨⟨prevC, delC⟩, c'⟩
      rw [hrec] at ihc
      simp only at ihc
      obtain ⟨hiff, hfalse, htrue⟩ := ihc
      have hPlt : ∀ x ∈ keysOf (gluePre (fun c => Node.flatten h c)
          (its.take I) (cs.take I)), x < key :=
        fun x hx => gluePre_below hfg I hIle hsort hcheck x hx key hb.1
      have hRgt : ∀ x ∈ keysOf (glueRest (fun c => Node.flatten h c)
          (its.drop I) (cs.drop (I + 1))), key < x :=
        fun x hx => glueRest_above hfg I hsort hcheck x hx key hb.2
      have hPnotin : key ∉ keysOf (gluePre (fun c => Node.flatten h c)
          (its.take I) (cs.take I)) := fun hk => absurd (hPlt key hk) (by omega)
      have hRnotin : key ∉ keysOf (glueRest (fun c => Node.flatten h c)
          (its.drop I) (cs.drop (I + 1))) := fun hk => absurd (hRgt key hk) (by omega)
      have hflatdec : Node.flatten (h + 1) (Node.mk its cs) =
          gluePre (fun c => Node.flatten h c) (its.take I) (cs.take I) ++
            (Node.flatten h cs[I] ++ glueRest (fun c => Node.flatten h c)
              (its.drop I) (cs.drop (I + 1))) := by
        show glue _ its cs = _
        rw [glue_decomp _ hclen hIle, hgdI]
      have hmemflat : key ∈ keysOf (Node.flatten (h + 1) (Node.mk its cs)) ↔
          key ∈ keysOf (Node.flatten h cs[I]) := by
        rw [hflatdec, keysOf_append, keysOf_append]
        simp only [List.mem_append]
        constructor
        · rintro (hk | hk | hk)
          · exact absurd hk hPnotin
          · exact hk
          · exact absurd hk hRnotin
        · intro hk; exact Or.inr (Or.inl hk)
      simp only [Node.delete, hfind, Node.items_mk, Node.children_mk,
        Bool.false_eq_true, if_false, hgdI, hrec]
      cases delC with
      | false =>
        have h5 := hfalse rfl
        simp only [Prod.mk.injEq] at h5
        obtain ⟨⟨hprev0, -⟩, hc0⟩ := h5
        simp only [Bool.false_eq_true, if_false]
        refine ⟨?_, ?_, ?_⟩
        · simp only [false_iff]
          intro hk
          exact absurd (hiff.2 (hmemflat.1 hk)) (by simp)
        · intro _
          rw [hprev0, hc0, set_self hIc]
        · intro hcontra
          cases hcontra
      | true =>
        obtain ⟨hflatC, hwfC⟩ := htrue rfl
        have hch2 : ∀ j (hj : j < (cs.set I c').length),
            Node.wfi h (if j = I then minItems - 1 else minItems) (maxItems - 1)
              (loAt lo (keysOf its) j) (hiAt hi (keysOf its) j)
              (cs.set I c')[j] = true := by
          intro j hj
          rw [List.getElem_set]
          by_cases hjI : I = j
          · rw [if_pos hjI, if_pos hjI.symm]
            subst hjI
            exact hwfC
          · rw [if_neg hjI, if_neg (fun hc => hjI hc.symm)]
            exact (chainCheck_iff (by rw [hclen, hkl])).1 hcheck j (by simpa using hj)
        have hrb := rebalance_spec (by rw [List.length_set]; exact hclen)
          (by omega) hsort hch2 (by rw [List.length_set]; omega)
        have hflatset : Node.flatten (h + 1) (Node.mk its (cs.set I c')) =
            gluePre (fun c => Node.flatten h c) (its.take I) (cs.take I) ++
              (Node.flatten h c' ++ glueRest (fun c => Node.flatten h c)
                (its.drop I) (cs.drop (I + 1))) := by
          show glue _ its (cs.set I c') = _
          rw [glue_decomp_set _ hclen hIle]
        simp only [eq_self_iff_true, if_true]
        refine ⟨?_, ?_, ?_⟩
        · simp only [true_iff]
          exact hmemflat.2 (hiff.1 rfl)
        · intro hcontra
          cases hcontra
        · intro _
          constructor
          · rw [hrb.2, hflatset, hflatC, hflatdec,
              eraseKey_append_of_notin hPnotin,
              eraseKey_append_of_mem (hiff.1 rfl)]
          · have hcb := wfi_count_bounds hrb.1
            exact wfi_retop hrb.1 (by omega) (by omega)

/-! ## Tree-level specifications -/

/-- `BTree.Set` on a well-formed tree: the flag reports replacement, the
contents become the insert-or-replace of the old contents, the stored
length is maintained, and the tree stays well-formed. -/
theorem btree_set_spec {V : Type} [Inhabited V] {tr : BTree V} (key : Int)
    (value : V) (hwf : BTree.wf tr = true) :
    BTree.wf (tr.set key value).2 = true ∧
    ((tr.set key value).1.2 = true ↔ key ∈ keysOf (BTree.flatten tr)) ∧
    (tr.set key value).1.1 = lookupKV key (BTree.flatten tr) ∧
    ((tr.set key value).1.2 = true →
      BTree.flatten (tr.set key value).2 = replaceV key value (BTree.flatten tr) ∧
      (tr.set key value).2.length = tr.length) ∧
    ((tr.set key value).1.2 = false →
      BTree.flatten (tr.set key value).2 = insortKV key value (BTree.flatten tr) ∧
      (tr.set key value).2.length = tr.length + 1) := by
  obtain ⟨ht, root?, tlen⟩ := tr
  cases root? with
  | none =>
    simp only [BTree.wf] at hwf
    simp only [Bool.and_eq_true, decide_eq_true_eq] at hwf
    simp only [BTree.set, BTree.flatten, BTree.wf]
    refine ⟨?_, by simp, by simp [lookupKV], ?_, ?_⟩
    · rw [hwf.1]
      simp only [Bool.and_eq_true, decide_eq_true_eq]
      constructor
      · rw [wfi_zero]
        simp only [Node.items_mk, Node.children_mk, Node.keys_eq, keysOf_cons,
          keysOf_nil]
        refine ⟨by trivial, by simp, by simp [maxItems], ?_⟩
        rw [sortedIn_cons]
        exact ⟨rfl, rfl, rfl⟩
      · trivial
    · intro hcontra
      cases hcontra
    · intro _
      rw [hwf.1]
      constructor
      · show Node.flatten 0 _ = _
        rfl
      · show 1 = tlen + 1
        omega
  | some root =>
    simp only [BTree.wf] at hwf
    simp only [Bool.and_eq_true, decide_eq_true_eq] at hwf
    obtain ⟨hwroot, hlen⟩ := hwf
    have hs := set_spec key value ht root 1 (maxItems - 1) none none hwroot
      (le_refl _) rfl rfl
    rcases hset : Node.set key value ht root with ⟨⟨prevR, repR⟩, root'⟩
    rw [hset] at hs
    simp only at hs
    obtain ⟨hiff, hprev, htrue, hfalse⟩ := hs
    simp only [BTree.set, hset, BTree.flatten]
    cases repR with
    | true =>
      obtain ⟨hw', hlen', hflat'⟩ := htrue rfl
      simp only [eq_self_iff_true, if_true, BTree.wf, BTree.flatten]
      refine ⟨?_, by simpa using hiff, hprev, ?_, ?_⟩
      · simp only [Bool.and_eq_true, decide_eq_true_eq]
        refine ⟨hw', ?_⟩
        rw [hflat', length_replaceV, hlen]
      · intro _
        exact ⟨hflat', by trivial⟩
      · intro hcontra
        cases hcontra
    | false =>
      obtain ⟨hw', hlen1, hlen2, hflat'⟩ := hfalse rfl
      have hmax : maxItems = 31 := rfl
      simp only [Bool.false_eq_true, if_false]
      by_cases hfull : root'.items.length = maxItems
      · rw [if_pos hfull]
        have hw'' : Node.wfi ht 1 maxItems none none root' = true := by
          have := hw'
          have h30 : maxItems - 1 + 1 = maxItems := by omega
          rwa [h30] at this
        have hsp := split_spec hw'' hfull
        rcases hsplit : root'.split ht with ⟨l, r, median⟩
        rw [hsplit] at hsp
        simp only at hsp
        obtain ⟨hspflat, hwl, hwr, hlbm, hubm, hlenl, hlenr⟩ := hsp
        simp only [BTree.wf, BTree.flatten]
        refine ⟨?_, by simpa using hiff, hprev, ?_, ?_⟩
        · simp only [Bool.and_eq_true, decide_eq_true_eq]
          constructor
          · rw [wfi_succ]
            simp only [Node.items_mk, Node.children_mk, Node.keys_eq, keysOf_cons,
              keysOf_nil]
            refine ⟨rfl, by simp, by simp [maxItems], ?_, ?_⟩
            · rw [sortedIn_cons]
              exact ⟨rfl, rfl, rfl⟩
            · simp only [chainCheck, Bool.and_eq_true]
              exact ⟨hwl, hwr⟩
          · show tlen + 1 = (glue _ [median] [l, r]).length
            have hg : glue (fun c => Node.flatten ht c) [median] [l, r] =
                Node.flatten ht l ++ median :: Node.flatten ht r := by
              simp [glue]
            rw [hg, ← hspflat, hflat', length_insortKV, hlen]
        · intro hcontra
          cases hcontra
        · intro _
          constructor
          · show glue _ [median] [l, r] = _
            have hg : glue (fun c => Node.flatten ht c) [median] [l, r] =
                Node.flatten ht l ++ median :: Node.flatten ht r := by
              simp [glue]
            rw [hg, ← hspflat, hflat']
          · trivial
      · rw [if_neg hfull]
        simp only [BTree.wf, BTree.flatten]
        refine ⟨?_, by simpa using hiff, hprev, ?_, ?_⟩
        · simp only [Bool.and_eq_true, decide_eq_true_eq]
          have hcb := wfi_count_bounds hw'
          constructor
          · exact wfi_retop hw' (by omega) (by omega)
          · rw [hflat', length_insortKV, hlen]
        · intro hcontra
          cases hcontra
        · intro _
          exact ⟨hflat', by trivial⟩

/-- `BTree.Get` on a well-formed tree reads the abstract association list. -/
theorem btree_get_spec {V : Type} {tr : BTree V} (key : Int)
    (hwf : BTree.wf tr = true) :
    (tr.get key).1 = lookupKV key (BTree.flatten tr) ∧
    ((tr.get key).2 = true ↔ key ∈ keysOf (BTree.flatten tr)) := by
  obtain ⟨ht, root?, tlen⟩ := tr
  cases root? with
  | none =>
    simp [BTree.get, BTree.flatten]
  | some root =>
    simp only [BTree.wf, Bool.and_eq_true, decide_eq_true_eq] at hwf
    exact get_spec key ht root 1 (maxItems - 1) none none hwf.1 rfl rfl

/-- `BTree.Delete` on a well-formed tree: the flag reports presence, an
absent key changes nothing, and a present key is erased with the length
counter kept consistent and well-formedness restored (including root
collapse). -/
theorem btree_delete_spec {V : Type} [Inhabited V] {tr : BTree V} (key : Int)
    (hwf : BTree.wf tr = true) :
    BTree.wf (tr.delete key).2 = true ∧
    ((tr.delete key).1.2 = true ↔ key ∈ keysOf (BTree.flatten tr)) ∧
    ((tr.delete key).1.2 = false → tr.delete key = ((none, false), tr)) ∧
    ((tr.delete key).1.2 = true →
      BTree.flatten (tr.delete key).2 = eraseKey key (BTree.flatten tr) ∧
      (tr.delete key).2.length + 1 = tr.length) := by
  obtain ⟨ht, root?, tlen⟩ := tr
  cases root? with
  | none =>
    simp only [BTree.delete, BTree.flatten]
    refine ⟨hwf, by simp, fun _ => by trivial, ?_⟩
    intro hcontra
    cases hcontra
  | some root =>
    simp only [BTree.wf, Bool.and_eq_true, decide_eq_true_eq] at hwf
    obtain ⟨hwroot, hlen⟩ := hwf
    have hmax : maxItems = 31 := rfl
    have hmin : minItems = 12 := rfl
    have hd := delete_spec key ht root 1 (maxItems - 1) none none hwroot
      (le_refl _) rfl rfl
    rcases hdel : Node.delete false key ht root with ⟨⟨prevR, delR⟩, root'⟩
    rw [hdel] at hd
    simp only at hd
    obtain ⟨hiff, hfalse, htrue⟩ := hd
    simp only [BTree.delete, hdel]
    cases delR with
    | false =>
      have h5 := hfalse rfl
      simp only [Prod.mk.injEq] at h5
      obtain ⟨-, hroot0⟩ := h5
      simp only [Bool.false_eq_true, if_false]
      refine ⟨?_, ?_, ?_, ?_⟩
      · rw [hroot0]
        simp only [BTree.wf, Bool.and_eq_true, decide_eq_true_eq]
        exact ⟨hwroot, hlen⟩
      · simpa [BTree.flatten] using hiff
      · intro _
        rw [hroot0]
      · intro hcontra
        cases hcontra
    | true =>
      obtain ⟨hflat', hw'⟩ := htrue rfl
      have hmem : key ∈ keysOf (Node.flatten ht root) := hiff.1 rfl
      have hmemitems : key ∈ keysOf ((Node.flatten ht root)) := hmem
      have hflen : (eraseKey key (Node.flatten ht root)).length + 1 =
          (Node.flatten ht root).length := length_eraseKey_of_mem hmem
      simp only [eq_self_iff_true, if_true]
      by_cases hzero : root'.items.length = 0
      · rw [if_pos hzero]
        cases ht with
        | zero =>
          -- the root was a leaf and is now empty: the tree resets
          have hw0 := hw'
          rw [wfi_zero] at hw0
          have hflatnil : Node.flatten 0 root' = [] := by
            show root'.items = []
            exact List.length_eq_zero.1 hzero
          have htl : tlen = (Node.flatten 0 root).length := hlen
          have hflen0 : (Node.flatten 0 root).length = 1 := by
            have he : eraseKey key (Node.flatten 0 root) = [] := by
              rw [← hflat', hflatnil]
            rw [he] at hflen
            simpa using hflen.symm
          have htlen1 : tlen = 1 := by omega
          have hif : tlen - 1 = 0 := by omega
          rw [hif]
          simp only [eq_self_iff_true, if_true]
          refine ⟨rfl, ?_, ?_, ?_⟩
          · exact iff_of_true (by trivial) hmem
          · intro hcontra
            cases hcontra
          · intro _
            constructor
            · show ([] : List (Item V)) = _
              rw [← hflatnil, hflat']
              rfl
            · show 0 + 1 = tlen
              omega
        | succ h =>
          -- the root has a single child left: drop one level
          have hw1 := hw'
          rw [wfi_succ] at hw1
          have hc1 : root'.children.length = 1 := by omega
          rcases hcs : root'.children with _ | ⟨c, rest⟩
          · rw [hcs] at hc1; simp at hc1
          · have hrest : rest = [] := by
              rw [hcs] at hc1
              simpa using hc1
            subst hrest
            have hck : root'.keys = [] := by
              rw [Node.keys_eq]
              have : root'.items = [] := List.length_eq_zero.1 hzero
              rw [this, keysOf_nil]
            have hchc := hw1.2.2.2.2
            rw [hck, hcs] at hchc
            have hwc : Node.wfi h minItems (maxItems - 1) none none c = true := by
              simpa [chainCheck] using hchc
            have hcflat : Node.flatten (h + 1) root' = Node.flatten h c := by
              show glue _ root'.items root'.children = _
              have hitnil : root'.items = [] := List.length_eq_zero.1 hzero
              rw [hitnil, hcs]
              show glue _ [] [c] = _
              rfl
            have hcbc := wfi_count_bounds hwc
            have hflatc_ne : Node.flatten h c ≠ [] :=
              flatten_ne_nil hwc (by omega)
            have hflatc_len : 0 < (Node.flatten h c).length :=
              List.length_pos.2 hflatc_ne
            have hlen2 : tlen - 1 = (Node.flatten h c).length := by
              have h6 : Node.flatten h c = eraseKey key (Node.flatten (h + 1) root) := by
                rw [← hcflat, hflat']
              rw [h6]
              omega
            simp only [List.head?_cons, Nat.add_sub_cancel]
            have hif2 : ¬ (tlen - 1 = 0) := by omega
            rw [if_neg hif2]
            refine ⟨?_, ?_, ?_, ?_⟩
            · simp only [BTree.wf, Bool.and_eq_true, decide_eq_true_eq]
              exact ⟨wfi_retop hwc (by omega) (by omega), hlen2⟩
            · exact iff_of_true (by trivial) hmem
            · intro hcontra
              cases hcontra
            · intro _
              constructor
              · show Node.flatten h c = _
                rw [← hcflat, hflat']
                rfl
              · show tlen - 1 + 1 = tlen
                have : 0 < tlen := by
                  rw [hlen]
                  omega
                omega
      · rw [if_neg hzero]
        have hcb := wfi_count_bounds hw'
        have hwr1 : Node.wfi ht 1 (maxItems - 1) none none root' = true :=
          wfi_retop hw' (by omega) (by omega)
        have hflatne : Node.flatten ht root' ≠ [] := flatten_ne_nil hwr1 (le_refl _)
        have hlen3 : tlen - 1 = (Node.flatten ht root').length := by
          rw [hflat']
          omega
        have hif3 : ¬ (tlen - 1 = 0) := by
          intro hc
          rw [hc] at hlen3
          exact hflatne (List.length_eq_zero.1 hlen3.symm)
        rw [if_neg hif3]
        refine ⟨?_, ?_, ?_, ?_⟩
        · simp only [BTree.wf, Bool.and_eq_true, decide_eq_true_eq]
          exact ⟨wfi_retop hw' (by omega) (by omega), hlen3⟩
        · exact iff_of_true (by trivial) hmem
        · intro hcontra
          cases hcontra
        · intro _
          refine ⟨hflat', ?_⟩
          show tlen - 1 + 1 = tlen
          have : 0 < tlen := by
            rw [hlen]
            omega
          omega

/-- Every tree reachable by public operations from the empty tree is
well-formed. -/
theorem reachable_wf {V : Type} [Inhabited V] {t : BTree V}
    (hr : Reachable t) : BTree.wf t = true := by
  induction hr with
  | empty => rfl
  | set key value hr ih => exact (btree_set_spec key value ih).1
  | del key hr ih => exact (btree_delete_spec key ih).1

/-! ## Traversal characterizations -/

lemma visitItems_append {V σ : Type} (f : σ → Int → V → σ × Bool) :
    ∀ (l₁ l₂ : List (Item V)) (s : σ),
      visitItems f (l₁ ++ l₂) s =
        (if (visitItems f l₁ s).2 then visitItems f l₂ (visitItems f l₁ s).1
         else visitItems f l₁ s)
  | [], l₂, s => by simp [visitItems]
  | it :: l₁, l₂, s => by
    rw [List.cons_append]
    show (match f s it.key it.value with
      | (s', true) => visitItems f (l₁ ++ l₂) s'
      | (s', false) => (s', false)) = _
    rcases hf : f s it.key it.value with ⟨s', b⟩
    cases b with
    | true =>
      simp only [visitItems, hf]
      exact visitItems_append f l₁ l₂ s'
    | false =>
      simp [visitItems, hf]

lemma scanWalk_glue {V σ : Type} {f : σ → Int → V → σ × Bool}
    {g : Node V → σ → σ × Bool} {fl : Node V → List (Item V)}
    (hg : ∀ c s, g c s = visitItems f (fl c) s) :
    ∀ (its : List (Item V)) (cs : List (Node V)) (s : σ),
      scanWalk g f its cs s = visitItems f (glue fl its cs) s
  | [], [], s => by simp [scanWalk, glue, visitItems]
  | [], c :: cs, s => by
    show g c s = visitItems f (fl c) s
    exact hg c s
  | it :: its, [], s => by
    simp [scanWalk, glue, visitItems]
  | it :: its, c :: cs, s => by
    show (match g c s with
      | (s₁, false) => (s₁, false)
      | (s₁, true) =>
        match f s₁ it.key it.value with
        | (s₂, false) => (s₂, false)
        | (s₂, true) => scanWalk g f its cs s₂) = _
    rw [show glue fl (it :: its) (c :: cs) = fl c ++ it :: glue fl its cs from rfl]
    rw [visitItems_append, hg]
    rcases hc : visitItems f (fl c) s with ⟨s₁, b₁⟩
    cases b₁ with
    | false => simp
    | true =>
      simp only [if_true]
      show (match f s₁ it.key it.value with
        | (s₂, false) => (s₂, false)
        | (s₂, true) => scanWalk g f its cs s₂) = _
      rcases hf : f s₁ it.key it.value with ⟨s₂, b₂⟩
      cases b₂ with
      | false => simp [visitItems, hf]
      | true =>
        simp only [visitItems, hf]
        exact scanWalk_glue hg its cs s₂

/-- `node.scan` visits exactly the in-order flattening. -/
theorem scan_flatten {V σ : Type} (f : σ → Int → V → σ × Bool) :
    ∀ (h : Nat) (n : Node V) (s : σ),
      Node.scan f h n s = visitItems f (Node.flatten h n) s
  | 0, n, s => rfl
  | h + 1, n, s => by
    show scanWalk _ f n.items n.children s = _
    exact scanWalk_glue (fun c s' => scan_flatten f h c s') n.items n.children s

lemma gluePre_append {V : Type} (f : Node V → List (Item V)) :
    ∀ {its₁ : List (Item V)} {cs₁ : List (Node V)}
      (its₂ : List (Item V)) (cs₂ : List (Node V)),
      its₁.length = cs₁.length →
      gluePre f (its₁ ++ its₂) (cs₁ ++ cs₂) =
        gluePre f its₁ cs₁ ++ gluePre f its₂ cs₂
  | [], [], its₂, cs₂, _ => by simp [gluePre]
  | it :: its₁, c :: cs₁, its₂, cs₂, h => by
    simp only [List.cons_append, gluePre, List.append_assoc, List.cons_append,
      List.append_eq]
    rw [gluePre_append f its₂ cs₂ (by simpa using h)]
  | [], c :: cs₁, its₂, cs₂, h => by simp at h
  | it :: its₁, [], its₂, cs₂, h => by simp at h

lemma chainCheck_mem {V : Type} {f : Option Int → Option Int → Node V → Bool} :
    ∀ {ks : List Int} {cs : List (Node V)} {lo hi : Option Int},
      chainCheck f lo hi ks cs = true →
      ∀ c ∈ cs, ∃ lo' hi', f lo' hi' c = true := by
  intro ks
  induction ks with
  | nil =>
    intro cs lo hi hc c hmem
    match cs, hc, hmem with
    | [c'], hc, hmem =>
      have : c = c' := by simpa using hmem
      subst this
      exact ⟨lo, hi, by simpa [chainCheck] using hc⟩
  | cons k ks ih =>
    intro cs lo hi hc c hmem
    match cs, hc, hmem with
    | c' :: cs', hc, hmem =>
      simp only [chainCheck, Bool.and_eq_true] at hc
      rcases List.mem_cons.1 hmem with he | hm
      · subst he
        exact ⟨lo, some k, hc.1⟩
      · exact ih hc.2 c hm

lemma revWalk_spec {V σ : Type} {f : σ → Int → V → σ × Bool}
    {g : Node V → σ → σ × Bool} {fl : Node V → List (Item V)} :
    ∀ (itsR : List (Item V)) (csR : List (Node V)) (s : σ),
      itsR.length = csR.length →
      (∀ c ∈ csR, ∀ s', g c s' = visitItems f (fl c).reverse s') →
      revWalk g f itsR csR s =
        visitItems f (gluePre fl itsR.reverse csR.reverse).reverse s
  | [], csR, s, hlen, hg => by
    have : csR = [] := by
      rcases csR with _ | _
      · rfl
      · simp at hlen
    subst this
    simp [revWalk, gluePre, visitItems]
  | it :: itsR, [], s, hlen, hg => by simp at hlen
  | it :: itsR, c :: csR, s, hlen, hg => by
    have hdec : gluePre fl ((it :: itsR).reverse) ((c :: csR).reverse) =
        gluePre fl itsR.reverse csR.reverse ++ (fl c ++ [it]) := by
      rw [List.reverse_cons, List.reverse_cons,
        gluePre_append fl _ _ (by
          have h2 := hlen
          simp only [List.length_cons] at h2
          simp only [List.length_reverse]
          omega)]
      simp [gluePre]
    rw [hdec]
    show (match f s it.key it.value with
      | (s₁, false) => (s₁, false)
      | (s₁, true) =>
        match g c s₁ with
        | (s₂, false) => (s₂, false)
        | (s₂, true) => revWalk g f itsR csR s₂) = _
    rw [List.reverse_append]
    rcases hf : f s it.key it.value with ⟨s₁, b₁⟩
    cases b₁ with
    | false =>
      simp [visitItems, hf]
    | true =>
      have hshape : ((fl c ++ [it]).reverse ++
          (gluePre fl itsR.reverse csR.reverse).reverse) =
          it :: ((fl c).reverse ++ (gluePre fl itsR.reverse csR.reverse).reverse) := by
        simp
      rw [hshape]
      simp only [visitItems, hf]
      rw [visitItems_append, ← hg c (List.mem_cons_self c csR) s₁]
      rcases hc : g c s₁ with ⟨s₂, b₂⟩
      cases b₂ with
      | false => simp
      | true =>
        simp only [if_true]
        exact revWalk_spec itsR csR s₂ (by simpa using hlen)
          (fun c' hc' s' => hg c' (List.mem_cons_of_mem c hc') s')

/-- `node.reverse` on a well-formed subtree visits the reversed flattening. -/
theorem reverse_flatten {V σ : Type} (f : σ → Int → V → σ × Bool) :
    ∀ (h : Nat) (n : Node V) {mn mx : Nat} {lo hi : Option Int},
      Node.wfi h mn mx lo hi n = true →
      ∀ s : σ, Node.reverse f h n s = visitItems f (Node.flatten h n).reverse s
  | 0, n, mn, mx, lo, hi, hw, s => rfl
  | h + 1, n, mn, mx, lo, hi, hw, s => by
    rw [wfi_succ] at hw
    have hmemw : ∀ c' ∈ n.children, ∀ s' : σ,
        Node.reverse f h c' s' = visitItems f (Node.flatten h c').reverse s' := by
      intro c' hc' s'
      obtain ⟨lo', hi', hw'⟩ := chainCheck_mem hw.2.2.2.2 c' hc'
      exact reverse_flatten f h c' hw' s'
    rcases hrev : n.children.reverse with _ | ⟨c, csR⟩
    · have : n.children = [] := by
        rw [← List.reverse_reverse n.children, hrev]
        rfl
      rw [this] at hw
      simp at hw
    · have hcs : n.children = csR.reverse ++ [c] := by
        rw [← List.reverse_reverse n.children, hrev, List.reverse_cons]
      have hlenR : csR.length = n.items.length := by
        have h1 := hw.1
        rw [hcs] at h1
        simp at h1
        omega
      have hcmem : c ∈ n.children := by
        rw [hcs]
        simp
      have hfl : Node.flatten (h + 1) n =
          gluePre (fun c' => Node.flatten h c') n.items csR.reverse ++
            Node.flatten h c := by
        show glue _ n.items n.children = _
        conv_lhs => rw [hcs, ← List.append_nil n.items]
        rw [glue_append _ _ _ (by simp [hlenR])]
        rw [show glue (fun c' => Node.flatten h c') [] [c] =
          Node.flatten h c from rfl]
      simp only [Node.reverse, hrev]
      rw [hfl, List.reverse_append, visitItems_append,
        ← hmemw c hcmem s]
      rcases hc : Node.reverse f h c s with ⟨s₁, b₁⟩
      cases b₁ with
      | false => simp
      | true =>
        simp only [if_true]
        rw [revWalk_spec n.items.reverse csR s₁ (by simpa using hlenR.symm)
          (fun c' hc' s' => hmemw c' (by
            rw [hcs]
            exact List.mem_append_left _ (by simpa using List.mem_reverse.2 hc')) s')]
        rw [List.reverse_reverse]

lemma ascendWalk_spec {V σ : Type} {f : σ → Int → V → σ × Bool}
    {g : Node V → σ → σ × Bool} {fl : Node V → List (Item V)} :
    ∀ (its : List (Item V)) (cs : List (Node V)) (s : σ),
      cs.length = its.length →
      (∀ c ∈ cs, ∀ s', g c s' = visitItems f (fl c) s') →
      ascendWalk g f its cs s = visitItems f (glueRest fl its cs) s
  | [], cs, s, hlen, hg => by simp [ascendWalk, glueRest, visitItems]
  | it :: its, [], s, hlen, hg => by simp at hlen
  | it :: its, c :: cs, s, hlen, hg => by
    rw [show glueRest fl (it :: its) (c :: cs) =
      it :: (fl c ++ glueRest fl its cs) from by rw [glueRest, glue_cons]]
    show (match f s it.key it.value with
      | (s₁, false) => (s₁, false)
      | (s₁, true) =>
        match g c s₁ with
        | (s₂, false) => (s₂, false)
        | (s₂, true) => ascendWalk g f its cs s₂) = _
    rcases hf : f s it.key it.value with ⟨s₁, b₁⟩
    cases b₁ with
    | false => simp [visitItems, hf]
    | true =>
      simp only [visitItems, hf]
      rw [visitItems_append, ← hg c (List.mem_cons_self c cs) s₁]
      rcases hc : g c s₁ with ⟨s₂, b₂⟩
      cases b₂ with
      | false => simp
      | true =>
        simp only [if_true]
        exact ascendWalk_spec its cs s₂ (by simpa using hlen)
          (fun c' hc' s' => hg c' (List.mem_cons_of_mem c hc') s')

lemma keysOf_mem_of_mem {V : Type} {l : List (Item V)} {it : Item V}
    (h : it ∈ l) : it.key ∈ keysOf l := by
  simp only [keysOf]
  exact List.mem_map_of_mem _ h

lemma drop_eq_filter_le {V : Type} {pivot : Int} :
    ∀ {l : List (Item V)} {i : Nat}, i ≤ l.length →
      (∀ j (hj : j < l.length), j < i → l[j].key < pivot) →
      (∀ j (hj : j < l.length), i ≤ j → pivot ≤ l[j].key) →
      l.drop i = l.filter (fun it => decide (pivot ≤ it.key)) := by
  intro l i hile hbefore hafter
  conv_rhs => rw [← List.take_append_drop i l]
  rw [List.filter_append]
  have h1 : (l.take i).filter (fun it => decide (pivot ≤ it.key)) = [] := by
    rw [List.filter_eq_nil_iff]
    intro it hit
    rcases List.mem_iff_getElem.1 hit with ⟨j, hj, hval⟩
    have hjl : j < l.length := by
      have := hj
      rw [List.length_take] at this
      omega
    have hji : j < i := by
      have := hj
      rw [List.length_take] at this
      omega
    have : l[j] = it := by rw [← hval, List.getElem_take]
    have hk := hbefore j hjl hji
    rw [this] at hk
    simp
    omega
  have h2 : (l.drop i).filter (fun it => decide (pivot ≤ it.key)) = l.drop i := by
    rw [List.filter_eq_self]
    intro it hit
    rcases List.mem_iff_getElem.1 hit with ⟨j, hj, hval⟩
    have hjl : i + j < l.length := by
      have := hj
      rw [List.length_drop] at this
      omega
    have : l[i + j] = it := by rw [← hval, List.getElem_drop]
    have hk := hafter (i + j) hjl (by omega)
    rw [this] at hk
    simpa using hk
  rw [h1, h2, List.nil_append]

lemma take_eq_filter_le {V : Type} {pivot : Int} :
    ∀ {l : List (Item V)} {i : Nat}, i ≤ l.length →
      (∀ j (hj : j < l.length), j < i → l[j].key ≤ pivot) →
      (∀ j (hj : j < l.length), i ≤ j → pivot < l[j].key) →
      l.take i = l.filter (fun it => decide (it.key ≤ pivot)) := by
  intro l i hile hbefore hafter
  conv_rhs => rw [← List.take_append_drop i l]
  rw [List.filter_append]
  have h1 : (l.take i).filter (fun it => decide (it.key ≤ pivot)) = l.take i := by
    rw [List.filter_eq_self]
    intro it hit
    rcases List.mem_iff_getElem.1 hit with ⟨j, hj, hval⟩
    have hjl : j < l.length := by
      have := hj
      rw [List.length_take] at this
      omega
    have hji : j < i := by
      have := hj
      rw [List.length_take] at this
      omega
    have : l[j] = it := by rw [← hval, List.getElem_take]
    have hk := hbefore j hjl hji
    rw [this] at hk
    simpa using hk
  have h2 : (l.drop i).filter (fun it => decide (it.key ≤ pivot)) = [] := by
    rw [List.filter_eq_nil_iff]
    intro it hit
    rcases List.mem_iff_getElem.1 hit with ⟨j, hj, hval⟩
    have hjl : i + j < l.length := by
      have := hj
      rw [List.length_drop] at this
      omega
    have : l[i + j] = it := by rw [← hval, List.getElem_drop]
    have hk := hafter (i + j) hjl (by omega)
    rw [this] at hk
    simp
    omega
  rw [h1, h2, List.append_nil]

lemma pairwise_keys_lt {V : Type} {l : List (Item V)}
    (hp : (keysOf l).Pairwise (· < ·)) {i j : Nat} (hi : i < l.length)
    (hj : j < l.length) (hij : i < j) :
    (l.get ⟨i, hi⟩).key < (l.get ⟨j, hj⟩).key := by
  have := List.pairwise_iff_getElem.1 hp i j (by rw [keysOf_length]; omega)
    (by rw [keysOf_length]; omega) hij
  simpa [keysOf] using this

lemma getD_keysOf_eq {V : Type} {l : List (Item V)} {j : Nat}
    (hj : j < l.length) : (keysOf l).getD j 0 = (l.get ⟨j, hj⟩).key := by
  rw [List.getD_eq_getElem _ _ (by rw [keysOf_length]; exact hj)]
  simp [keysOf]

/-- `node.ascend` on a well-formed subtree visits exactly the items with
key at least the pivot, in order. -/
theorem ascend_flatten {V σ : Type} (pivot : Int) (f : σ → Int → V → σ × Bool) :
    ∀ (h : Nat) (n : Node V) {mn mx : Nat} {lo hi : Option Int},
      Node.wfi h mn mx lo hi n = true →
      lbLt lo pivot = true → ubGt hi pivot = true →
      ∀ s : σ, Node.ascend pivot f h n s =
        visitItems f ((Node.flatten h n).filter
          (fun it => decide (pivot ≤ it.key))) s := by
  intro h
  induction h with
  | zero =>
    intro n mn mx lo hi hw hlo hhi s
    obtain ⟨its, cs⟩ := n
    rw [wfi_zero] at hw
    simp only [Node.items_mk, Node.children_mk, Node.keys_eq] at hw
    obtain ⟨hcs0, hmn', hmx', hsort⟩ := hw
    have hp : (keysOf its).Pairwise (· < ·) := sortedIn_pairwise hsort
    have hkl : (keysOf its).length = its.length := keysOf_length
    by_cases hmem : pivot ∈ keysOf its
    · obtain ⟨hfind, hrpos, hrlen, hgd⟩ :=
        find_eq_of_mem (n := Node.mk its cs) (by simpa using hp) (by simpa using hmem)
      rw [Node.keys_eq] at hfind hrlen hgd
      simp only [Node.items_mk] at hfind hrlen hgd
      have hIlen : rank (keysOf its) pivot - 1 < its.length := by omega
      have hitskey : its[rank (keysOf its) pivot - 1].key = pivot := by
        rw [getD_keysOf_eq hIlen] at hgd
        simpa using hgd
      have hbef : ∀ j (hj : j < its.length), j < rank (keysOf its) pivot - 1 →
          its[j].key < pivot := by
        intro j hj hji
        have h1 := pairwise_keys_lt hp hj hIlen hji
        simp only [List.get_eq_getElem] at h1
        omega
      have haft : ∀ j (hj : j < its.length), rank (keysOf its) pivot - 1 ≤ j →
          pivot ≤ its[j].key := by
        intro j hj hge
        rcases Nat.eq_or_lt_of_le hge with he | hlt
        · subst he
          exact le_of_eq hitskey.symm
        · have h1 := pairwise_keys_lt hp hIlen hj hlt
          simp only [List.get_eq_getElem] at h1
          omega
      simp only [Node.ascend, hfind, Node.items_mk]
      show visitItems f (its.drop _) s =
        visitItems f ((Node.flatten 0 (Node.mk its cs)).filter _) s
      rw [drop_eq_filter_le (by omega) hbef haft]
      rfl
    · have hfind : Node.find (Node.mk its cs) pivot = (rank (keysOf its) pivot, false) :=
        find_eq_rank_of_notin (by simpa using hp) (by simpa using hmem)
      have hple : (keysOf its).Pairwise (· ≤ ·) := hp.imp le_of_lt
      have hIle : rank (keysOf its) pivot ≤ its.length := by
        have := @rank_le_length (keysOf its) pivot; omega
      have hbef : ∀ j (hj : j < its.length), j < rank (keysOf its) pivot →
          its[j].key < pivot := by
        intro j hj hji
        have h1 := rank_spec_le hple (show j < (keysOf its).length by omega) hji
        have h2 : (keysOf its).getD j 0 = its[j].key := getD_keysOf_eq hj
        rw [List.getD_eq_getElem _ _ (by omega)] at h2
        rw [h2] at h1
        rcases lt_or_eq_of_le h1 with hlt | he
        · exact hlt
        · exfalso
          apply hmem
          rw [← he]
          apply keysOf_mem_of_mem
          exact List.getElem_mem hj
      have haft : ∀ j (hj : j < its.length), rank (keysOf its) pivot ≤ j →
          pivot ≤ its[j].key := by
        intro j hj hge
        have h1 := rank_spec_gt hple (show j < (keysOf its).length by omega) hge
        have h2 : (keysOf its).getD j 0 = its[j].key := getD_keysOf_eq hj
        rw [List.getD_eq_getElem _ _ (by omega)] at h2
        rw [h2] at h1
        omega
      simp only [Node.ascend, hfind, Node.items_mk]
      show visitItems f (its.drop _) s =
        visitItems f ((Node.flatten 0 (Node.mk its cs)).filter _) s
      rw [drop_eq_filter_le (by omega) hbef haft]
      rfl
  | succ h ih =>
    intro n mn mx lo hi hw hlo hhi s
    obtain ⟨its, cs⟩ := n
    rw [wfi_succ] at hw
    simp only [Node.items_mk, Node.children_mk, Node.keys_eq] at hw
    obtain ⟨hclen, hmn', hmx', hsort, hcheck⟩ := hw
    have hp : (keysOf its).Pairwise (· < ·) := sortedIn_pairwise hsort
    have hkl : (keysOf its).length = its.length := keysOf_length
    have hfg : ∀ (lo' hi' : Option Int) (c : Node V),
        Node.wfi h minItems (maxItems - 1) lo' hi' c = true →
        sortedIn lo' hi' (keysOf ((fun c => Node.flatten h c) c)) = true :=
      fun lo' hi' c hc => wfi_flatten_sortedIn h hc
    by_cases hmem : pivot ∈ keysOf its
    · obtain ⟨hfind, hrpos, hrlen, hgd⟩ :=
        find_eq_of_mem (n := Node.mk its cs) (by simpa using hp) (by simpa using hmem)
      rw [Node.keys_eq] at hfind hrlen hgd
      simp only [Node.items_mk] at hfind hrlen hgd
      set I := rank (keysOf its) pivot - 1 with hIdef
      have hIlen : I < its.length := by omega
      have hIc : I < cs.length := by omega
      have hIle : I ≤ its.length := by omega
      have hgdI : cs.getD I ⟨[], []⟩ = cs[I] := List.getD_eq_getElem _ _ hIc
      have hcw := (chainCheck_iff (by rw [hclen, hkl])).1 hcheck I hIc
      have hhiI : hiAt hi (keysOf its) I = some pivot := by
        rw [hiAt_of_lt (by omega), hgd]
      have hflatdec : Node.flatten (h + 1) (Node.mk its cs) =
          gluePre (fun c => Node.flatten h c) (its.take I) (cs.take I) ++
            (Node.flatten h cs[I] ++ glueRest (fun c => Node.flatten h c)
              (its.drop I) (cs.drop (I + 1))) := by
        show glue _ its cs = _
        rw [glue_decomp _ hclen hIle, hgdI]
      have hlbI : lbLt (loAt lo (keysOf its) I) pivot = true := by
        have := (sortedIn_getElem_bounds hsort (show I < (keysOf its).length by omega)).1
        rwa [hgd] at this
      have hfilterP : (gluePre (fun c => Node.flatten h c) (its.take I)
          (cs.take I)).filter (fun it => decide (pivot ≤ it.key)) = [] := by
        rw [List.filter_eq_nil_iff]
        intro it hit
        have hx := gluePre_below hfg I hIle hsort hcheck it.key
          (keysOf_mem_of_mem hit) pivot hlbI
        simp
        omega
      have hcwI : Node.wfi h minItems (maxItems - 1) (loAt lo (keysOf its) I)
          (some pivot) cs[I] = true := by
        rwa [hhiI] at hcw
      have hFs := wfi_flatten_sortedIn h hcwI
      have hfilterF : (Node.flatten h cs[I]).filter
          (fun it => decide (pivot ≤ it.key)) = [] := by
        rw [List.filter_eq_nil_iff]
        intro it hit
        have hx := sortedIn_mem_ub hFs (keysOf_mem_of_mem hit)
        simp only [ubGt_some] at hx
        simp
        omega
      have hfilterR : (glueRest (fun c => Node.flatten h c) (its.drop I)
          (cs.drop (I + 1))).filter (fun it => decide (pivot ≤ it.key)) =
          glueRest (fun c => Node.flatten h c) (its.drop I) (cs.drop (I + 1)) := by
        rw [List.filter_eq_self]
        intro it hit
        have hx := glueRest_above hfg I hsort hcheck it.key
          (keysOf_mem_of_mem hit) (pivot - 1) (by rw [hhiI]; simp)
        simp
        omega
      simp only [Node.ascend, hfind, Node.items_mk, Node.children_mk,
        eq_self_iff_true, if_true]
      rw [hflatdec, List.filter_append, List.filter_append, hfilterP, hfilterF,
        hfilterR, List.nil_append, List.nil_append]
      exact ascendWalk_spec _ _ s (by simp; omega)
        (fun c hc s' => scan_flatten f h c s')
    · have hfind : Node.find (Node.mk its cs) pivot = (rank (keysOf its) pivot, false) :=
        find_eq_rank_of_notin (by simpa using hp) (by simpa using hmem)
      set I := rank (keysOf its) pivot with hIdef
      have hIle : I ≤ its.length := by
        have := @rank_le_length (keysOf its) pivot; omega
      have hIc : I < cs.length := by omega
      have hgdI : cs.getD I ⟨[], []⟩ = cs[I] := List.getD_eq_getElem _ _ hIc
      have hcw := (chainCheck_iff (by rw [hclen, hkl])).1 hcheck I hIc
      have hb := rank_bounds hsort hlo hhi hmem
      have ihc := ih cs[I] hcw hb.1 hb.2 s
      have hflatdec : Node.flatten (h + 1) (Node.mk its cs) =
          gluePre (fun c => Node.flatten h c) (its.take I) (cs.take I) ++
            (Node.flatten h cs[I] ++ glueRest (fun c => Node.flatten h c)
              (its.drop I) (cs.drop (I + 1))) := by
        show glue _ its cs = _
        rw [glue_decomp _ hclen hIle, hgdI]
      have hfilterP : (gluePre (fun c => Node.flatten h c) (its.take I)
          (cs.take I)).filter (fun it => decide (pivot ≤ it.key)) = [] := by
        rw [List.filter_eq_nil_iff]
        intro it hit
        have hx := gluePre_below hfg I hIle hsort hcheck it.key
          (keysOf_mem_of_mem hit) pivot hb.1
        simp
        omega
      have hfilterR : (glueRest (fun c => Node.flatten h c) (its.drop I)
          (cs.drop (I + 1))).filter (fun it => decide (pivot ≤ it.key)) =
          glueRest (fun c => Node.flatten h c) (its.drop I) (cs.drop (I + 1)) := by
        rw [List.filter_eq_self]
        intro it hit
        have hx := glueRest_above hfg I hsort hcheck it.key
          (keysOf_mem_of_mem hit) pivot hb.2
        simp
        omega
      simp only [Node.ascend, hfind, Node.items_mk, Node.children_mk,
        Bool.false_eq_true, if_false, hgdI, ihc]
      rw [hflatdec, List.filter_append, List.filter_append, hfilterP, hfilterR,
        List.nil_append]
      rw [visitItems_append]
      rcases hres : visitItems f ((Node.flatten h cs[I]).filter
          (fun it => decide (pivot ≤ it.key))) s with ⟨s₁, b₁⟩
      cases b₁ with
      | false => simp
      | true =>
        simp only [if_true]
        exact ascendWalk_spec _ _ s₁ (by simp; omega)
          (fun c hc s' => scan_flatten f h c s')

lemma descendWalk_spec {V σ : Type} {f : σ → Int → V → σ × Bool}
    {g : Node V → σ → σ × Bool} {fl : Node V → List (Item V)} :
    ∀ (itsR : List (Item V)) (csR : List (Node V)) (s : σ),
      itsR.length = csR.length →
      (∀ c ∈ csR, ∀ s', g c s' = visitItems f (fl c).reverse s') →
      descendWalk g f itsR csR s =
        visitItems f (gluePre fl itsR.reverse csR.reverse).reverse s
  | [], csR, s, hlen, hg => by
    have : csR = [] := by
      rcases csR with _ | _
      · rfl
      · simp at hlen
    subst this
    simp [descendWalk, gluePre, visitItems]
  | it :: itsR, [], s, hlen, hg => by simp at hlen
  | it :: itsR, c :: csR, s, hlen, hg => by
    have hdec : gluePre fl ((it :: itsR).reverse) ((c :: csR).reverse) =
        gluePre fl itsR.reverse csR.reverse ++ (fl c ++ [it]) := by
      rw [List.reverse_cons, List.reverse_cons,
        gluePre_append fl _ _ (by
          have h2 := hlen
          simp only [List.length_cons] at h2
          simp only [List.length_reverse]
          omega)]
      simp [gluePre]
    rw [hdec]
    show (match f s it.key it.value with
      | (s₁, false) => (s₁, false)
      | (s₁, true) =>
        match g c s₁ with
        | (s₂, false) => (s₂, false)
        | (s₂, true) => descendWalk g f itsR csR s₂) = _
    rw [List.reverse_append]
    rcases hf : f s it.key it.value with ⟨s₁, b₁⟩
    cases b₁ with
    | false =>
      simp [visitItems, hf]
    | true =>
      have hshape : ((fl c ++ [it]).reverse ++
          (gluePre fl itsR.reverse csR.reverse).reverse) =
          it :: ((fl c).reverse ++ (gluePre fl itsR.reverse csR.reverse).reverse) := by
        simp
      rw [hshape]
      simp only [visitItems, hf]
      rw [visitItems_append, ← hg c (List.mem_cons_self c csR) s₁]
      rcases hc : g c s₁ with ⟨s₂, b₂⟩
      cases b₂ with
      | false => simp
      | true =>
        simp only [if_true]
        exact descendWalk_spec itsR csR s₂ (by simpa using hlen)
          (fun c' hc' s' => hg c' (List.mem_cons_of_mem c hc') s')

/-- `node.descend` on a well-formed subtree visits exactly the items with
key at most the pivot, in reverse order. -/
theorem descend_flatten {V σ : Type} (pivot : Int) (f : σ → Int → V → σ × Bool) :
    ∀ (h : Nat) (n : Node V) {mn mx : Nat} {lo hi : Option Int},
      Node.wfi h mn mx lo hi n = true →
      lbLt lo pivot = true → ubGt hi pivot = true →
      ∀ s : σ, Node.descend pivot f h n s =
        visitItems f (((Node.flatten h n).filter
          (fun it => decide (it.key ≤ pivot))).reverse) s := by
  intro h
  induction h with
  | zero =>
    intro n mn mx lo hi hw hlo hhi s
    obtain ⟨its, cs⟩ := n
    rw [wfi_zero] at hw
    simp only [Node.items_mk, Node.children_mk, Node.keys_eq] at hw
    obtain ⟨hcs0, hmn', hmx', hsort⟩ := hw
    have hp : (keysOf its).Pairwise (· < ·) := sortedIn_pairwise hsort
    have hkl : (keysOf its).length = its.length := keysOf_length
    by_cases hmem : pivot ∈ keysOf its
    · obtain ⟨hfind, hrpos, hrlen, hgd⟩ :=
        find_eq_of_mem (n := Node.mk its cs) (by simpa using hp) (by simpa using hmem)
      rw [Node.keys_eq] at hfind hrlen hgd
      simp only [Node.items_mk] at hfind hrlen hgd
      have hIlen : rank (keysOf its) pivot - 1 < its.length := by omega
      have hitskey : its[rank (keysOf its) pivot - 1].key = pivot := by
        rw [getD_keysOf_eq hIlen] at hgd
        simpa using hgd
      have hbef : ∀ j (hj : j < its.length), j < rank (keysOf its) pivot - 1 + 1 →
          its[j].key ≤ pivot := by
        intro j hj hji
        rcases Nat.lt_or_ge j (rank (keysOf its) pivot - 1) with hlt | hge
        · have h1 := pairwise_keys_lt hp hj hIlen hlt
          simp only [List.get_eq_getElem] at h1
          omega
        · have he : j = rank (keysOf its) pivot - 1 := by omega
          subst he
          exact le_of_eq hitskey
      have haft : ∀ j (hj : j < its.length), rank (keysOf its) pivot - 1 + 1 ≤ j →
          pivot < its[j].key := by
        intro j hj hge
        have h1 := pairwise_keys_lt hp hIlen hj (by omega)
        simp only [List.get_eq_getElem] at h1
        omega
      simp only [Node.descend, hfind, Node.items_mk, eq_self_iff_true, if_true]
      show visitItems f (its.take _).reverse s =
        visitItems f (((Node.flatten 0 (Node.mk its cs)).filter _).reverse) s
      rw [take_eq_filter_le (by omega) hbef haft]
      rfl
    · have hfind : Node.find (Node.mk its cs) pivot = (rank (keysOf its) pivot, false) :=
        find_eq_rank_of_notin (by simpa using hp) (by simpa using hmem)
      have hple : (keysOf its).Pairwise (· ≤ ·) := hp.imp le_of_lt
      have hIle : rank (keysOf its) pivot ≤ its.length := by
        have := @rank_le_length (keysOf its) pivot; omega
      have hbef : ∀ j (hj : j < its.length), j < rank (keysOf its) pivot →
          its[j].key ≤ pivot := by
        intro j hj hji
        have h1 := rank_spec_le hple (show j < (keysOf its).length by omega) hji
        have h2 : (keysOf its).getD j 0 = its[j].key := getD_keysOf_eq hj
        rw [List.getD_eq_getElem _ _ (by omega)] at h2
        rw [h2] at h1
        exact h1
      have haft : ∀ j (hj : j < its.length), rank (keysOf its) pivot ≤ j →
          pivot < its[j].key := by
        intro j hj hge
        have h1 := rank_spec_gt hple (show j < (keysOf its).length by omega) hge
        have h2 : (keysOf its).getD j 0 = its[j].key := getD_keysOf_eq hj
        rw [List.getD_eq_getElem _ _ (by omega)] at h2
        rw [h2] at h1
        exact h1
      simp only [Node.descend, hfind, Node.items_mk, Bool.false_eq_true, if_false]
      show visitItems f (its.take _).reverse s =
        visitItems f (((Node.flatten 0 (Node.mk its cs)).filter _).reverse) s
      rw [take_eq_filter_le (by omega) hbef haft]
      rfl
  | succ h ih =>
    intro n mn mx lo hi hw hlo hhi s
    obtain ⟨its, cs⟩ := n
    rw [wfi_succ] at hw
    simp only [Node.items_mk, Node.children_mk, Node.keys_eq] at hw
    obtain ⟨hclen, hmn', hmx', hsort, hcheck⟩ := hw
    have hp : (keysOf its).Pairwise (· < ·) := sortedIn_pairwise hsort
    have hkl : (keysOf its).length = its.length := keysOf_length
    have hfg : ∀ (lo' hi' : Option Int) (c : Node V),
        Node.wfi h minItems (maxItems - 1) lo' hi' c = true →
        sortedIn lo' hi' (keysOf ((fun c => Node.flatten h c) c)) = true :=
      fun lo' hi' c hc => wfi_flatten_sortedIn h hc
    have hmemw : ∀ c' ∈ cs, ∀ s' : σ,
        Node.reverse f h c' s' = visitItems f (Node.flatten h c').reverse s' := by
      intro c' hc' s'
      obtain ⟨lo', hi', hw'⟩ := chainCheck_mem hcheck c' hc'
      exact reverse_flatten f h c' hw' s'
    by_cases hmem : pivot ∈ keysOf its
    · obtain ⟨hfind, hrpos, hrlen, hgd⟩ :=
        find_eq_of_mem (n := Node.mk its cs) (by simpa using hp) (by simpa using hmem)
      rw [Node.keys_eq] at hfind hrlen hgd
      simp only [Node.items_mk] at hfind hrlen hgd
      set I := rank (keysOf its) pivot - 1 with hIdef
      have hIlen : I < its.length := by omega
      have hcnt : I + 1 ≤ its.length := by omega
      have hcntc : I + 1 < cs.length := by omega
      have hitskey : its[I].key = pivot := by
        rw [getD_keysOf_eq hIlen] at hgd
        simpa using hgd
      have hloAtcnt : loAt lo (keysOf its) (I + 1) = some pivot := by
        rw [loAt_succ, hgd]
      have hsplit : Node.flatten (h + 1) (Node.mk its cs) =
          gluePre (fun c => Node.flatten h c) (its.take (I + 1)) (cs.take (I + 1)) ++
            glue (fun c => Node.flatten h c) (its.drop (I + 1)) (cs.drop (I + 1)) := by
        show glue _ its cs = _
        conv_lhs => rw [← List.take_append_drop (I + 1) its,
          ← List.take_append_drop (I + 1) cs]
        rw [glue_append _ _ _ (by rw [List.length_take, List.length_take]; omega)]
      have hfilterP : (gluePre (fun c => Node.flatten h c) (its.take (I + 1))
          (cs.take (I + 1))).filter (fun it => decide (it.key ≤ pivot)) =
          gluePre (fun c => Node.flatten h c) (its.take (I + 1)) (cs.take (I + 1)) := by
        rw [List.filter_eq_self]
        intro it hit
        have hx := gluePre_below hfg (I + 1) hcnt hsort hcheck it.key
          (keysOf_mem_of_mem hit) (pivot + 1) (by rw [hloAtcnt]; simp)
        simp
        omega
      have hcwc := (chainCheck_iff (by rw [hclen, hkl])).1 hcheck (I + 1) hcntc
      rw [hloAtcnt] at hcwc
      have hFs := wfi_flatten_sortedIn h hcwc
      have hfilterC : (Node.flatten h (cs.get ⟨I + 1, hcntc⟩)).filter
          (fun it => decide (it.key ≤ pivot)) = [] := by
        rw [List.filter_eq_nil_iff]
        intro it hit
        have hx := sortedIn_mem_lb hFs (keysOf_mem_of_mem hit)
        simp only [lbLt_some] at hx
        simp
        omega
      have hfilterR : (glueRest (fun c => Node.flatten h c) (its.drop (I + 1))
          (cs.drop (I + 1 + 1))).filter (fun it => decide (it.key ≤ pivot)) = [] := by
        rw [List.filter_eq_nil_iff]
        intro it hit
        have hub : ubGt (hiAt hi (keysOf its) (I + 1)) pivot = true := by
          by_cases hI1 : I + 1 < (keysOf its).length
          · rw [hiAt_of_lt hI1]
            have h1 := pairwise_keys_lt hp hIlen (show I + 1 < its.length by omega)
              (by omega)
            rw [getD_keysOf_eq (show I + 1 < its.length by omega)]
            simp only [List.get_eq_getElem] at h1 ⊢
            simp only [ubGt_some]
            simp
            omega
          · rw [hiAt_of_ge (by omega)]
            exact hhi
        have hx := glueRest_above hfg (I + 1) hsort hcheck it.key
          (keysOf_mem_of_mem hit) pivot hub
        simp
        omega
      have hremainder : (glue (fun c => Node.flatten h c) (its.drop (I + 1))
          (cs.drop (I + 1))).filter (fun it => decide (it.key ≤ pivot)) = [] := by
        rw [List.drop_eq_getElem_cons hcntc, glue_cons, List.filter_append]
        rw [show cs[I + 1] = cs.get ⟨I + 1, hcntc⟩ from rfl, hfilterC]
        rw [List.nil_append]
        exact hfilterR
      simp only [Node.descend, hfind, Node.items_mk, Node.children_mk,
        eq_self_iff_true, if_true]
      rw [descendWalk_spec _ _ s (by simp; omega)
        (fun c hc s' => hmemw c (by
          have := List.mem_reverse.1 hc
          exact List.mem_of_mem_take this) s')]
      rw [List.reverse_reverse, List.reverse_reverse]
      rw [hsplit, List.filter_append, hfilterP, hremainder, List.append_nil]
    · have hfind : Node.find (Node.mk its cs) pivot = (rank (keysOf its) pivot, false) :=
        find_eq_rank_of_notin (by simpa using hp) (by simpa using hmem)
      set I := rank (keysOf its) pivot with hIdef
      have hIle : I ≤ its.length := by
        have := @rank_le_length (keysOf its) pivot; omega
      have hIc : I < cs.length := by omega
      have hgdI : cs.getD I ⟨[], []⟩ = cs[I] := List.getD_eq_getElem _ _ hIc
      have hcw := (chainCheck_iff (by rw [hclen, hkl])).1 hcheck I hIc
      have hb := rank_bounds hsort hlo hhi hmem
      have ihc := ih cs[I] hcw hb.1 hb.2 s
      have hflatdec : Node.flatten (h + 1) (Node.mk its cs) =
          gluePre (fun c => Node.flatten h c) (its.take I) (cs.take I) ++
            (Node.flatten h cs[I] ++ glueRest (fun c => Node.flatten h c)
              (its.drop I) (cs.drop (I + 1))) := by
        show glue _ its cs = _
        rw [glue_decomp _ hclen hIle, hgdI]
      have hfilterP : (gluePre (fun c => Node.flatten h c) (its.take I)
          (cs.take I)).filter (fun it => decide (it.key ≤ pivot)) =
          gluePre (fun c => Node.flatten h c) (its.take I) (cs.take I) := by
        rw [List.filter_eq_self]
        intro it hit
        have hx := gluePre_below hfg I hIle hsort hcheck it.key
          (keysOf_mem_of_mem hit) pivot hb.1
        simp
        omega
      have hfilterR : (glueRest (fun c => Node.flatten h c) (its.drop I)
          (cs.drop (I + 1))).filter (fun it => decide (it.key ≤ pivot)) = [] := by
        rw [List.filter_eq_nil_iff]
        intro it hit
        have hx := glueRest_above hfg I hsort hcheck it.key
          (keysOf_mem_of_mem hit) pivot hb.2
        simp
        omega
      simp only [Node.descend, hfind, Node.items_mk, Node.children_mk,
        Bool.false_eq_true, if_false, hgdI, ihc]
      rw [hflatdec, List.filter_append, List.filter_append, hfilterP, hfilterR,
        List.append_nil, List.reverse_append]
      rw [visitItems_append]
      rcases hres : visitItems f (((Node.flatten h cs[I]).filter
          (fun it => decide (it.key ≤ pivot))).reverse) s with ⟨s₁, b₁⟩
      rw [hres]
      cases b₁ with
      | false => rfl
      | true =>
        show descendWalk _ f _ _ s₁ = _
        rw [descendWalk_spec _ _ s₁ (by simp; omega)
          (fun c hc s' => hmemw c (by
            have := List.mem_reverse.1 hc
            exact List.mem_of_mem_take this) s')]
        rw [List.reverse_reverse, List.reverse_reverse]
        rfl

/-! ## Visitors: collection and call logging -/

lemma visitItems_collect {V : Type} :
    ∀ (l : List (Item V)) (s : List (Int × V)),
      visitItems collectV l s = (s ++ l.map (fun it => (it.key, it.value)), true)
  | [], s => by simp [visitItems]
  | it :: l, s => by
    show visitItems collectV l (s ++ [(it.key, it.value)]) = _
    rw [visitItems_collect l _]
    simp

lemma goodLog_of_allTrue {V : Type} {v : Int → V → Bool} {L : List (Int × V)}
    (h : allTrue v L) : goodLog v L := by
  intro pre x suf hL _
  exact h x (by rw [hL]; simp)

lemma goodLog_snoc {V : Type} {v : Int → V → Bool} {L : List (Int × V)}
    {p : Int × V} (h : allTrue v L) : goodLog v (L ++ [p]) := by
  intro pre x suf hL hsuf
  have hlen : pre.length + (suf.length + 1) = L.length + 1 := by
    have := congrArg List.length hL
    simp at this
    omega
  have hsuflen : 0 < suf.length := List.length_pos.2 hsuf
  have hprelt : pre.length < L.length := by omega
  have h1 : (pre ++ x :: suf).getD pre.length p = x := by
    rw [List.getD_eq_getElem _ _ (by simp)]
    rw [List.getElem_append_right (le_refl _)]
    simp
  have h2 : (L ++ [p]).getD pre.length p = L.getD pre.length p := by
    rw [List.getD_eq_getElem _ _ (by simp; omega),
      List.getElem_append_left hprelt, List.getD_eq_getElem _ _ hprelt]
  have hmem : x ∈ L := by
    rw [← h1, ← hL, h2, List.getD_eq_getElem _ _ hprelt]
    exact List.getElem_mem _
  exact h x hmem

lemma allTrue_snoc {V : Type} {v : Int → V → Bool} {L : List (Int × V)}
    {p : Int × V} (h : allTrue v L) (hp : v p.1 p.2 = true) :
    allTrue v (L ++ [p]) := by
  intro x hx
  rcases List.mem_append.1 hx with hm | hm
  · exact h x hm
  · have : x = p := by simpa using hm
    rw [this]
    exact hp

/-- Running `visitItems` with the logging visitor: the log only ever
extends by calls, and no call follows a `false` answer. -/
lemma visitItems_log {V : Type} (v : Int → V → Bool) :
    ∀ (l : List (Item V)) (s : List (Int × V)), allTrue v s →
      goodLog v (visitItems (logV v) l s).1 ∧
      ((visitItems (logV v) l s).2 = true →
        allTrue v (visitItems (logV v) l s).1)
  | [], s, hs => ⟨goodLog_of_allTrue hs, fun _ => hs⟩
  | it :: l, s, hs => by
    rcases hv : v it.key it.value with _ | _
    · have hred : visitItems (logV v) (it :: l) s =
          (s ++ [(it.key, it.value)], false) := by
        simp only [visitItems, logV, hv]
      rw [hred]
      exact ⟨goodLog_snoc hs, fun hc => by cases hc⟩
    · have hred : visitItems (logV v) (it :: l) s =
          visitItems (logV v) l (s ++ [(it.key, it.value)]) := by
        simp only [visitItems, logV, hv]
      rw [hred]
      exact visitItems_log v l (s ++ [(it.key, it.value)]) (allTrue_snoc hs hv)

/-! ## Tree-level traversal corollaries -/

theorem btree_scan_flatten {V σ : Type} (tr : BTree V)
    (f : σ → Int → V → σ × Bool) (s : σ) :
    tr.scan f s = (visitItems f (BTree.flatten tr) s).1 := by
  obtain ⟨ht, root?, tlen⟩ := tr
  cases root? with
  | none => rfl
  | some root =>
    show (Node.scan f ht root s).1 = _
    rw [scan_flatten]
    rfl

theorem btree_reverse_flatten {V σ : Type} {tr : BTree V}
    (hwf : BTree.wf tr = true) (f : σ → Int → V → σ × Bool) (s : σ) :
    tr.reverse f s = (visitItems f (BTree.flatten tr).reverse s).1 := by
  obtain ⟨ht, root?, tlen⟩ := tr
  cases root? with
  | none => rfl
  | some root =>
    simp only [BTree.wf, Bool.and_eq_true, decide_eq_true_eq] at hwf
    show (Node.reverse f ht root s).1 = _
    rw [reverse_flatten f ht root hwf.1]
    rfl

theorem btree_ascend_flatten {V σ : Type} {tr : BTree V} (pivot : Int)
    (hwf : BTree.wf tr = true) (f : σ → Int → V → σ × Bool) (s : σ) :
    tr.ascend pivot f s =
      (visitItems f ((BTree.flatten tr).filter
        (fun it => decide (pivot ≤ it.key))) s).1 := by
  obtain ⟨ht, root?, tlen⟩ := tr
  cases root? with
  | none => rfl
  | some root =>
    simp only [BTree.wf, Bool.and_eq_true, decide_eq_true_eq] at hwf
    show (Node.ascend pivot f ht root s).1 = _
    rw [ascend_flatten pivot f ht root hwf.1 rfl rfl]
    rfl

theorem btree_descend_flatten {V σ : Type} {tr : BTree V} (pivot : Int)
    (hwf : BTree.wf tr = true) (f : σ → Int → V → σ × Bool) (s : σ) :
    tr.descend pivot f s =
      (visitItems f (((BTree.flatten tr).filter
        (fun it => decide (it.key ≤ pivot))).reverse) s).1 := by
  obtain ⟨ht, root?, tlen⟩ := tr
  cases root? with
  | none => rfl
  | some root =>
    simp only [BTree.wf, Bool.and_eq_true, decide_eq_true_eq] at hwf
    show (Node.descend pivot f ht root s).1 = _
    rw [descend_flatten pivot f ht root hwf.1 rfl rfl]
    rfl

lemma btree_greaterOrEqual_eq_ascend {V σ : Type} (tr : BTree V) (pivot : Int)
    (f : σ → Int → V → σ × Bool) (s : σ) :
    tr.greaterOrEqual pivot f s = tr.ascend pivot f s := by
  obtain ⟨ht, root?, tlen⟩ := tr
  cases root? <;> rfl

lemma btree_lessOrEqual_eq_descend {V σ : Type} (tr : BTree V) (pivot : Int)
    (f : σ → Int → V → σ × Bool) (s : σ) :
    tr.lessOrEqual pivot f s = tr.descend pivot f s := by
  obtain ⟨ht, root?, tlen⟩ := tr
  cases root? <;> rfl

/-! ## The claim-level structural invariant -/

lemma wfi_InvAt {V : Type} [Inhabited V] :
    ∀ (h : Nat) {mn mx : Nat} {lo hi : Option Int} {n : Node V} (isRoot : Bool),
      Node.wfi h mn mx lo hi n = true →
      (isRoot = true ∨ minItems ≤ mn) →
      InvAt h isRoot n := by
  intro h
  induction h with
  | zero =>
    intro mn mx lo hi n isRoot hw hroot
    rw [wfi_zero] at hw
    refine ⟨hw.1, ?_, ?_⟩
    · have := sortedIn_pairwise hw.2.2.2
      rwa [Node.keys_eq] at this
    · rcases hroot with hr | hr
      · exact Or.inl hr
      · exact Or.inr (le_trans hr hw.2.1)
  | succ h ih =>
    intro mn mx lo hi n isRoot hw hroot
    rw [wfi_succ] at hw
    obtain ⟨hclen, hmn', hmx', hsort, hcheck⟩ := hw
    have hkl : n.keys.length = n.items.length := by
      rw [Node.keys_eq, keysOf_length]
    refine ⟨hclen, ?_, ?_, ?_, ?_⟩
    · have := sortedIn_pairwise hsort
      rwa [Node.keys_eq] at this
    · rcases hroot with hr | hr
      · exact Or.inl hr
      · exact Or.inr (le_trans hr hmn')
    · intro i hilt
      have hic : i < n.children.length := by omega
      have hi1c : i + 1 < n.children.length := by omega
      have hgdi : n.children.getD i ⟨[], []⟩ = n.children[i] :=
        List.getD_eq_getElem _ _ hic
      have hgdi1 : n.children.getD (i + 1) ⟨[], []⟩ = n.children[i + 1] :=
        List.getD_eq_getElem _ _ hi1c
      have hgdit : n.items.getD i default = n.items.get ⟨i, hilt⟩ :=
        List.getD_eq_getElem _ _ hilt
      have hkey : n.keys.getD i 0 = (n.items.get ⟨i, hilt⟩).key := by
        rw [Node.keys_eq]
        exact getD_keysOf_eq hilt
      have hcwi := (chainCheck_iff (by omega)).1 hcheck i hic
      have hcwi1 := (chainCheck_iff (by omega)).1 hcheck (i + 1) hi1c
      constructor
      · intro k hk
        rw [hgdi] at hk
        have hs := wfi_flatten_sortedIn h hcwi
        have hub := sortedIn_mem_ub hs hk
        rw [hiAt_of_lt (by omega), hkey] at hub
        rw [hgdit]
        simpa using hub
      · intro k hk
        rw [hgdi1] at hk
        have hs := wfi_flatten_sortedIn h hcwi1
        have hlb := sortedIn_mem_lb hs hk
        rw [loAt_succ, hkey] at hlb
        rw [hgdit]
        simpa using hlb
    · intro c hc
      obtain ⟨lo', hi', hw'⟩ := chainCheck_mem hcheck c hc
      exact ih false hw' (Or.inr (le_refl _))

lemma btree_flatten_pairwise {V : Type} {tr : BTree V}
    (hwf : BTree.wf tr = true) :
    (keysOf (BTree.flatten tr)).Pairwise (· < ·) := by
  obtain ⟨ht, root?, tlen⟩ := tr
  cases root? with
  | none => simp [BTree.flatten]
  | some root =>
    simp only [BTree.wf, Bool.and_eq_true, decide_eq_true_eq] at hwf
    exact wfi_flatten_pairwise hwf.1

lemma btree_len_flatten {V : Type} {tr : BTree V} (hwf : BTree.wf tr = true) :
    tr.length = (BTree.flatten tr).length := by
  obtain ⟨ht, root?, tlen⟩ := tr
  cases root? with
  | none =>
    simp only [BTree.wf, Bool.and_eq_true, decide_eq_true_eq] at hwf
    show tlen = ([] : List (Item V)).length
    simp [hwf.2]
  | some root =>
    simp only [BTree.wf, Bool.and_eq_true, decide_eq_true_eq] at hwf
    exact hwf.2

/-! ## Claims -/

set_option maxRecDepth 10000 in
/-- C1: the claim that `GetOrNearest(k)` always returns the entry with the
greatest key ≤ k is false: on the tree with the 520 even keys 0..1038 the
key 510 is present (so a floor of 511 exists and equals 510), yet
`GetOrNearest(511)` returns the zero key 0 with a nil value, because at
height ≥ 2 the recursion forgets the separator fallback `items[i-1]`. -/
theorem C1_getOrNearest_floor_bug :
    t520.get 510 = (some (), true) ∧
    (510 : Int) ≤ 511 ∧
    t520.getOrNearest 511 = some (0, none) := by
  refine ⟨by decide, by decide, by decide⟩

/-- C2: the claim that every public operation is total and that
`GetOrNearest` returns the zero key/value when every key exceeds the query
is false: on the single-key leaf-root tree {5} the call `GetOrNearest(3)`
falls through to `n.children[0]` of a leaf and dereferences a nil pointer
(modelled as `none`), even though the tree is a well-formed reachable
state. -/
theorem C2_getOrNearest_panic_bug :
    ((BTree.empty.set 5 ()).2).getOrNearest 3 = none ∧
    BTree.wf ((BTree.empty.set 5 ()).2) = true ∧
    Reachable ((BTree.empty.set 5 ()).2) := by
  exact ⟨rfl, rfl, Reachable.set 5 () Reachable.empty⟩

/-- C3: after every sequence of `Set`/`Delete` calls starting from the empty
tree the structural invariants hold: the tree is well-formed, and the root
(when present) satisfies `InvAt` — strictly sorted keys in every node, one
more child than items in every internal node, every separator strictly
between the keys of its neighbouring subtrees, leaves exactly at depth =
height (children vanish exactly at fuel 0), and at least `minItems` items
in every non-root node. -/
theorem C3_invariants {V : Type} [Inhabited V] {t : BTree V}
    (hr : Reachable t) :
    BTree.wf t = true ∧
    ∀ root, t.root = some root → InvAt t.height true root := by
  have hwf := reachable_wf hr
  refine ⟨hwf, ?_⟩
  intro root hroot
  obtain ⟨ht, root?, tlen⟩ := t
  cases root? with
  | none => cases hroot
  | some r =>
    have he : r = root := by simpa using hroot
    subst he
    simp only [BTree.wf, Bool.and_eq_true, decide_eq_true_eq] at hwf
    exact wfi_InvAt ht true hwf.1 (Or.inl rfl)

theorem C3_witness :
    BTree.wf ((BTree.empty.set 1 ()).2) = true ∧
    ∀ root, ((BTree.empty.set 1 ()).2).root = some root →
      InvAt ((BTree.empty.set 1 ()).2).height true root :=
  C3_invariants (Reachable.set 1 () Reachable.empty)

/-- C4: round trip — on any reachable tree, after `Set(k, v)` a `Get(k)`
returns `(v, true)`, and after a subsequent `Delete(k)` a `Get(k)` returns
`(none, false)`. -/
theorem C4_roundtrip {V : Type} [Inhabited V] {t : BTree V} (hr : Reachable t)
    (key : Int) (value : V) :
    (t.set key value).2.get key = (some value, true) ∧
    ((t.set key value).2.delete key).2.get key = (none, false) := by
  have hwf := reachable_wf hr
  have hs := btree_set_spec key value hwf
  have hlook : lookupKV key (BTree.flatten (t.set key value).2) = some value := by
    rcases hrep : (t.set key value).1.2 with _ | _
    · have hf := hs.2.2.2.2 hrep
      rw [hf.1]
      exact lookupKV_insortKV_self
    · have ht' := hs.2.2.2.1 hrep
      rw [ht'.1]
      exact lookupKV_replaceV_self (hs.2.1.1 hrep)
  have hwf' := hs.1
  have hg := btree_get_spec key hwf'
  have hmem' : key ∈ keysOf (BTree.flatten (t.set key value).2) := by
    rw [← lookupKV_isSome_iff, hlook]
    rfl
  constructor
  · have h1 : ((t.set key value).2.get key).1 = some value := by
      rw [hg.1, hlook]
    have h2 : ((t.set key value).2.get key).2 = true := hg.2.2 hmem'
    exact Prod.ext h1 h2
  · have hd := btree_delete_spec key hwf'
    have hdel : ((t.set key value).2.delete key).1.2 = true := hd.2.1.2 hmem'
    have hfl := (hd.2.2.2 hdel).1
    have hwf2 := hd.1
    have hp' : (keysOf (BTree.flatten (t.set key value).2)).Pairwise (· < ·) :=
      btree_flatten_pairwise hwf'
    have hlook2 : lookupKV key
        (BTree.flatten ((t.set key value).2.delete key).2) = none := by
      rw [hfl]
      exact lookupKV_eraseKey_self hp'
    have hnmem : key ∉ keysOf (BTree.flatten ((t.set key value).2.delete key).2) :=
      lookupKV_eq_none_iff.1 hlook2
    have hg2 := btree_get_spec key hwf2
    have h1 : (((t.set key value).2.delete key).2.get key).1 = none := by
      rw [hg2.1, hlook2]
    have h2 : (((t.set key value).2.delete key).2.get key).2 = false := by
      rcases hb : (((t.set key value).2.delete key).2.get key).2 with _ | _
      · rfl
      · exact absurd (hg2.2.1 hb) hnmem
    exact Prod.ext h1 h2

theorem C4_witness :
    (((BTree.empty.set 1 ()).2).set 5 ()).2.get 5 = (some (), true) ∧
    (((((BTree.empty.set 1 ()).2).set 5 ()).2).delete 5).2.get 5 = (none, false) :=
  C4_roundtrip (Reachable.set 1 () Reachable.empty) 5 ()

/-- C5: on every reachable tree, `Scan` with the always-continue collecting
visitor yields exactly the flattened contents (each entry once), in strictly
increasing key order, and `Reverse` yields exactly the reverse of the
`Scan` sequence. -/
theorem C5_scan_reverse {V : Type} [Inhabited V] {t : BTree V}
    (hr : Reachable t) :
    t.scan collectV [] =
      (BTree.flatten t).map (fun it => (it.key, it.value)) ∧
    ((t.scan collectV []).map Prod.fst).Pairwise (· < ·) ∧
    t.reverse collectV [] = (t.scan collectV []).reverse := by
  have hwf := reachable_wf hr
  have h1 : t.scan collectV [] =
      (BTree.flatten t).map (fun it => (it.key, it.value)) := by
    rw [btree_scan_flatten, visitItems_collect]
    simp
  refine ⟨h1, ?_, ?_⟩
  · rw [h1, List.map_map]
    simpa [keysOf, Function.comp] using btree_flatten_pairwise hwf
  · rw [btree_reverse_flatten hwf, visitItems_collect, h1]
    simp

theorem C5_witness :
    ((BTree.empty.set 3 ()).2).scan collectV [] =
      (BTree.flatten ((BTree.empty.set 3 ()).2)).map
        (fun it => (it.key, it.value)) ∧
    ((((BTree.empty.set 3 ()).2).scan collectV []).map Prod.fst).Pairwise
      (· < ·) ∧
    ((BTree.empty.set 3 ()).2).reverse collectV [] =
      (((BTree.empty.set 3 ()).2).scan collectV []).reverse :=
  C5_scan_reverse (Reachable.set 3 () Reachable.empty)

/-- C6: on every reachable tree, `Len()` equals the number of entries a
full scan yields (the flattened length); a replacing `Set` leaves it
unchanged, an inserting `Set` increments it, a successful `Delete`
decrements it and a failing `Delete` leaves it unchanged. -/
theorem C6_len {V : Type} [Inhabited V] {t : BTree V} (hr : Reachable t) :
    BTree.len t = (BTree.flatten t).length ∧
    (∀ key value,
      ((t.set key value).1.2 = true →
        BTree.len (t.set key value).2 = BTree.len t) ∧
      ((t.set key value).1.2 = false →
        BTree.len (t.set key value).2 = BTree.len t + 1)) ∧
    (∀ key,
      ((t.delete key).1.2 = true →
        BTree.len (t.delete key).2 + 1 = BTree.len t) ∧
      ((t.delete key).1.2 = false →
        BTree.len (t.delete key).2 = BTree.len t)) := by
  have hwf := reachable_wf hr
  refine ⟨btree_len_flatten hwf, ?_, ?_⟩
  · intro key value
    have hs := btree_set_spec key value hwf
    exact ⟨fun h => (hs.2.2.2.1 h).2, fun h => (hs.2.2.2.2 h).2⟩
  · intro key
    have hd := btree_delete_spec key hwf
    constructor
    · intro h
      exact (hd.2.2.2 h).2
    · intro h
      rw [hd.2.2.1 h]

theorem C6_witness :
    BTree.len ((BTree.empty.set 4 ()).2) =
      (BTree.flatten ((BTree.empty.set 4 ()).2)).length ∧
    (∀ key value,
      ((((BTree.empty.set 4 ()).2).set key value).1.2 = true →
        BTree.len (((BTree.empty.set 4 ()).2).set key value).2 =
          BTree.len ((BTree.empty.set 4 ()).2)) ∧
      ((((BTree.empty.set 4 ()).2).set key value).1.2 = false →
        BTree.len (((BTree.empty.set 4 ()).2).set key value).2 =
          BTree.len ((BTree.empty.set 4 ()).2) + 1)) ∧
    (∀ key,
      ((((BTree.empty.set 4 ()).2).delete key).1.2 = true →
        BTree.len (((BTree.empty.set 4 ()).2).delete key).2 + 1 =
          BTree.len ((BTree.empty.set 4 ()).2)) ∧
      ((((BTree.empty.set 4 ()).2).delete key).1.2 = false →
        BTree.len (((BTree.empty.set 4 ()).2).delete key).2 =
          BTree.len ((BTree.empty.set 4 ()).2))) :=
  C6_len (Reachable.set 4 () Reachable.empty)

/-- C7: on every reachable tree and pivot, `Ascend` (alias
`GreaterOrEqual`) visits with the collecting visitor exactly the entries
with key ≥ pivot, in ascending key order, and `Descend` (alias
`LessOrEqual`) exactly those with key ≤ pivot, in descending key order;
in particular nothing is visited when no entry qualifies. -/
theorem C7_pivot_scans {V : Type} [Inhabited V] {t : BTree V}
    (hr : Reachable t) (pivot : Int) :
    t.ascend pivot collectV [] =
      ((BTree.flatten t).filter (fun it => decide (pivot ≤ it.key))).map
        (fun it => (it.key, it.value)) ∧
    t.descend pivot collectV [] =
      (((BTree.flatten t).filter (fun it => decide (it.key ≤ pivot))).reverse).map
        (fun it => (it.key, it.value)) ∧
    t.greaterOrEqual pivot collectV [] = t.ascend pivot collectV [] ∧
    t.lessOrEqual pivot collectV [] = t.descend pivot collectV [] ∧
    ((t.ascend pivot collectV []).map Prod.fst).Pairwise (· < ·) ∧
    ((t.descend pivot collectV []).map Prod.fst).Pairwise (· > ·) := by
  have hwf := reachable_wf hr
  have h1 : t.ascend pivot collectV [] =
      ((BTree.flatten t).filter (fun it => decide (pivot ≤ it.key))).map
        (fun it => (it.key, it.value)) := by
    rw [btree_ascend_flatten pivot hwf, visitItems_collect]
    simp
  have h2 : t.descend pivot collectV [] =
      (((BTree.flatten t).filter (fun it => decide (it.key ≤ pivot))).reverse).map
        (fun it => (it.key, it.value)) := by
    rw [btree_descend_flatten pivot hwf, visitItems_collect]
    simp
  have hpw := btree_flatten_pairwise hwf
  refine ⟨h1, h2, btree_greaterOrEqual_eq_ascend t pivot collectV [],
    btree_lessOrEqual_eq_descend t pivot collectV [], ?_, ?_⟩
  · rw [h1, List.map_map]
    have hsub : List.Sublist ((BTree.flatten t).filter
        (fun it => decide (pivot ≤ it.key))) (BTree.flatten t) :=
      List.filter_sublist _
    have := hpw.sublist (List.Sublist.map Item.key hsub)
    simpa [keysOf, Function.comp] using this
  · rw [h2, List.map_map, List.map_reverse, List.pairwise_reverse]
    have hsub : List.Sublist ((BTree.flatten t).filter
        (fun it => decide (it.key ≤ pivot))) (BTree.flatten t) :=
      List.filter_sublist _
    have := hpw.sublist (List.Sublist.map Item.key hsub)
    simpa [keysOf, Function.comp] using this

theorem C7_witness :
    ((BTree.empty.set 2 ()).2).ascend 0 collectV [] =
      ((BTree.flatten ((BTree.empty.set 2 ()).2)).filter
        (fun it => decide ((0 : Int) ≤ it.key))).map
          (fun it => (it.key, it.value)) ∧
    ((BTree.empty.set 2 ()).2).descend 0 collectV [] =
      (((BTree.flatten ((BTree.empty.set 2 ()).2)).filter
        (fun it => decide (it.key ≤ (0 : Int)))).reverse).map
          (fun it => (it.key, it.value)) ∧
    ((BTree.empty.set 2 ()).2).greaterOrEqual 0 collectV [] =
      ((BTree.empty.set 2 ()).2).ascend 0 collectV [] ∧
    ((BTree.empty.set 2 ()).2).lessOrEqual 0 collectV [] =
      ((BTree.empty.set 2 ()).2).descend 0 collectV [] ∧
    ((((BTree.empty.set 2 ()).2).ascend 0 collectV []).map Prod.fst).Pairwise
      (· < ·) ∧
    ((((BTree.empty.set 2 ()).2).descend 0 collectV []).map Prod.fst).Pairwise
      (· > ·) :=
  C7_pivot_scans (Reachable.set 2 () Reachable.empty) 0

/-- C8: deleting an absent key from a reachable tree returns the zero item
flag pair `(none, false)` and the very same tree value — length, height,
root and every node unchanged. -/
theorem C8_absent_delete {V : Type} [Inhabited V] {t : BTree V}
    (hr : Reachable t) (key : Int)
    (habs : key ∉ keysOf (BTree.flatten t)) :
    t.delete key = ((none, false), t) := by
  have hwf := reachable_wf hr
  have hd := btree_delete_spec key hwf
  have hflag : (t.delete key).1.2 = false := by
    rcases hb : (t.delete key).1.2 with _ | _
    · rfl
    · exact absurd (hd.2.1.1 hb) habs
  exact hd.2.2.1 hflag

theorem C8_witness :
    ((BTree.empty.set 1 ()).2).delete 9 =
      ((none, false), (BTree.empty.set 1 ()).2) :=
  C8_absent_delete (Reachable.set 1 () Reachable.empty) 9 (by decide)

/-- C9: in every traversal (`Scan`, `Reverse`, `Ascend`, `Descend`,
`GreaterOrEqual`, `LessOrEqual`) on a reachable tree, once the visitor
returns false it is never invoked again: in the invocation log, every call
except the final one was answered `true`. -/
theorem C9_early_termination {V : Type} [Inhabited V] {t : BTree V}
    (hr : Reachable t) (v : Int → V → Bool) (pivot : Int) :
    goodLog v (t.scan (logV v) []) ∧
    goodLog v (t.reverse (logV v) []) ∧
    goodLog v (t.ascend pivot (logV v) []) ∧
    goodLog v (t.descend pivot (logV v) []) ∧
    goodLog v (t.greaterOrEqual pivot (logV v) []) ∧
    goodLog v (t.lessOrEqual pivot (logV v) []) := by
  have hwf := reachable_wf hr
  have hnil : allTrue v ([] : List (Int × V)) :=
    fun x hx => absurd hx (List.not_mem_nil x)
  refine ⟨?_, ?_, ?_, ?_, ?_, ?_⟩
  · rw [btree_scan_flatten]
    exact (visitItems_log v _ [] hnil).1
  · rw [btree_reverse_flatten hwf]
    exact (visitItems_log v _ [] hnil).1
  · rw [btree_ascend_flatten pivot hwf]
    exact (visitItems_log v _ [] hnil).1
  · rw [btree_descend_flatten pivot hwf]
    exact (visitItems_log v _ [] hnil).1
  · rw [btree_greaterOrEqual_eq_ascend, btree_ascend_flatten pivot hwf]
    exact (visitItems_log v _ [] hnil).1
  · rw [btree_lessOrEqual_eq_descend, btree_descend_flatten pivot hwf]
    exact (visitItems_log v _ [] hnil).1

theorem C9_witness :
    goodLog (fun k _ => decide (k < 2))
      (((BTree.empty.set 1 ()).2).scan
        (logV (fun k _ => decide (k < 2))) []) ∧
    goodLog (fun k _ => decide (k < 2))
      (((BTree.empty.set 1 ()).2).reverse
        (logV (fun k _ => decide (k < 2))) []) ∧
    goodLog (fun k _ => decide (k < 2))
      (((BTree.empty.set 1 ()).2).ascend 0
        (logV (fun k _ => decide (k < 2))) []) ∧
    goodLog (fun k _ => decide (k < 2))
      (((BTree.empty.set 1 ()).2).descend 0
        (logV (fun k _ => decide (k < 2))) []) ∧
    goodLog (fun k _ => decide (k < 2))
      (((BTree.empty.set 1 ()).2).greaterOrEqual 0
        (logV (fun k _ => decide (k < 2))) []) ∧
    goodLog (fun k _ => decide (k < 2))
      (((BTree.empty.set 1 ()).2).lessOrEqual 0
        (logV (fun k _ => decide (k < 2))) []) :=
  C9_early_termination (Reachable.set 1 () Reachable.empty)
    (fun k _ => decide (k < 2)) 0

end Tinybtree
